import Mathlib

/-!
# CP Editor: the application window (src/appwindow.cpp)

A shallow embedding of the tab bookkeeping of `AppWindow`.

* The tab widget is a list of editor windows together with the current index
  (`-1` when there is no tab).  Qt's `QTabWidget` operations used by the source
  (`addTab`, `setCurrentIndex`, `removeTab`) are embedded with the behaviour Qt
  documents for them, including the `currentChanged` signal, which
  `setConnections` wires to `onTabChanged`.
* An editor window (`MainWindow`) is an external collaborator: the embedding
  keeps the values its getters report, the settings data and splitter state it
  holds, and the list of operations it has been asked to perform.
* A call through a null window pointer is the result `none`.
* What `MainWindow` does inside its operations is not in src; signals it may
  emit while an operation runs (`confirmTriggered`, `editorChanged`) are not
  part of the embedding.
* The window title, the message logger, the companion server, the updater,
  hotkeys, geometry and the autosave timer are write-only from the point of
  view of the tab bookkeeping and are left out.
* The tab texts are write-only as well: `applyEditorChanged` returns the list
  of its `setTabText(index, text)` calls.
* A directory is given by its entry list, a finite tree; an entry carries
  what `suffix()` and `canonicalFilePath()` report for it, so a link is an entry
  with the canonical path of its target. `openFolder` walks the tree by
  structural recursion.
* A constructor is a function from the stored settings to the state of the new
  window.
-/

namespace CPEditor

/-! ## External types -/

/-- View modes, `Settings::ViewMode` in the source. -/
inductive ViewMode
  | FULL_EDITOR
  | FULL_IO
  | SPLIT
deriving DecidableEq, Repr

/-- Settings snapshot handed to editor windows, `Settings::SettingsData` in
the source; its content is read by the editor windows only. -/
structure SettingsData where
  revision : Nat
deriving DecidableEq, Repr

/-- A companion request, `Network::CompanionData` in the source; only `url` is
read by the application window. -/
structure CompanionData where
  url : String
  tests : List (String × String)
deriving DecidableEq, Repr

/-- Persisted state of one editor, `MainWindow::EditorStatus` in the source. -/
structure EditorStatus where
  filePath : String
  untitledIndex : Int
  problemURL : String
  language : String
  textChanged : Bool
deriving DecidableEq, Repr

/-- State of the splitter of an editor window (a `QSplitter`). -/
inductive Splitter
  | initial
  | sizes (editor io : Nat)
  | restored (state : String)
deriving DecidableEq, Repr

/-- Operations of `MainWindow` that the application window invokes. -/
inductive Call
  | setSettingsData (data : SettingsData) (diagnostics : Bool)
  | setLanguage (lang : String)
  | focusOnEditor
  | loadStatus (status : EditorStatus)
  | applyCompanion (data : CompanionData)
  | closeConfirm
  | save (force : Bool) (head : String)
  | saveAs
  | compileOnly
  | compileAndRun
  | runOnly
  | formatSource
  | detachedExecution
  | killProcesses
  | insertText (content : String)
deriving DecidableEq, Repr

/-! ## Editor windows -/

/-- What the getters of an editor window report: `getFilePath`,
`getUntitledIndex`, `getProblemURL`, `getLanguage`, `isTextChanged`, and the
answer `closeConfirm` gives when the window is asked whether it may close. -/
structure Editor where
  filePath : String
  untitledIndex : Int
  problemURL : String
  language : String
  textChanged : Bool
  closeAnswer : Bool
deriving DecidableEq, Repr

/-- An editor window: the getter values, the settings data it holds, its
splitter, and the operations it has received so far (oldest first). -/
structure MainWindow extends Editor where
  settings : SettingsData
  splitter : Splitter
  calls : List Call
deriving DecidableEq, Repr

namespace MainWindow

/-- Modelled from the spec: the constructor `MainWindow(path, data, index)` is
not in src. The new window holds the given path, settings data and untitled
index, has no problem URL and no unsaved text. -/
def new (path : String) (data : SettingsData) (index : Int) : MainWindow :=
  { filePath := path, untitledIndex := index, problemURL := "", language := "",
    textChanged := false, closeAnswer := true,
    settings := data, splitter := Splitter.initial, calls := [] }

/-- Modelled from the spec: `MainWindow::isUntitled` is not in src. An untitled
tab is a tab identified by its index rather than by a path: it has no path. -/
def isUntitled (w : MainWindow) : Bool := decide (w.filePath = "")

/-- Appends an operation to the record of received operations. -/
def record (w : MainWindow) (c : Call) : MainWindow :=
  { w with calls := w.calls ++ [c] }

/-- Modelled from the spec: `MainWindow::setSettingsData` is not in src. The
window takes over the data it is given. -/
def setSettingsData (w : MainWindow) (data : SettingsData) (diagnostics : Bool) : MainWindow :=
  { w with settings := data, calls := w.calls ++ [Call.setSettingsData data diagnostics] }

/-- Modelled from the spec: `MainWindow::setLanguage` is not in src. -/
def setLanguage (w : MainWindow) (lang : String) : MainWindow :=
  { w with language := lang, calls := w.calls ++ [Call.setLanguage lang] }

/-- Modelled from the spec: `MainWindow::applyCompanion` is not in src. The
window takes the test-case data of the request and from then on carries the
problem URL of the request. -/
def applyCompanion (w : MainWindow) (data : CompanionData) : MainWindow :=
  { w with problemURL := data.url, calls := w.calls ++ [Call.applyCompanion data] }

/-- Modelled from the spec: `MainWindow::toStatus` is not in src. -/
def toStatus (w : MainWindow) : EditorStatus :=
  { filePath := w.filePath, untitledIndex := w.untitledIndex, problemURL := w.problemURL,
    language := w.language, textChanged := w.textChanged }

/-- Modelled from the spec: `MainWindow::loadStatus` is not in src. -/
def loadStatus (w : MainWindow) (st : EditorStatus) : MainWindow :=
  { w with filePath := st.filePath, untitledIndex := st.untitledIndex,
           problemURL := st.problemURL, language := st.language,
           textChanged := st.textChanged,
           calls := w.calls ++ [Call.loadStatus st] }

/-- The splitter of the window after `getSplitter()->...` changed it. -/
def setSplitter (w : MainWindow) (sp : Splitter) : MainWindow :=
  { w with splitter := sp }

end MainWindow

/-! ## The settings manager -/

/-- Modelled from the spec: `Settings::SettingManager` is not in src. It is the
persistence collaborator: every getter returns what the matching setter
stored. -/
structure SettingManager where
  viewMode : ViewMode
  defaultLang : String
  autoSave : Bool
  useHotExit : Bool
  competitiveCompanionActive : Bool
  competitiveCompanionOpenNewTab : Bool
  numberOfTabs : Int
  currentIndex : Int
  editorStatus : List (Int × EditorStatus)
  splitterSizes : String
  snippets : List (String × String × String)
  data : SettingsData
deriving DecidableEq, Repr

namespace SettingManager

/-- The data handed to editor windows, `toData()`. -/
def toData (m : SettingManager) : SettingsData := m.data

/-- The setter `setViewMode`. -/
def setViewMode (m : SettingManager) (v : ViewMode) : SettingManager :=
  { m with viewMode := v }

/-- The call `clearEditorStatus()`. -/
def clearEditorStatus (m : SettingManager) : SettingManager :=
  { m with editorStatus := [] }

/-- The setter `setEditorStatus(i, status)`: the status is stored under key `i`,
replacing what was stored there. -/
def setEditorStatus (m : SettingManager) (i : Int) (st : EditorStatus) : SettingManager :=
  { m with editorStatus := (m.editorStatus.filter (fun kv => decide (kv.1 ≠ i))) ++ [(i, st)] }

/-- The getter `getEditorStatus(i)`. -/
def getEditorStatus (m : SettingManager) (i : Int) : Option EditorStatus :=
  (m.editorStatus.find? (fun kv => decide (kv.1 = i))).map Prod.snd

/-- The getter `getSnippetsNames(lang)`. -/
def getSnippetsNames (m : SettingManager) (lang : String) : List String :=
  (m.snippets.filter (fun e => decide (e.1 = lang))).map (fun e => e.2.1)

/-- The getter `getSnippet(lang, name)`. -/
def getSnippet (m : SettingManager) (lang name : String) : String :=
  match m.snippets.find? (fun e => decide (e.1 = lang) && decide (e.2.1 = name)) with
  | some e => e.2.2
  | none => ""

end SettingManager

/-! ## The file system -/

/-- The part of the file system the window asks about. `entry p` says that an
entry named `p` exists, `sameFile a b` is `QFileInfo(a) == QFileInfo(b)`,
`dir p` is `QDir(p).exists()`, `parentDir p` says that `QDir(p).cdUp()` finds
an existing parent directory, and `mkdirOk p` that creating `p` succeeds. -/
structure FileSystem where
  entry : String → Bool
  sameFile : String → String → Bool
  dir : String → Bool
  parentDir : String → Bool
  mkdirOk : String → Bool

namespace FileSystem

/-- The test `QFile::exists(path)`; Qt answers false for an empty name. -/
def fileExists (fs : FileSystem) (path : String) : Bool :=
  !decide (path = "") && fs.entry path

/-- The file system after `parent.mkdir(dir.dirName())` for the directory
`path`. -/
def mkdir (fs : FileSystem) (path : String) : FileSystem :=
  if fs.mkdirOk path then
    { fs with entry := fun p => decide (p = path) || fs.entry p,
              dir := fun p => decide (p = path) || fs.dir p }
  else fs

end FileSystem

/-! ## The application window -/

/-- State of the application window: the tab widget (tabs in order, current
index), the settings manager, the three view-mode actions, the `diagonistics`
flag and whether the single-shot `editorChangeApply` timer is running. -/
structure AppWindow where
  tabs : List MainWindow
  currentIndex : Int
  settingManager : SettingManager
  actionEditor_Mode : Bool
  actionIO_Mode : Bool
  actionSplit_Mode : Bool
  actionAutosave : Bool
  diagonistics : Bool
  editorChangeApply : Bool
deriving DecidableEq, Repr

namespace AppWindow

/-- The tab count, `ui->tabWidget->count()`. -/
def count (s : AppWindow) : Int := s.tabs.length

/-- The widget at an index, `ui->tabWidget->widget(index)`: null when the index
is out of range. -/
def widget (s : AppWindow) (index : Int) : Option MainWindow :=
  if 0 ≤ index then s.tabs[index.toNat]? else none

/-- Source lines 996-1001. -/
def windowIndex (s : AppWindow) (index : Int) : Option MainWindow :=
  if index = -1 then none else s.widget index

/-- Source lines 988-994. -/
def currentWindow (s : AppWindow) : Option MainWindow :=
  if s.currentIndex = -1 then none else s.widget s.currentIndex

/-- Writes back the window at `index` after an operation changed it. -/
def setWidget (s : AppWindow) (index : Int) (w : MainWindow) : AppWindow :=
  if 0 ≤ index then { s with tabs := s.tabs.set index.toNat w } else s

/-- An operation through a non-null pointer to the window shown at `index`
(the pointer `fsp` of `openTab` after `addTab`). -/
def modifyWidget (s : AppWindow) (index : Int) (f : MainWindow → MainWindow) : AppWindow :=
  match s.widget index with
  | some w => s.setWidget index (f w)
  | none => s

/-- Source lines 820-828. -/
def on_actionEditor_Mode_triggered (s : AppWindow) : AppWindow :=
  let s1 := { s with settingManager := s.settingManager.setViewMode ViewMode.FULL_EDITOR,
                     actionEditor_Mode := true, actionIO_Mode := false,
                     actionSplit_Mode := false }
  match s1.currentWindow with
  | some w => s1.setWidget s1.currentIndex (w.setSplitter (Splitter.sizes 1 0))
  | none => s1

/-- Source lines 830-838. -/
def on_actionIO_Mode_triggered (s : AppWindow) : AppWindow :=
  let s1 := { s with settingManager := s.settingManager.setViewMode ViewMode.FULL_IO,
                     actionEditor_Mode := false, actionIO_Mode := true,
                     actionSplit_Mode := false }
  match s1.currentWindow with
  | some w => s1.setWidget s1.currentIndex (w.setSplitter (Splitter.sizes 0 1))
  | none => s1

/-- Source lines 840-849. -/
def on_actionSplit_Mode_triggered (s : AppWindow) : AppWindow :=
  let s1 := { s with settingManager := s.settingManager.setViewMode ViewMode.SPLIT,
                     actionEditor_Mode := false, actionIO_Mode := false,
                     actionSplit_Mode := true }
  let state := s1.settingManager.splitterSizes
  match s1.currentWindow with
  | some w => s1.setWidget s1.currentIndex (w.setSplitter (Splitter.restored state))
  | none => s1

/-- Source lines 608-642. The window at `index` is dereferenced without a null
check. -/
def onTabChanged (index : Int) (s : AppWindow) : Option AppWindow :=
  if index = -1 then some s
  else
    match s.windowIndex index with
    | none => none
    | some tmp =>
      let s1 := { s.setWidget index (tmp.setSettingsData s.settingManager.toData s.diagonistics)
                  with diagonistics := false }
      if s1.actionEditor_Mode then some s1.on_actionEditor_Mode_triggered
      else if s1.actionIO_Mode then some s1.on_actionIO_Mode_triggered
      else if s1.actionSplit_Mode then some s1.on_actionSplit_Mode_triggered
      else some s1

/-- Qt: `QTabWidget::setCurrentIndex`. An invalid index or the index that is
already current changes nothing; otherwise the index becomes current and
`currentChanged(index)` runs `onTabChanged`. -/
def setCurrentIndex (index : Int) (s : AppWindow) : Option AppWindow :=
  if 0 ≤ index ∧ index < s.count ∧ index ≠ s.currentIndex then
    onTabChanged index { s with currentIndex := index }
  else some s

/-- Qt: `QTabWidget::addTab`. The page is appended; the first page of an empty
tab widget becomes the current one. -/
def addTab (w : MainWindow) (s : AppWindow) : Option AppWindow :=
  let s1 := { s with tabs := s.tabs ++ [w] }
  if s.tabs.isEmpty then setCurrentIndex 0 s1 else some s1

/-- Qt: `QTabWidget::removeTab`. Removing the current page selects the page to
its right (the last page when there is none, no page when the widget becomes
empty); removing a page before the current one shifts the current index. -/
def removeTab (index : Int) (s : AppWindow) : Option AppWindow :=
  if 0 ≤ index ∧ index < s.count then
    let rest := s.tabs.eraseIdx index.toNat
    if index = s.currentIndex then
      if rest.isEmpty then onTabChanged (-1) { s with tabs := rest, currentIndex := -1 }
      else
        let newIndex : Int := if index < rest.length then index else rest.length - 1
        setCurrentIndex newIndex { s with tabs := rest, currentIndex := -1 }
    else if index < s.currentIndex then
      setCurrentIndex (s.currentIndex - 1) { s with tabs := rest }
    else some { s with tabs := rest }
  else some s

/-- Source lines 644-647: the single-shot timer is started. -/
def onEditorChanged (s : AppWindow) : AppWindow :=
  { s with editorChangeApply := true }

/-- Source lines 243-254. The result is the returned flag and the new state. -/
def closeTab (index : Int) (s : AppWindow) : Option (Bool × AppWindow) :=
  match s.windowIndex index with
  | none => none
  | some tmp =>
    if tmp.closeAnswer then
      (removeTab index (s.setWidget index (tmp.record Call.closeConfirm))).map
        (fun s1 => (true, s1.onEditorChanged))
    else some (false, s.setWidget index (tmp.record Call.closeConfirm))

/-- The first index `t0 + k` such that the `k`-th window of the list satisfies
`p`: the loops of source lines 270-278 and 316-324, which stop at the first
hit. -/
def firstTab (p : MainWindow → Bool) : List MainWindow → Nat → Option Nat
  | [], _ => none
  | tmp :: rest, t => if p tmp then some t else firstTab p rest (t + 1)

/-- Source lines 285-293 and 328-336: the untitled indices collected in `vis`. -/
def visited (tabs : List MainWindow) : List Int :=
  (tabs.filter (fun tmp => tmp.isUntitled && decide (tmp.problemURL = ""))).map
    (fun tmp => tmp.untitledIndex)

/-- Source lines 294-295 and 337-338: `for (index = 1; vis.contains(index); ++index);`
run for at most `fuel` tests, starting at `index`. -/
def scanIndex (vis : List Int) : Nat → Int → Option Int
  | 0, _ => none
  | fuel + 1, index => if vis.contains index then scanIndex vis fuel (index + 1) else some index

/-- The index the scan gives to a new untitled tab. -/
def lowestUnused (tabs : List MainWindow) : Option Int :=
  scanIndex (visited tabs) ((visited tabs).length + 1) 1

/-- The test `path.endsWith(suffix)` of `QString`. -/
def endsWith (path suffix : String) : Bool := suffix.toList.isSuffixOf path.toList

/-- Source lines 300-308: the language chosen from the ending of the path. -/
def languageFor (path defaultLang : String) : String :=
  if endsWith path ".java" then "Java"
  else if endsWith path ".py" || endsWith path ".py3" then "Python"
  else if endsWith path ".cpp" || endsWith path ".cxx" || endsWith path ".c" ||
      endsWith path ".cc" || endsWith path ".hpp" || endsWith path ".h" then "C++"
  else defaultLang

/-- The statement `currentWindow()->op()`: the operation is recorded by the
current window; without a current window a null pointer is dereferenced. -/
def callCurrent (c : Call) (s : AppWindow) : Option AppWindow :=
  s.currentWindow.map (fun w => s.setWidget s.currentIndex (w.record c))

/-- Source lines 263-346. -/
def openTab (fs : FileSystem) (path : String) (iscompanionOpenedTab : Bool) (s : AppWindow) :
    Option AppWindow :=
  if !iscompanionOpenedTab then
    match (if fs.fileExists path then
        firstTab (fun tmp => fs.sameFile path tmp.filePath) s.tabs 0 else none) with
    | some t => setCurrentIndex t s
    | none =>
      let t : Int := s.count
      (if path = "" then lowestUnused s.tabs else some 0).bind fun index =>
      let fsp := MainWindow.new path s.settingManager.toData index
      let lang := languageFor path s.settingManager.defaultLang
      (addTab fsp s).bind fun s1 =>
      (setCurrentIndex t (s1.modifyWidget t (fun w => w.setLanguage lang))).bind fun s2 =>
      s2.callCurrent Call.focusOnEditor
  else
    match firstTab (fun tmp => decide (path = tmp.problemURL)) s.tabs 0 with
    | some t => setCurrentIndex t s
    | none =>
      let t : Int := s.count
      (lowestUnused s.tabs).bind fun index =>
      let fsp := MainWindow.new "" s.settingManager.toData index
      (addTab fsp s).bind fun s1 =>
      (setCurrentIndex t s1).bind fun s2 =>
      s2.callCurrent Call.focusOnEditor

/-- Source lines 701-707. -/
def onIncomingCompanionRequest (fs : FileSystem) (data : CompanionData) (s : AppWindow) :
    Option AppWindow :=
  (if s.settingManager.competitiveCompanionOpenNewTab then openTab fs data.url true s
   else some s).bind fun s1 =>
  match s1.currentWindow with
  | some w => some (s1.setWidget s1.currentIndex (w.applyCompanion data))
  | none => some s1

/-- Qt: `QDir(path).filePath(name)` for a relative file name: the name is put
behind the directory path, which is "." for an empty path, with one "/"
between them unless the path already ends in one. -/
def dirFilePath (path name : String) : String :=
  let dir := if path = "" then "." else path
  if endsWith dir "/" then dir ++ name else dir ++ "/" ++ name

/-- Source lines 380-386: the file name of problem `i`. `QString name(65 + i)`
builds the one-character string whose code unit is the low 16 bits of
`65 + i`. -/
def contestName (language : String) (i : Nat) : String :=
  let name := String.singleton (Char.ofNat ((65 + i) % 65536))
  if language = "C++" then name ++ ".cpp"
  else if language = "Java" then name ++ ".java"
  else if language = "Python" then name ++ ".py"
  else name

/-- Source lines 378-388: the loop `for (int i = 0; i < number; ++i)`, given the
number of iterations still to run and the value of `i`. -/
def openContestLoop (fs : FileSystem) (path language : String) :
    Nat → Nat → AppWindow → Option AppWindow
  | 0, _, s => some s
  | remaining + 1, i, s =>
    (openTab fs (dirFilePath path (contestName language i)) false s).bind
      (openContestLoop fs path language remaining (i + 1))

/-- Source lines 369-389. The result is the file system after the directory was
created, and the new state. -/
def openContest (fs : FileSystem) (path lang : String) (number : Int) (s : AppWindow) :
    Option (FileSystem × AppWindow) :=
  let fs1 := if !fs.dir path && fs.parentDir path then fs.mkdir path else fs
  let language := if lang = "" then s.settingManager.defaultLang else lang
  (openContestLoop fs1 path language number.toNat 0 s).map (fun s1 => (fs1, s1))

/-- Source lines 527-533: the loop of Close All, run for at most `fuel`
iterations, with loop variable `t`. -/
def closeAllLoop : Nat → Int → AppWindow → Option AppWindow
  | 0, _, _ => none
  | fuel + 1, t, s =>
    if t < s.count then
      match closeTab t s with
      | none => none
      | some (true, s1) => closeAllLoop fuel ((t - 1) + 1) s1
      | some (false, s1) => some s1
    else some s

/-- Source lines 525-534. -/
def on_actionClose_All_triggered (s : AppWindow) : Option AppWindow :=
  closeAllLoop (s.tabs.length + 1) 0 s

/-- Source lines 405-408: the loop storing the editor statuses, given the number
of iterations still to run and the value of `i`. -/
def saveStatusLoop : Nat → Nat → AppWindow → Option AppWindow
  | 0, _, s => some s
  | remaining + 1, i, s =>
    match s.windowIndex i with
    | none => none
    | some w =>
      saveStatusLoop remaining (i + 1)
        { s with settingManager := s.settingManager.setEditorStatus i w.toStatus }

/-- Source lines 391-417. The result is the returned flag and the new state. -/
def quit (s : AppWindow) : Option (Bool × AppWindow) :=
  let s0 := { s with settingManager := s.settingManager.clearEditorStatus }
  if s0.settingManager.useHotExit then
    (if s0.count = 1 then
        (s0.windowIndex 0).map (fun w => w.isUntitled && !w.textChanged)
      else some false).bind fun single =>
    if single then
      some (true, { s0 with settingManager :=
        { s0.settingManager with numberOfTabs := 0, currentIndex := -1 } })
    else
      (saveStatusLoop s0.tabs.length 0 { s0 with settingManager :=
        { s0.settingManager with numberOfTabs := s0.count, currentIndex := s0.currentIndex } }).map
        (fun s1 => (true, s1))
  else
    s0.on_actionClose_All_triggered.map (fun s1 => (decide (s1.count = 0), s1))

/-- Source lines 164-196, up to the view mode. -/
def applySettings (s : AppWindow) : AppWindow :=
  let s1 := { s with actionAutosave := s.settingManager.autoSave }
  match s1.settingManager.viewMode with
  | ViewMode.FULL_EDITOR => s1.on_actionEditor_Mode_triggered
  | ViewMode.FULL_IO => s1.on_actionIO_Mode_triggered
  | ViewMode.SPLIT => s1.on_actionSplit_Mode_triggered

/-- Source lines 684-699. -/
def onSettingsApplied (s : AppWindow) : Option AppWindow :=
  (onTabChanged s.currentIndex { s with diagonistics := true }).map onEditorChanged

/-- Source lines 545-556, after the user agreed to the reset; `reset` is the
effect of `resetSettings()` on the settings manager, which is not in src. -/
def on_actionRestore_Settings_triggered (reset : SettingManager → SettingManager)
    (s : AppWindow) : Option AppWindow :=
  onSettingsApplied { s with settingManager := reset s.settingManager }

/-- Source lines 709-726. -/
def onViewModeToggle (s : AppWindow) : AppWindow :=
  if s.actionEditor_Mode then s.on_actionIO_Mode_triggered
  else if s.actionSplit_Mode then s.on_actionEditor_Mode_triggered
  else if s.actionIO_Mode then s.on_actionSplit_Mode_triggered
  else s

/-- Source lines 497-501. -/
def on_actionSave_triggered (s : AppWindow) : Option AppWindow :=
  if s.currentWindow.isSome then s.callCurrent (Call.save true "Save") else some s

/-- Source lines 503-507. -/
def on_actionSave_As_triggered (s : AppWindow) : Option AppWindow :=
  if s.currentWindow.isSome then s.callCurrent Call.saveAs else some s

/-- Source lines 518-523. -/
def on_actionClose_Current_triggered (s : AppWindow) : Option AppWindow :=
  let index := s.currentIndex
  if index ≠ -1 then (closeTab index s).map Prod.snd else some s

/-- Source lines 740-748. -/
def on_actionCompile_triggered (s : AppWindow) : Option AppWindow :=
  if s.currentWindow.isSome then
    (if s.actionEditor_Mode then s.on_actionSplit_Mode_triggered else s).callCurrent
      Call.compileOnly
  else some s

/-- Source lines 750-758. -/
def on_actionCompile_Run_triggered (s : AppWindow) : Option AppWindow :=
  if s.currentWindow.isSome then
    (if s.actionEditor_Mode then s.on_actionSplit_Mode_triggered else s).callCurrent
      Call.compileAndRun
  else some s

/-- Source lines 760-768. -/
def on_actionRun_triggered (s : AppWindow) : Option AppWindow :=
  if s.currentWindow.isSome then
    (if s.actionEditor_Mode then s.on_actionSplit_Mode_triggered else s).callCurrent
      Call.runOnly
  else some s

/-- Source lines 770-774. -/
def on_actionFormat_code_triggered (s : AppWindow) : Option AppWindow :=
  if s.currentWindow.isSome then s.callCurrent Call.formatSource else some s

/-- Source lines 776-780. -/
def on_actionRun_Detached_triggered (s : AppWindow) : Option AppWindow :=
  if s.currentWindow.isSome then s.callCurrent Call.detachedExecution else some s

/-- Source lines 782-786. -/
def on_actionKill_Processes_triggered (s : AppWindow) : Option AppWindow :=
  if s.currentWindow.isSome then s.callCurrent Call.killProcesses else some s

/-- Source lines 788-818. `choice` is what the input dialog returns: the chosen
name, or nothing when the dialog is cancelled. -/
def on_actionUse_Snippets_triggered (choice : Option String) (s : AppWindow) :
    Option AppWindow :=
  match s.currentWindow with
  | none => some s
  | some current =>
    let lang := current.language
    let names := s.settingManager.getSnippetsNames lang
    if names.isEmpty then some s
    else
      match choice with
      | none => some s
      | some name =>
        if names.contains name then
          some (s.setWidget s.currentIndex
            (current.record (Call.insertText (s.settingManager.getSnippet lang name))))
        else some s

end AppWindow

/-- The window `w2` is the window `w1` after it was refreshed: the getters
report the same values, and the only operations it received in between are
`setSettingsData` calls (its settings data and splitter may differ). -/
def Refreshed (w1 w2 : MainWindow) : Prop :=
  w2.toEditor = w1.toEditor ∧
    ∃ extra, w2.calls = w1.calls ++ extra ∧
      ∀ c ∈ extra, ∃ d g, c = Call.setSettingsData d g

/-- A step that only refreshes windows and, among the settings, changes at most
the stored view mode. -/
def UiStep (s1 s2 : AppWindow) : Prop :=
  List.Forall₂ Refreshed s1.tabs s2.tabs ∧
    ∃ v, s2.settingManager = s1.settingManager.setViewMode v

/-- The states reachable from an empty window by `openTab` calls, companion
requests and `closeTab` calls. Only the companion requests that `allowed`
admits in the state they arrive in are followed. -/
inductive Reachable (allowed : AppWindow → CompanionData → Prop) : AppWindow → Prop
  | empty (s : AppWindow) : s.tabs = [] → s.currentIndex = -1 → Reachable allowed s
  | openTab {s t : AppWindow} (fs : FileSystem) (path : String) :
      Reachable allowed s → AppWindow.openTab fs path false s = some t → Reachable allowed t
  | companion {s t : AppWindow} (fs : FileSystem) (data : CompanionData) :
      Reachable allowed s → allowed s data →
      AppWindow.onIncomingCompanionRequest fs data s = some t → Reachable allowed t
  | closeTab {s t : AppWindow} (index : Int) (closed : Bool) :
      Reachable allowed s → AppWindow.closeTab index s = some (closed, t) → Reachable allowed t

/-- One operation of a run: an `openTab` call, a companion request or a
`closeTab` call. -/
inductive Op
  | openTab (fs : FileSystem) (path : String)
  | companion (fs : FileSystem) (data : CompanionData)
  | closeTab (index : Int)

/-- The effect of one operation. -/
def Op.apply : Op → AppWindow → Option AppWindow
  | Op.openTab fs path, s => AppWindow.openTab fs path false s
  | Op.companion fs data, s => AppWindow.onIncomingCompanionRequest fs data s
  | Op.closeTab index, s => (AppWindow.closeTab index s).map Prod.snd

/-- The effect of a sequence of operations, first operation first. -/
def runOps : List Op → AppWindow → Option AppWindow
  | [], s => some s
  | op :: ops, s => (op.apply s).bind (runOps ops)

/-- Any two distinct open untitled tabs have different untitled indices. -/
def UntitledDistinct (s : AppWindow) : Prop :=
  ∀ (i j : Nat) (w1 w2 : MainWindow), i ≠ j → s.tabs[i]? = some w1 → s.tabs[j]? = some w2 →
    w1.isUntitled = true → w2.isUntitled = true → w1.untitledIndex ≠ w2.untitledIndex

/-- Any two distinct open untitled tabs without a problem URL have different
untitled indices. -/
def PlainUntitledDistinct (s : AppWindow) : Prop :=
  ∀ (i j : Nat) (w1 w2 : MainWindow), i ≠ j → s.tabs[i]? = some w1 → s.tabs[j]? = some w2 →
    w1.isUntitled = true → w2.isUntitled = true →
    w1.problemURL = "" → w2.problemURL = "" → w1.untitledIndex ≠ w2.untitledIndex

/-- The untitled indices of the editors `a` and `b` differ when both are
untitled and have no problem URL. -/
def PlainRel (a b : Editor) : Prop :=
  a.filePath = "" → b.filePath = "" → a.problemURL = "" → b.problemURL = "" →
    a.untitledIndex ≠ b.untitledIndex

/-- The relation `PlainRel` holds between every tab and every later tab. -/
def PlainPairwise (l : List MainWindow) : Prop :=
  (l.map MainWindow.toEditor).Pairwise PlainRel

/-- A companion request that either arrives while the setting "open new tab" is
on, or carries a non-empty problem URL. -/
def UrlRequest (s : AppWindow) (data : CompanionData) : Prop :=
  s.settingManager.competitiveCompanionOpenNewTab = true ∨ data.url ≠ ""

/-- During the step from `s` to `t` the tab at index `i` was given the data `d`
through `setSettingsData`. -/
def GivenSettings (s t : AppWindow) (i : Nat) (d : SettingsData) : Prop :=
  ∃ w w2 extra g, s.tabs[i]? = some w ∧ t.tabs[i]? = some w2 ∧
    w2.calls = w.calls ++ extra ∧ Call.setSettingsData d g ∈ extra

/-- Exactly one of the three view-mode actions is checked, and the view mode
stored in the settings manager is the one whose action is checked. -/
def ModeInv (s : AppWindow) : Prop :=
  (s.actionEditor_Mode = true ∧ s.actionIO_Mode = false ∧ s.actionSplit_Mode = false ∧
      s.settingManager.viewMode = ViewMode.FULL_EDITOR) ∨
  (s.actionEditor_Mode = false ∧ s.actionIO_Mode = true ∧ s.actionSplit_Mode = false ∧
      s.settingManager.viewMode = ViewMode.FULL_IO) ∨
  (s.actionEditor_Mode = false ∧ s.actionIO_Mode = false ∧ s.actionSplit_Mode = true ∧
      s.settingManager.viewMode = ViewMode.SPLIT)

/-- The handlers of the window whose code sets a view-mode check or the stored
view mode, directly or by calling one of the three mode handlers. -/
inductive ModeHandler
  | editorMode
  | ioMode
  | splitMode
  | applySettings
  | onTabChanged (index : Int)
  | onViewModeToggle
  | compile
  | compileRun
  | run
  | onSettingsApplied

/-- The effect of a handler of `ModeHandler`. -/
def ModeHandler.trigger : ModeHandler → AppWindow → Option AppWindow
  | ModeHandler.editorMode, s => some s.on_actionEditor_Mode_triggered
  | ModeHandler.ioMode, s => some s.on_actionIO_Mode_triggered
  | ModeHandler.splitMode, s => some s.on_actionSplit_Mode_triggered
  | ModeHandler.applySettings, s => some s.applySettings
  | ModeHandler.onTabChanged index, s => AppWindow.onTabChanged index s
  | ModeHandler.onViewModeToggle, s => some s.onViewModeToggle
  | ModeHandler.compile, s => s.on_actionCompile_triggered
  | ModeHandler.compileRun, s => s.on_actionCompile_Run_triggered
  | ModeHandler.run, s => s.on_actionRun_triggered
  | ModeHandler.onSettingsApplied, s => s.onSettingsApplied

/-- The menu actions of claim C7. `useSnippets` carries what the input dialog
returns. -/
inductive MenuAction
  | save
  | saveAs
  | closeCurrent
  | compile
  | compileRun
  | run
  | format
  | runDetached
  | killProcesses
  | useSnippets (choice : Option String)
  | editorMode
  | ioMode
  | splitMode

/-- The slot that Qt runs when a menu action is triggered. -/
def MenuAction.trigger : MenuAction → AppWindow → Option AppWindow
  | MenuAction.save, s => s.on_actionSave_triggered
  | MenuAction.saveAs, s => s.on_actionSave_As_triggered
  | MenuAction.closeCurrent, s => s.on_actionClose_Current_triggered
  | MenuAction.compile, s => s.on_actionCompile_triggered
  | MenuAction.compileRun, s => s.on_actionCompile_Run_triggered
  | MenuAction.run, s => s.on_actionRun_triggered
  | MenuAction.format, s => s.on_actionFormat_code_triggered
  | MenuAction.runDetached, s => s.on_actionRun_Detached_triggered
  | MenuAction.killProcesses, s => s.on_actionKill_Processes_triggered
  | MenuAction.useSnippets choice, s => s.on_actionUse_Snippets_triggered choice
  | MenuAction.editorMode, s => some s.on_actionEditor_Mode_triggered
  | MenuAction.ioMode, s => some s.on_actionIO_Mode_triggered
  | MenuAction.splitMode, s => some s.on_actionSplit_Mode_triggered

/-- The editor operation that belongs to a menu action, for the six actions
Compile, Compile and Run, Run, Format, Run Detached and Kill Processes. -/
def MenuAction.operation : MenuAction → Option Call
  | MenuAction.compile => some Call.compileOnly
  | MenuAction.compileRun => some Call.compileAndRun
  | MenuAction.run => some Call.runOnly
  | MenuAction.format => some Call.formatSource
  | MenuAction.runDetached => some Call.detachedExecution
  | MenuAction.killProcesses => some Call.killProcesses
  | _ => none

/-- Source lines 538-540: the loop of Close Saved, run for at most `fuel`
iterations, with loop variable `t`. -/
def AppWindow.closeSavedLoop : Nat → Int → AppWindow → Option AppWindow
  | 0, _, _ => none
  | fuel + 1, t, s =>
    if t < s.count then
      match s.windowIndex t with
      | none => none
      | some w =>
        if !w.textChanged then
          match AppWindow.closeTab t s with
          | none => none
          | some (true, s1) => AppWindow.closeSavedLoop fuel ((t - 1) + 1) s1
          | some (false, s1) => AppWindow.closeSavedLoop fuel (t + 1) s1
        else AppWindow.closeSavedLoop fuel (t + 1) s
    else some s

/-- Source lines 536-541. -/
def AppWindow.on_actionClose_Saved_triggered (s : AppWindow) : Option AppWindow :=
  AppWindow.closeSavedLoop (s.tabs.length + 1) 0 s

/-- The window `w2` is the window `w1` after it was asked once whether it may
close: apart from refreshes, `closeConfirm` is the only operation it received,
and it received it once. -/
def AskedOnce (w1 w2 : MainWindow) : Prop :=
  ∃ w, Refreshed w1 w ∧ Refreshed (w.record Call.closeConfirm) w2

/-- What Close Saved does to a tab it leaves open: a tab with changed text is
not asked, a tab with unchanged text was asked once (and refused). -/
def KeptBySaved (w1 w2 : MainWindow) : Prop :=
  (w1.textChanged = true → Refreshed w1 w2) ∧ (w1.textChanged = false → AskedOnce w1 w2)

/-- A new entry `key ↦ [t]` is put into the `QMap`, which is kept as a list of
entries in ascending key order, the order in which a `QMap` is iterated; keys
are compared character by character. -/
def AppWindow.tabsByNameNew :
    List (String × List Nat) → String → Nat → List (String × List Nat)
  | [], key, t => [(key, [t])]
  | (k, v) :: rest, key, t =>
    if key.toList < k.toList then (key, [t]) :: (k, v) :: rest
    else (k, v) :: AppWindow.tabsByNameNew rest key t

/-- Source line 659: `tabsByName[key].push_back(t)`. The index is appended to
the entry of `key`; a key that is not in the map gets a new entry first. -/
def AppWindow.tabsByNameInsert (m : List (String × List Nat)) (key : String) (t : Nat) :
    List (String × List Nat) :=
  if key ∈ m.map Prod.fst then
    m.map (fun e => if e.1 = key then (e.1, e.2 ++ [t]) else e)
  else AppWindow.tabsByNameNew m key t

/-- Source lines 657-660: the loop that fills `tabsByName`, given the number of
iterations still to run and the value of `t`. `getTabTitle` is the method of
`MainWindow` with this name, which is not in src. -/
def AppWindow.tabsByNameLoop (getTabTitle : MainWindow → Bool → Bool → String) :
    Nat → Nat → AppWindow → List (String × List Nat) → Option (List (String × List Nat))
  | 0, _, _, m => some m
  | remaining + 1, t, s, m =>
    match s.windowIndex t with
    | none => none
    | some w =>
      AppWindow.tabsByNameLoop getTabTitle remaining (t + 1) s
        (AppWindow.tabsByNameInsert m (getTabTitle w false false) t)

/-- Source lines 664-667: the `setTabText(index, text)` calls for the indices
of one entry `tabs` of the map, in the order they are made. -/
def AppWindow.renameGroup (getTabTitle : MainWindow → Bool → Bool → String) (s : AppWindow)
    (tabs : List Nat) : List Nat → Option (List (Nat × String))
  | [] => some []
  | index :: rest =>
    match s.windowIndex index with
    | none => none
    | some w =>
      (AppWindow.renameGroup getTabTitle s tabs rest).map
        (fun calls => (index, getTabTitle w (decide (tabs.length > 1)) true) :: calls)

/-- Source lines 662-668: the `setTabText` calls for all entries of the map. -/
def AppWindow.renameAll (getTabTitle : MainWindow → Bool → Bool → String) (s : AppWindow) :
    List (String × List Nat) → Option (List (Nat × String))
  | [] => some []
  | (_, tabs) :: rest =>
    (AppWindow.renameGroup getTabTitle s tabs tabs).bind fun calls1 =>
    (AppWindow.renameAll getTabTitle s rest).map (fun calls2 => calls1 ++ calls2)

/-- Source lines 649-670. The result is the list of the `setTabText(index, text)`
calls in the order they are made; the window title of line 653 is not part of
the state. -/
def AppWindow.applyEditorChanged (getTabTitle : MainWindow → Bool → Bool → String)
    (s : AppWindow) : Option (List (Nat × String)) :=
  if s.currentWindow.isSome then
    (AppWindow.tabsByNameLoop getTabTitle s.tabs.length 0 s []).bind
      (AppWindow.renameAll getTabTitle s)
  else some []

/-- The short title `getTabTitle(false, false)` of the tab at index `i`. -/
def AppWindow.shortTitle (getTabTitle : MainWindow → Bool → Bool → String) (s : AppWindow)
    (i : Nat) : String :=
  match s.tabs[i]? with
  | some w => getTabTitle w false false
  | none => ""

/-- The state of `tabsByName` after the tabs `0 .. t-1` were entered. -/
def AppWindow.TabsByNameInv (getTabTitle : MainWindow → Bool → Bool → String)
    (s : AppWindow) (t : Nat) (m : List (String × List Nat)) : Prop :=
  (m.map Prod.fst).Nodup ∧
    (∀ k v, (k, v) ∈ m →
      v = (List.range t).filter (fun i => decide (AppWindow.shortTitle getTabTitle s i = k))) ∧
    ∀ i, i < t → AppWindow.shortTitle getTabTitle s i ∈ m.map Prod.fst

/-! ## Directory trees -/

/-- An entry (`QFileInfo`) of the list
`QDir(path).entryInfoList(NoDotAndDotDot | AllEntries)`. For an entry that is
not a directory: what `suffix()` and `canonicalFilePath()` return. For a
directory (`isDir()`): what `canonicalFilePath()` returns, and the entry list
of that directory. A link reports the canonical path of its target, and a link
to a directory has the entries of its target. A finite directory tree is a
finite entry list. -/
inductive Entry where
  | file (suffix : String) (canonicalFilePath : String)
  | dir (canonicalFilePath : String) (entries : List Entry)
deriving Repr

/-- Source lines 360-362: the condition under which a file is opened. -/
def accepted (cpp java python : Bool) (suffix : String) : Bool :=
  cpp && ["cpp", "hpp", "h", "cc", "cxx", "c"].contains suffix ||
    java && ["java"].contains suffix ||
    python && ["py", "py3"].contains suffix

mutual
/-- Source lines 353-365: the body of the loop of `openFolder` for one entry. -/
def AppWindow.openFolderEntry (fs : FileSystem) (cpp java python : Bool) (depth : Int) :
    Entry → AppWindow → Option AppWindow
  | Entry.dir canonicalFilePath entries, s =>
    if depth > 0 then
      AppWindow.openFolder fs canonicalFilePath cpp java python (depth - 1) entries s
    else if depth = -1 then
      AppWindow.openFolder fs canonicalFilePath cpp java python (-1) entries s
    else some s
  | Entry.file suffix canonicalFilePath, s =>
    if accepted cpp java python suffix then AppWindow.openTab fs canonicalFilePath false s
    else some s
/-- Source lines 348-367: `openFolder(path, cpp, java, python, depth)`, where
`entries` is the entry list of `QDir(path)`; the source uses `path` for nothing
else. -/
def AppWindow.openFolder (fs : FileSystem) (path : String) (cpp java python : Bool)
    (depth : Int) : List Entry → AppWindow → Option AppWindow
  | [], s => some s
  | entry :: rest, s =>
    (AppWindow.openFolderEntry fs cpp java python depth entry s).bind
      (AppWindow.openFolder fs path cpp java python depth rest)
end

/-- A file of a directory tree: the number of directory levels between the root
and the directory of the file, and what `suffix()` and `canonicalFilePath()`
return for it. -/
structure TreeFile where
  level : Nat
  suffix : String
  filePath : String
deriving DecidableEq, Repr

mutual
/-- The files of one entry of a directory that lies `level` levels below the
root. -/
def entryFiles (level : Nat) : Entry → List TreeFile
  | Entry.dir _ entries => treeFiles (level + 1) entries
  | Entry.file suffix canonicalFilePath =>
    [{ level := level, suffix := suffix, filePath := canonicalFilePath }]
/-- All files of the tree with the entry list `entries`, whose directory lies
`level` levels below the root, in the order in which the tree is walked. -/
def treeFiles (level : Nat) : List Entry → List TreeFile
  | [] => []
  | entry :: rest => entryFiles level entry ++ treeFiles level rest
end

/-- The paths given to `openTab` one after the other, from the state `s`. -/
def AppWindow.openTabs (fs : FileSystem) (paths : List String) (s : AppWindow) :
    Option AppWindow :=
  paths.foldlM (fun st path => AppWindow.openTab fs path false st) s

/-! ## The constructors -/

/-- Modelled from the spec: the constructor `MainWindow::EditorStatus(map)` is
not in src. It rebuilds the status that `toStatus().toMap()` stored; the map of
a key under which nothing is stored gives the empty status. -/
def EditorStatus.ofMap : Option EditorStatus → EditorStatus
  | some status => status
  | none => { filePath := "", untitledIndex := 0, problemURL := "", language := "",
              textChanged := false }

/-- Source lines 50-54: the loop that restores the stored tabs, run for at most
`fuel` iterations, with loop variable `i`. -/
def AppWindow.restoreLoop (fs : FileSystem) : Nat → Int → AppWindow → Option AppWindow
  | 0, _, _ => none
  | fuel + 1, i, s =>
    if i < s.settingManager.numberOfTabs then
      (AppWindow.openTab fs "" false s).bind fun s1 =>
      match s1.currentWindow with
      | none => none
      | some w =>
        AppWindow.restoreLoop fs fuel (i + 1)
          (s1.setWidget s1.currentIndex
            (w.loadStatus (EditorStatus.ofMap (s1.settingManager.getEditorStatus i))))
    else some s

/-- Source lines 33-60: the constructor `AppWindow(noHotExit, parent)`, from the
settings manager that `allocate()` creates. The window starts without tabs and
with no action checked. -/
def AppWindow.construct (fs : FileSystem) (m : SettingManager) (noHotExit : Bool) :
    Option AppWindow :=
  let s0 : AppWindow :=
    { tabs := [], currentIndex := -1, settingManager := m, actionEditor_Mode := false,
      actionIO_Mode := false, actionSplit_Mode := false, actionAutosave := false,
      diagonistics := false, editorChangeApply := false }
  (AppWindow.onSettingsApplied (AppWindow.applySettings s0)).bind fun s1 =>
  if !noHotExit && s1.settingManager.useHotExit then
    (AppWindow.restoreLoop fs (s1.settingManager.numberOfTabs.toNat + 1) 0 s1).bind fun s2 =>
    let index := s2.settingManager.currentIndex
    if index ≥ 0 ∧ index < s2.settingManager.numberOfTabs then
      AppWindow.setCurrentIndex index s2
    else some s2
  else some s1

/-- Source lines 62-75: the constructor that takes paths. `tree path` is the
entry list of the directory `path`. -/
def AppWindow.constructPaths (fs : FileSystem) (tree : String → List Entry)
    (m : SettingManager) (depth : Int) (cpp java python noHotExit : Bool)
    (paths : List String) : Option AppWindow :=
  (AppWindow.construct fs m noHotExit).bind fun s0 =>
  (paths.foldlM (fun s path =>
      if fs.dir path then AppWindow.openFolder fs path cpp java python depth (tree path) s
      else AppWindow.openTab fs path false s) s0).bind fun s1 =>
  if s1.count = 0 then AppWindow.openTab fs "" false s1 else some s1

/-- Source lines 77-90: the constructor that takes a contest. The result is the
file system after `openContest` and the window. -/
def AppWindow.constructContest (fs : FileSystem) (m : SettingManager)
    (cpp java python noHotExit : Bool) (number : Int) (path : String) :
    Option (FileSystem × AppWindow) :=
  (AppWindow.construct fs m noHotExit).bind fun s0 =>
  let lang :=
    if cpp then "C++" else if java then "Java" else if python then "Python"
    else s0.settingManager.defaultLang
  (AppWindow.openContest fs path lang number s0).bind fun r =>
  if r.2.count = 0 then (AppWindow.openTab r.1 "" false r.2).map (fun s2 => (r.1, s2))
  else some r

/-! ## Sample values -/

namespace Sample

/-- A settings manager: split view, C++ as default language, hot exit on,
companion requests open new tabs. -/
def settings : SettingManager :=
  { viewMode := ViewMode.SPLIT, defaultLang := "C++", autoSave := false, useHotExit := true,
    competitiveCompanionActive := true, competitiveCompanionOpenNewTab := true,
    numberOfTabs := 0, currentIndex := -1, editorStatus := [], splitterSizes := "",
    snippets := [], data := { revision := 0 } }

/-- A file system in which the only entry is the file `f.cpp`. -/
def files : FileSystem :=
  { entry := fun p => decide (p = "f.cpp"), sameFile := fun a b => decide (a = b),
    dir := fun _ => false, parentDir := fun _ => false, mkdirOk := fun _ => false }

/-- A window without tabs, in split mode. -/
def emptyWindow : AppWindow :=
  { tabs := [], currentIndex := -1, settingManager := settings, actionEditor_Mode := false,
    actionIO_Mode := false, actionSplit_Mode := true, actionAutosave := false,
    diagonistics := false, editorChangeApply := false }

/-- An untitled editor window with the given untitled index and problem URL. -/
def untitled (index : Int) (url : String) : MainWindow :=
  { MainWindow.new "" { revision := 0 } index with problemURL := url }

/-- An untitled editor window with unsaved text whose `closeConfirm` refuses. -/
def refusing (index : Int) : MainWindow :=
  { untitled index "" with textChanged := true, closeAnswer := false }

/-- A window with the given tabs, the first of which is current. -/
def windowOf (tabs : List MainWindow) : AppWindow :=
  { emptyWindow with tabs := tabs, currentIndex := 0 }

end Sample

/-- The tab list `l2` is the tab list `l1` in which at most the window at
index `i` was refreshed. -/
def TouchAt (i : Int) (l1 l2 : List MainWindow) : Prop :=
  l2 = l1 ∨ ∃ w w2, 0 ≤ i ∧ l1[i.toNat]? = some w ∧ Refreshed w w2 ∧ l2 = l1.set i.toNat w2

namespace Sample

/-- A tab title: the file path, or `Untitled` for a window without a file, then
the untitled index when the complete title is asked for, then a star when the
text is changed and the star is asked for. -/
def title (w : MainWindow) (complete star : Bool) : String :=
  (if w.filePath = "" then "Untitled" else w.filePath) ++
    (if complete then "-" ++ toString w.untitledIndex else "") ++
    (if star && w.textChanged then " *" else "")

end Sample

namespace Sample

/-- A window without tabs whose default language is Java. -/
def javaWindow : AppWindow :=
  { emptyWindow with settingManager := { settings with defaultLang := "Java" } }

end Sample

/-! ## Helper lemmas: refreshed windows -/

theorem refreshed_refl (w : MainWindow) : Refreshed w w :=
  ⟨rfl, [], by simp, by simp⟩

theorem refreshed_trans {a b c : MainWindow} (h1 : Refreshed a b) (h2 : Refreshed b c) :
    Refreshed a c := by
  obtain ⟨e1, x1, c1, f1⟩ := h1
  obtain ⟨e2, x2, c2, f2⟩ := h2
  refine ⟨e2.trans e1, x1 ++ x2, by simp [c2, c1], ?_⟩
  intro c hc
  rcases List.mem_append.mp hc with h | h
  · exact f1 c h
  · exact f2 c h

theorem refreshed_setSplitter (w : MainWindow) (sp : Splitter) :
    Refreshed w (w.setSplitter sp) :=
  ⟨rfl, [], by simp [MainWindow.setSplitter], by simp⟩

theorem refreshed_setSettingsData (w : MainWindow) (d : SettingsData) (g : Bool) :
    Refreshed w (w.setSettingsData d g) :=
  ⟨rfl, [Call.setSettingsData d g], by simp [MainWindow.setSettingsData],
    fun c hc => ⟨d, g, by simpa using hc⟩⟩

theorem tabsRefreshed_refl (l : List MainWindow) : List.Forall₂ Refreshed l l :=
  List.forall₂_same.mpr (fun w _ => refreshed_refl w)

theorem tabsRefreshed_trans {l1 l2 l3 : List MainWindow}
    (h1 : List.Forall₂ Refreshed l1 l2) (h2 : List.Forall₂ Refreshed l2 l3) :
    List.Forall₂ Refreshed l1 l3 := by
  induction h1 generalizing l3 with
  | nil => cases h2; exact List.Forall₂.nil
  | cons hab _ ih =>
    cases h2 with
    | cons hbc hrest => exact List.Forall₂.cons (refreshed_trans hab hbc) (ih hrest)

theorem tabsRefreshed_set {l : List MainWindow} {i : Nat} {w w2 : MainWindow}
    (h : l[i]? = some w) (hr : Refreshed w w2) : List.Forall₂ Refreshed l (l.set i w2) := by
  induction l generalizing i with
  | nil => simp at h
  | cons a l ih =>
    cases i with
    | zero =>
      simp at h
      subst h
      exact List.Forall₂.cons hr (tabsRefreshed_refl l)
    | succ i =>
      simp at h
      exact List.Forall₂.cons (refreshed_refl a) (ih h)

theorem tabsRefreshed_eraseIdx {l1 l2 : List MainWindow} (h : List.Forall₂ Refreshed l1 l2)
    (i : Nat) : List.Forall₂ Refreshed (l1.eraseIdx i) (l2.eraseIdx i) := by
  induction h generalizing i with
  | nil => exact List.Forall₂.nil
  | cons hab hrest ih =>
    cases i with
    | zero => simpa using hrest
    | succ i => exact List.Forall₂.cons hab (ih i)

theorem tabsRefreshed_snoc {l l2 : List MainWindow} {w : MainWindow}
    (h : List.Forall₂ Refreshed (l ++ [w]) l2) :
    ∃ l1 w2, l2 = l1 ++ [w2] ∧ List.Forall₂ Refreshed l l1 ∧ Refreshed w w2 := by
  induction l generalizing l2 with
  | nil =>
    cases h with
    | cons hab hrest =>
      cases hrest
      exact ⟨[], _, rfl, List.Forall₂.nil, hab⟩
  | cons a l ih =>
    cases h with
    | cons hab hrest =>
      obtain ⟨l1, w2, e, h1, h2⟩ := ih hrest
      exact ⟨_ :: l1, w2, by simp [e], List.Forall₂.cons hab h1, h2⟩

theorem tabsRefreshed_map_toEditor {l1 l2 : List MainWindow}
    (h : List.Forall₂ Refreshed l1 l2) :
    l2.map MainWindow.toEditor = l1.map MainWindow.toEditor := by
  induction h with
  | nil => rfl
  | cons hab _ ih => simp [hab.1, ih]

theorem uiStep_refl (s : AppWindow) : UiStep s s :=
  ⟨tabsRefreshed_refl _, s.settingManager.viewMode, rfl⟩

theorem uiStep_trans {a b c : AppWindow} (h1 : UiStep a b) (h2 : UiStep b c) : UiStep a c := by
  obtain ⟨t1, v1, e1⟩ := h1
  obtain ⟨t2, v2, e2⟩ := h2
  exact ⟨tabsRefreshed_trans t1 t2, v2, by rw [e2, e1]; rfl⟩

/-! ## Helper lemmas: the tab widget -/

namespace AppWindow

theorem widget_eq_some {s : AppWindow} {index : Int} {w : MainWindow} :
    s.widget index = some w ↔ 0 ≤ index ∧ s.tabs[index.toNat]? = some w := by
  unfold widget
  split <;> simp [*]

theorem widget_isSome {s : AppWindow} {index : Int} (h0 : 0 ≤ index) (h1 : index < s.count) :
    ∃ w, s.widget index = some w := by
  have hlt : index.toNat < s.tabs.length := by
    unfold count at h1
    omega
  exact ⟨s.tabs[index.toNat], by simp [widget, h0, List.getElem?_eq_getElem hlt]⟩

theorem widget_lt {s : AppWindow} {index : Int} {w : MainWindow} (h : s.widget index = some w) :
    0 ≤ index ∧ index < s.count := by
  obtain ⟨h0, h1⟩ := widget_eq_some.mp h
  have := (List.getElem?_eq_some_iff.mp h1).1
  unfold count
  omega

theorem windowIndex_eq_widget {s : AppWindow} {index : Int} (h : 0 ≤ index) :
    s.windowIndex index = s.widget index := by
  unfold windowIndex
  have : index ≠ -1 := by omega
  simp [this]

theorem windowIndex_eq_some {s : AppWindow} {index : Int} {w : MainWindow}
    (h : s.windowIndex index = some w) : s.widget index = some w := by
  unfold windowIndex at h
  split at h
  · simp at h
  · exact h

theorem currentWindow_eq_some {s : AppWindow} {w : MainWindow}
    (h : s.currentWindow = some w) : s.widget s.currentIndex = some w := by
  unfold currentWindow at h
  split at h
  · simp at h
  · exact h

theorem currentWindow_eq_widget {s : AppWindow} (h : 0 ≤ s.currentIndex) :
    s.currentWindow = s.widget s.currentIndex := by
  unfold currentWindow
  have : s.currentIndex ≠ -1 := by omega
  simp [this]

@[simp] theorem setWidget_currentIndex (s : AppWindow) (i : Int) (w : MainWindow) :
    (s.setWidget i w).currentIndex = s.currentIndex := by
  unfold setWidget; split <;> rfl

@[simp] theorem setWidget_settingManager (s : AppWindow) (i : Int) (w : MainWindow) :
    (s.setWidget i w).settingManager = s.settingManager := by
  unfold setWidget; split <;> rfl

@[simp] theorem setWidget_actionEditor_Mode (s : AppWindow) (i : Int) (w : MainWindow) :
    (s.setWidget i w).actionEditor_Mode = s.actionEditor_Mode := by
  unfold setWidget; split <;> rfl

@[simp] theorem setWidget_actionIO_Mode (s : AppWindow) (i : Int) (w : MainWindow) :
    (s.setWidget i w).actionIO_Mode = s.actionIO_Mode := by
  unfold setWidget; split <;> rfl

@[simp] theorem setWidget_actionSplit_Mode (s : AppWindow) (i : Int) (w : MainWindow) :
    (s.setWidget i w).actionSplit_Mode = s.actionSplit_Mode := by
  unfold setWidget; split <;> rfl

@[simp] theorem setWidget_length (s : AppWindow) (i : Int) (w : MainWindow) :
    (s.setWidget i w).tabs.length = s.tabs.length := by
  unfold setWidget; split <;> simp

theorem setWidget_tabs {s : AppWindow} {i : Int} (h : 0 ≤ i) (w : MainWindow) :
    (s.setWidget i w).tabs = s.tabs.set i.toNat w := by
  simp [setWidget, h]

theorem widget_setWidget_same {s : AppWindow} {i : Int} {w0 : MainWindow}
    (h : s.widget i = some w0) (w : MainWindow) : (s.setWidget i w).widget i = some w := by
  obtain ⟨h0, h1⟩ := widget_eq_some.mp h
  have hlt := (List.getElem?_eq_some_iff.mp h1).1
  simp [widget, setWidget, h0, List.getElem?_set, hlt]

theorem setWidget_uiStep {s : AppWindow} {index : Int} {w w2 : MainWindow}
    (h : s.widget index = some w) (hr : Refreshed w w2) : UiStep s (s.setWidget index w2) := by
  obtain ⟨h0, h1⟩ := widget_eq_some.mp h
  refine ⟨?_, s.settingManager.viewMode, by simp [SettingManager.setViewMode]⟩
  rw [setWidget_tabs h0]
  exact tabsRefreshed_set h1 hr

theorem uiStep_of_fields {s s2 : AppWindow} (ht : s2.tabs = s.tabs)
    (hm : ∃ v, s2.settingManager = s.settingManager.setViewMode v) : UiStep s s2 :=
  ⟨by rw [ht]; exact tabsRefreshed_refl _, hm⟩

theorem uiStep_of_eq {s s2 : AppWindow} (ht : s2.tabs = s.tabs)
    (hm : s2.settingManager = s.settingManager) : UiStep s s2 :=
  uiStep_of_fields ht ⟨s.settingManager.viewMode, by rw [hm]; rfl⟩

theorem editorMode_uiStep (s : AppWindow) : UiStep s s.on_actionEditor_Mode_triggered := by
  unfold on_actionEditor_Mode_triggered
  dsimp only
  split
  · next w hw =>
    exact uiStep_trans (uiStep_of_fields rfl ⟨_, rfl⟩)
      (setWidget_uiStep (currentWindow_eq_some hw) (refreshed_setSplitter _ _))
  · exact uiStep_of_fields rfl ⟨_, rfl⟩

theorem ioMode_uiStep (s : AppWindow) : UiStep s s.on_actionIO_Mode_triggered := by
  unfold on_actionIO_Mode_triggered
  dsimp only
  split
  · next w hw =>
    exact uiStep_trans (uiStep_of_fields rfl ⟨_, rfl⟩)
      (setWidget_uiStep (currentWindow_eq_some hw) (refreshed_setSplitter _ _))
  · exact uiStep_of_fields rfl ⟨_, rfl⟩

theorem splitMode_uiStep (s : AppWindow) : UiStep s s.on_actionSplit_Mode_triggered := by
  unfold on_actionSplit_Mode_triggered
  dsimp only
  split
  · next w hw =>
    exact uiStep_trans (uiStep_of_fields rfl ⟨_, rfl⟩)
      (setWidget_uiStep (currentWindow_eq_some hw) (refreshed_setSplitter _ _))
  · exact uiStep_of_fields rfl ⟨_, rfl⟩

@[simp] theorem editorMode_currentIndex (s : AppWindow) :
    s.on_actionEditor_Mode_triggered.currentIndex = s.currentIndex := by
  unfold on_actionEditor_Mode_triggered; dsimp only; split <;> simp

@[simp] theorem ioMode_currentIndex (s : AppWindow) :
    s.on_actionIO_Mode_triggered.currentIndex = s.currentIndex := by
  unfold on_actionIO_Mode_triggered; dsimp only; split <;> simp

@[simp] theorem splitMode_currentIndex (s : AppWindow) :
    s.on_actionSplit_Mode_triggered.currentIndex = s.currentIndex := by
  unfold on_actionSplit_Mode_triggered; dsimp only; split <;> simp

theorem onTabChanged_some {index : Int} {s s2 : AppWindow}
    (h : onTabChanged index s = some s2) : UiStep s s2 ∧ s2.currentIndex = s.currentIndex := by
  unfold onTabChanged at h
  split at h
  · cases h; exact ⟨uiStep_refl s, rfl⟩
  · split at h
    · simp at h
    · next tmp htmp =>
      have hw := windowIndex_eq_some htmp
      have step := setWidget_uiStep hw
        (refreshed_setSettingsData tmp s.settingManager.toData s.diagonistics)
      have base : UiStep s { s.setWidget index
          (tmp.setSettingsData s.settingManager.toData s.diagonistics) with diagonistics := false } :=
        uiStep_trans step (uiStep_of_eq rfl rfl)
      dsimp only at h
      split at h
      · cases h; exact ⟨uiStep_trans base (editorMode_uiStep _), by simp⟩
      · split at h
        · cases h; exact ⟨uiStep_trans base (ioMode_uiStep _), by simp⟩
        · split at h
          · cases h; exact ⟨uiStep_trans base (splitMode_uiStep _), by simp⟩
          · cases h; exact ⟨base, by simp⟩

theorem onTabChanged_total {index : Int} {s : AppWindow} {tmp : MainWindow}
    (h : s.widget index = some tmp) : ∃ s2, onTabChanged index s = some s2 := by
  have h0 := (widget_lt h).1
  unfold onTabChanged
  have hne : index ≠ -1 := by omega
  simp only [hne, if_false, windowIndex_eq_widget h0, h]
  split
  · exact ⟨_, rfl⟩
  · split
    · exact ⟨_, rfl⟩
    · split <;> exact ⟨_, rfl⟩

theorem setCurrentIndex_valid {index : Int} {s : AppWindow}
    (h0 : 0 ≤ index) (h1 : index < s.count) :
    ∃ s2, setCurrentIndex index s = some s2 ∧ UiStep s s2 ∧ s2.currentIndex = index := by
  unfold setCurrentIndex
  by_cases hc : index = s.currentIndex
  · rw [if_neg (by simp [hc])]
    exact ⟨s, rfl, uiStep_refl s, hc.symm⟩
  · have hcond : 0 ≤ index ∧ index < s.count ∧ index ≠ s.currentIndex := ⟨h0, h1, hc⟩
    rw [if_pos hcond]
    obtain ⟨w, hw⟩ := widget_isSome h0 h1
    have hw2 : ({ s with currentIndex := index } : AppWindow).widget index = some w := hw
    obtain ⟨s2, hs2⟩ := onTabChanged_total hw2
    have := onTabChanged_some hs2
    exact ⟨s2, hs2, ⟨this.1.1, this.1.2⟩, this.2⟩

theorem setCurrentIndex_total (index : Int) (s : AppWindow) :
    ∃ s2, setCurrentIndex index s = some s2 ∧ UiStep s s2 := by
  by_cases h : 0 ≤ index ∧ index < s.count
  · obtain ⟨s2, e, u, _⟩ := setCurrentIndex_valid h.1 h.2
    exact ⟨s2, e, u⟩
  · unfold setCurrentIndex
    have : ¬ (0 ≤ index ∧ index < s.count ∧ index ≠ s.currentIndex) := by
      intro hh; exact h ⟨hh.1, hh.2.1⟩
    rw [if_neg this]
    exact ⟨s, rfl, uiStep_refl s⟩

end AppWindow

theorem list_set_self {l : List MainWindow} {i : Nat} {w : MainWindow}
    (h : l[i]? = some w) : l.set i w = l := by
  apply List.ext_getElem?
  intro j
  rw [List.getElem?_set]
  by_cases hij : i = j
  · subst hij
    have hlt := (List.getElem?_eq_some_iff.mp h).1
    simp [hlt, h]
  · simp [hij]

theorem touchAt_trans {i : Int} {l1 l2 l3 : List MainWindow}
    (h1 : TouchAt i l1 l2) (h2 : TouchAt i l2 l3) : TouchAt i l1 l3 := by
  rcases h1 with rfl | ⟨w, w2, h0, hw, hr, rfl⟩
  · exact h2
  · rcases h2 with rfl | ⟨x, x2, _, hx, hr2, rfl⟩
    · exact Or.inr ⟨w, w2, h0, hw, hr, rfl⟩
    · have hlt := (List.getElem?_eq_some_iff.mp hw).1
      have hx2 : x = w2 := by
        simp [List.getElem?_set, hlt] at hx
        exact hx.symm
      subst hx2
      exact Or.inr ⟨w, x2, h0, hw, refreshed_trans hr hr2, by simp⟩

theorem touchAt_tabsRefreshed {i : Int} {l1 l2 : List MainWindow} (h : TouchAt i l1 l2) :
    List.Forall₂ Refreshed l1 l2 := by
  rcases h with rfl | ⟨w, w2, _, hw, hr, rfl⟩
  · exact tabsRefreshed_refl _
  · exact tabsRefreshed_set hw hr

theorem touchAt_length_eq {i : Int} {l1 l2 : List MainWindow} (h : TouchAt i l1 l2) :
    l2.length = l1.length := by
  rcases h with rfl | ⟨w, w2, _, hw, hr, rfl⟩ <;> simp

theorem touchAt_getElem?_ne {i : Int} {l1 l2 : List MainWindow} (h : TouchAt i l1 l2)
    {j : Nat} (hj : (j : Int) ≠ i) : l2[j]? = l1[j]? := by
  rcases h with rfl | ⟨w, w2, h0, hw, hr, rfl⟩
  · rfl
  · have : i.toNat ≠ j := by omega
    simp [List.getElem?_set, this]

theorem touchAt_getElem?_eq {i : Int} {l1 l2 : List MainWindow} (h : TouchAt i l1 l2)
    {w : MainWindow} (_h0 : 0 ≤ i) (hw : l1[i.toNat]? = some w) :
    ∃ w2, l2[i.toNat]? = some w2 ∧ Refreshed w w2 ∧ l2 = l1.set i.toNat w2 := by
  have hlt := (List.getElem?_eq_some_iff.mp hw).1
  rcases h with rfl | ⟨x, w2, _, hx, hr, rfl⟩
  · refine ⟨w, hw, refreshed_refl w, ?_⟩
    exact (list_set_self hw).symm
  · rw [hw] at hx
    cases hx
    exact ⟨w2, by simp [List.getElem?_set, hlt], hr, rfl⟩

theorem touchAt_snoc {l l2 : List MainWindow} {w : MainWindow}
    (h : TouchAt (l.length : Int) (l ++ [w]) l2) : ∃ w2, l2 = l ++ [w2] ∧ Refreshed w w2 := by
  rcases h with rfl | ⟨x, w2, _, hx, hr, rfl⟩
  · exact ⟨w, rfl, refreshed_refl w⟩
  · simp at hx
    subst hx
    exact ⟨w2, by simp, hr⟩

namespace AppWindow

theorem setWidget_touch {s : AppWindow} {index : Int} {w w2 : MainWindow}
    (h : s.widget index = some w) (hr : Refreshed w w2) :
    TouchAt index s.tabs (s.setWidget index w2).tabs := by
  obtain ⟨h0, h1⟩ := widget_eq_some.mp h
  rw [setWidget_tabs h0]
  exact Or.inr ⟨w, w2, h0, h1, hr, rfl⟩

theorem editorMode_touch (s : AppWindow) :
    TouchAt s.currentIndex s.tabs s.on_actionEditor_Mode_triggered.tabs := by
  unfold on_actionEditor_Mode_triggered
  dsimp only
  split
  · next w hw => exact setWidget_touch (currentWindow_eq_some hw) (refreshed_setSplitter _ _)
  · exact Or.inl rfl

theorem ioMode_touch (s : AppWindow) :
    TouchAt s.currentIndex s.tabs s.on_actionIO_Mode_triggered.tabs := by
  unfold on_actionIO_Mode_triggered
  dsimp only
  split
  · next w hw => exact setWidget_touch (currentWindow_eq_some hw) (refreshed_setSplitter _ _)
  · exact Or.inl rfl

theorem splitMode_touch (s : AppWindow) :
    TouchAt s.currentIndex s.tabs s.on_actionSplit_Mode_triggered.tabs := by
  unfold on_actionSplit_Mode_triggered
  dsimp only
  split
  · next w hw => exact setWidget_touch (currentWindow_eq_some hw) (refreshed_setSplitter _ _)
  · exact Or.inl rfl

theorem onTabChanged_touch {index : Int} {s s2 : AppWindow}
    (h : onTabChanged index s = some s2) (hc : s.currentIndex = index) :
    TouchAt index s.tabs s2.tabs := by
  unfold onTabChanged at h
  split at h
  · cases h; exact Or.inl rfl
  · split at h
    · simp at h
    · next tmp htmp =>
      have hw := windowIndex_eq_some htmp
      have step := setWidget_touch hw
        (refreshed_setSettingsData tmp s.settingManager.toData s.diagonistics)
      dsimp only at h
      subst hc
      split at h
      · cases h; exact touchAt_trans step (by simpa using editorMode_touch _)
      · split at h
        · cases h; exact touchAt_trans step (by simpa using ioMode_touch _)
        · split at h
          · cases h; exact touchAt_trans step (by simpa using splitMode_touch _)
          · cases h; exact step

theorem setCurrentIndex_touch {index : Int} {s s2 : AppWindow}
    (h : setCurrentIndex index s = some s2) : TouchAt index s.tabs s2.tabs := by
  unfold setCurrentIndex at h
  split at h
  · exact onTabChanged_touch (s := { s with currentIndex := index }) h rfl
  · cases h; exact Or.inl rfl

end AppWindow

end CPEditor

/-! ## Helper lemmas: the scan for an unused untitled index -/

namespace CPEditor
namespace AppWindow

theorem scanIndex_congr {vis vis2 : List Int} (fuel : Nat) (index : Int)
    (h : ∀ m, index ≤ m → (m ∈ vis ↔ m ∈ vis2)) :
    scanIndex vis fuel index = scanIndex vis2 fuel index := by
  induction fuel generalizing index with
  | zero => rfl
  | succ fuel ih =>
    unfold scanIndex
    have h1 : vis.contains index = vis2.contains index := by
      have := h index (le_refl _)
      by_cases hm : index ∈ vis
      · simp [hm, this.mp hm]
      · have hm2 : index ∉ vis2 := fun x => hm (this.mpr x)
        simp [hm, hm2]
    rw [h1, ih (index + 1) (fun m hm => h m (by omega))]

theorem scanIndex_spec (fuel : Nat) (vis : List Int) (index : Int) (h : vis.length < fuel) :
    ∃ n, scanIndex vis fuel index = some n ∧ index ≤ n ∧ n ∉ vis ∧
      (∀ m, index ≤ m → m < n → m ∈ vis) ∧ n ≤ index + vis.length := by
  induction fuel generalizing vis index with
  | zero => omega
  | succ fuel ih =>
    unfold scanIndex
    by_cases hm : index ∈ vis
    · have hc : vis.contains index = true := by simpa using hm
      rw [if_pos hc]
      have hlen : (vis.erase index).length = vis.length - 1 := List.length_erase_of_mem hm
      have hpos : 0 < vis.length := List.length_pos_of_mem hm
      obtain ⟨n, e, h1, h2, h3, h4⟩ := ih (vis.erase index) (index + 1) (by omega)
      have hcongr : scanIndex vis fuel (index + 1) = scanIndex (vis.erase index) fuel (index + 1) :=
        scanIndex_congr fuel (index + 1) (fun m hm => by
          have : m ≠ index := by omega
          exact (List.mem_erase_of_ne this).symm)
      refine ⟨n, by rw [hcongr, e], by omega, ?_, ?_, by omega⟩
      · intro hn
        have : n ≠ index := by omega
        exact h2 ((List.mem_erase_of_ne this).mpr hn)
      · intro m hm1 hm2
        by_cases hmi : m = index
        · subst hmi; exact hm
        · exact (List.mem_erase_of_ne hmi).mp (h3 m (by omega) hm2)
    · have hc : ¬ (vis.contains index = true) := by simpa using hm
      rw [if_neg hc]
      exact ⟨index, rfl, le_refl _, hm, fun m h1 h2 => by omega, by omega⟩

theorem lowestUnused_spec (tabs : List MainWindow) :
    ∃ n, lowestUnused tabs = some n ∧ 1 ≤ n ∧ n ∉ visited tabs ∧
      (∀ m, 1 ≤ m → m < n → m ∈ visited tabs) ∧ n ≤ 1 + (visited tabs).length :=
  scanIndex_spec _ _ 1 (Nat.lt_succ_self _)

end AppWindow
end CPEditor

/-! ## Helper lemmas: opening a tab -/

namespace CPEditor
namespace AppWindow

theorem addTab_spec (fsp : MainWindow) (s : AppWindow) :
    ∃ s1 w1, addTab fsp s = some s1 ∧ s1.tabs = s.tabs ++ [w1] ∧ Refreshed fsp w1 ∧
      ∃ v, s1.settingManager = s.settingManager.setViewMode v := by
  unfold addTab
  dsimp only
  split
  · next hempty =>
    have hnil : s.tabs = [] := by simpa using hempty
    obtain ⟨s1, e, u⟩ := setCurrentIndex_total 0 { s with tabs := s.tabs ++ [fsp] }
    have ht := setCurrentIndex_touch e
    have ht2 : TouchAt ((s.tabs.length : Nat) : Int) (s.tabs ++ [fsp]) s1.tabs := by
      simpa [hnil] using ht
    obtain ⟨w2, e2, hr⟩ := touchAt_snoc ht2
    exact ⟨s1, w2, e, e2, hr, u.2⟩
  · exact ⟨_, fsp, rfl, rfl, refreshed_refl _, s.settingManager.viewMode, rfl⟩

theorem widget_last {s : AppWindow} {l : List MainWindow} {w : MainWindow}
    (h : s.tabs = l ++ [w]) : s.widget (l.length : Int) = some w := by
  simp [widget, h]

theorem setWidget_last {s : AppWindow} {l : List MainWindow} {w : MainWindow}
    (h : s.tabs = l ++ [w]) (w2 : MainWindow) :
    (s.setWidget (l.length : Int) w2).tabs = l ++ [w2] := by
  simp [setWidget, h]

theorem modifyWidget_last {s : AppWindow} {l : List MainWindow} {w : MainWindow}
    (h : s.tabs = l ++ [w]) (f : MainWindow → MainWindow) :
    (s.modifyWidget (l.length : Int) f).tabs = l ++ [f w] ∧
      (s.modifyWidget (l.length : Int) f).settingManager = s.settingManager ∧
      (s.modifyWidget (l.length : Int) f).currentIndex = s.currentIndex := by
  unfold modifyWidget
  rw [widget_last h]
  exact ⟨setWidget_last h _, by simp, by simp⟩

theorem setCurrentIndex_last {s : AppWindow} {l : List MainWindow} {w : MainWindow}
    (h : s.tabs = l ++ [w]) :
    ∃ s2 w2, setCurrentIndex (l.length : Int) s = some s2 ∧ s2.tabs = l ++ [w2] ∧
      Refreshed w w2 ∧ s2.currentIndex = (l.length : Int) ∧
      ∃ v, s2.settingManager = s.settingManager.setViewMode v := by
  have hcount : (l.length : Int) < s.count := by simp [count, h]
  obtain ⟨s2, e, u, hc⟩ := setCurrentIndex_valid (Int.natCast_nonneg _) hcount
  have ht := setCurrentIndex_touch e
  rw [h] at ht
  obtain ⟨w2, e2, hr⟩ := touchAt_snoc ht
  exact ⟨s2, w2, e, e2, hr, hc, u.2⟩

theorem callCurrent_last {s : AppWindow} {l : List MainWindow} {w : MainWindow}
    (h : s.tabs = l ++ [w]) (hc : s.currentIndex = (l.length : Int)) (c : Call) :
    ∃ s2, s.callCurrent c = some s2 ∧ s2.tabs = l ++ [w.record c] ∧
      s2.currentIndex = s.currentIndex ∧ s2.settingManager = s.settingManager := by
  unfold callCurrent
  have h0 : (0 : Int) ≤ s.currentIndex := by rw [hc]; exact Int.natCast_nonneg _
  rw [currentWindow_eq_widget h0, hc, widget_last h]
  exact ⟨_, rfl, setWidget_last h _, by simp [hc], by simp⟩

end AppWindow
end CPEditor

namespace CPEditor
namespace AppWindow

theorem firstTab_eq_none {p : MainWindow → Bool} {l : List MainWindow} {t0 : Nat} :
    firstTab p l t0 = none ↔ ∀ w ∈ l, p w = false := by
  induction l generalizing t0 with
  | nil => simp [firstTab]
  | cons a l ih =>
    unfold firstTab
    by_cases ha : p a = true
    · simp [ha]
    · simp [ha, ih]

theorem firstTab_eq_some {p : MainWindow → Bool} {l : List MainWindow} {t0 t : Nat} :
    firstTab p l t0 = some t ↔
      ∃ k w, t = t0 + k ∧ l[k]? = some w ∧ p w = true ∧
        ∀ j x, j < k → l[j]? = some x → p x = false := by
  induction l generalizing t0 with
  | nil => simp [firstTab]
  | cons a l ih =>
    unfold firstTab
    by_cases ha : p a = true
    · simp only [ha, if_true, Option.some.injEq]
      constructor
      · intro h
        exact ⟨0, a, by omega, by simp, ha, fun j x hj => by omega⟩
      · rintro ⟨k, w, e, hk, hw, hall⟩
        cases k with
        | zero => omega
        | succ k =>
          have := hall 0 a (by omega) (by simp)
          simp [ha] at this
    · simp only [ha, if_false, Bool.false_eq_true]
      rw [ih]
      constructor
      · rintro ⟨k, w, e, hk, hw, hall⟩
        refine ⟨k + 1, w, by omega, by simpa using hk, hw, ?_⟩
        intro j x hj hx
        cases j with
        | zero =>
          simp at hx
          subst hx
          simpa using ha
        | succ j => exact hall j x (by omega) (by simpa using hx)
      · rintro ⟨k, w, e, hk, hw, hall⟩
        cases k with
        | zero =>
          simp at hk
          subst hk
          exact absurd hw ha
        | succ k =>
          refine ⟨k, w, by omega, by simpa using hk, hw, ?_⟩
          intro j x hj hx
          exact hall (j + 1) x (by omega) (by simpa using hx)

theorem openTab_file_new {fs : FileSystem} {path : String} {s : AppWindow}
    (h : (if fs.fileExists path then
        firstTab (fun tmp => fs.sameFile path tmp.filePath) s.tabs 0 else none) = none) :
    ∃ s2 w2 index, openTab fs path false s = some s2 ∧ s2.tabs = s.tabs ++ [w2] ∧
      s2.currentIndex = s.count ∧
      (if path = "" then lowestUnused s.tabs else some 0) = some index ∧
      w2.toEditor = { (MainWindow.new path s.settingManager.toData index).toEditor with
        language := languageFor path s.settingManager.defaultLang } ∧
      w2.calls.getLast? = some Call.focusOnEditor ∧
      ∃ v, s2.settingManager = s.settingManager.setViewMode v := by
  obtain ⟨index, hidx⟩ : ∃ index, (if path = "" then lowestUnused s.tabs else some 0) = some index := by
    split
    · obtain ⟨n, hn, _⟩ := lowestUnused_spec s.tabs
      exact ⟨n, hn⟩
    · exact ⟨0, rfl⟩
  obtain ⟨s1, w1, e1, t1, r1, v1, m1⟩ :=
    addTab_spec (MainWindow.new path s.settingManager.toData index) s
  obtain ⟨t2, m2, c2⟩ := modifyWidget_last t1
    (fun w => w.setLanguage (languageFor path s.settingManager.defaultLang))
  obtain ⟨s3, w3, e3, t3, r3, c3, v3, m3⟩ := setCurrentIndex_last t2
  obtain ⟨s4, e4, t4, c4, m4⟩ := callCurrent_last t3 c3 Call.focusOnEditor
  refine ⟨s4, _, index, ?_, t4, by rw [c4, c3]; rfl, hidx, ?_, by simp [MainWindow.record], v3, ?_⟩
  · unfold openTab
    simp only [Bool.not_false, if_true, h, hidx, Option.some_bind, e1, count, e3, e4]
  · have := r3.1
    simp only [MainWindow.record, this, MainWindow.setLanguage, r1.1]
  · rw [m4, m3, m2, m1]; rfl

theorem openTab_companion_new (fs : FileSystem) {path : String} {s : AppWindow}
    (h : firstTab (fun tmp => decide (path = tmp.problemURL)) s.tabs 0 = none) :
    ∃ s2 w2 index, openTab fs path true s = some s2 ∧ s2.tabs = s.tabs ++ [w2] ∧
      s2.currentIndex = s.count ∧ lowestUnused s.tabs = some index ∧
      w2.toEditor = (MainWindow.new "" s.settingManager.toData index).toEditor ∧
      w2.calls.getLast? = some Call.focusOnEditor ∧
      ∃ v, s2.settingManager = s.settingManager.setViewMode v := by
  obtain ⟨index, hidx, _⟩ := lowestUnused_spec s.tabs
  obtain ⟨s1, w1, e1, t1, r1, v1, m1⟩ :=
    addTab_spec (MainWindow.new "" s.settingManager.toData index) s
  obtain ⟨s3, w3, e3, t3, r3, c3, v3, m3⟩ := setCurrentIndex_last t1
  obtain ⟨s4, e4, t4, c4, m4⟩ := callCurrent_last t3 c3 Call.focusOnEditor
  refine ⟨s4, _, index, ?_, t4, by rw [c4, c3]; rfl, hidx, ?_, by simp [MainWindow.record], v3, ?_⟩
  · unfold openTab
    simp only [Bool.not_true, Bool.false_eq_true, if_false, h, hidx, Option.some_bind, e1, count, e3, e4]
  · simp only [MainWindow.record, r3.1, r1.1]
  · rw [m4, m3, m1]; rfl

end AppWindow
end CPEditor

/-! ## C1: the untitled index of a new tab -/

namespace CPEditor
namespace AppWindow

theorem mem_visited {tabs : List MainWindow} {m : Int} :
    m ∈ visited tabs ↔
      ∃ w ∈ tabs, w.isUntitled = true ∧ w.problemURL = "" ∧ w.untitledIndex = m := by
  simp [visited, and_assoc]

/-- C1: whenever `openTab` creates a new untitled tab (empty path, or a companion
request whose URL matches no open tab), the call returns, the new tab is put at
the end, and its untitled index `n` is the smallest integer `n ≥ 1` that is not
the untitled index of an open untitled tab with an empty problem URL; it is 1
when no such tab is open; and the scan returns `n` for every fuel above the
number of such tabs. -/
theorem openTab_untitled_index_lowest_unused (fs : FileSystem) (path : String) (comp : Bool)
    (s : AppWindow)
    (hnew : (comp = false ∧ path = "") ∨ (comp = true ∧ ∀ w ∈ s.tabs, w.problemURL ≠ path)) :
    ∃ s2 w2 n, openTab fs path comp s = some s2 ∧ s2.tabs = s.tabs ++ [w2] ∧
      w2.isUntitled = true ∧ w2.untitledIndex = n ∧ 1 ≤ n ∧
      (∀ w ∈ s.tabs, w.isUntitled = true → w.problemURL = "" → w.untitledIndex ≠ n) ∧
      (∀ m, 1 ≤ m → m < n →
        ∃ w ∈ s.tabs, w.isUntitled = true ∧ w.problemURL = "" ∧ w.untitledIndex = m) ∧
      ((∀ w ∈ s.tabs, ¬ (w.isUntitled = true ∧ w.problemURL = "")) → n = 1) ∧
      (∀ fuel, (visited s.tabs).length < fuel → scanIndex (visited s.tabs) fuel 1 = some n) := by
  have key : ∀ n, lowestUnused s.tabs = some n →
      1 ≤ n ∧
      (∀ w ∈ s.tabs, w.isUntitled = true → w.problemURL = "" → w.untitledIndex ≠ n) ∧
      (∀ m, 1 ≤ m → m < n →
        ∃ w ∈ s.tabs, w.isUntitled = true ∧ w.problemURL = "" ∧ w.untitledIndex = m) ∧
      ((∀ w ∈ s.tabs, ¬ (w.isUntitled = true ∧ w.problemURL = "")) → n = 1) ∧
      (∀ fuel, (visited s.tabs).length < fuel → scanIndex (visited s.tabs) fuel 1 = some n) := by
    intro n hn
    obtain ⟨n2, e, h1, h2, h3, _⟩ := lowestUnused_spec s.tabs
    rw [hn] at e
    cases e
    have hleast : ∀ m, 1 ≤ m → m < n →
        ∃ w ∈ s.tabs, w.isUntitled = true ∧ w.problemURL = "" ∧ w.untitledIndex = m :=
      fun m hm1 hm2 => mem_visited.mp (h3 m hm1 hm2)
    refine ⟨h1, ?_, hleast, ?_, ?_⟩
    · intro w hw hu hp hidx
      exact h2 (mem_visited.mpr ⟨w, hw, hu, hp, hidx⟩)
    · intro hnone
      by_contra hne
      obtain ⟨w, hw, hu, hp, _⟩ := hleast 1 (le_refl _) (by omega)
      exact hnone w hw ⟨hu, hp⟩
    · intro fuel hfuel
      obtain ⟨n3, e3, g1, g2, g3, _⟩ := scanIndex_spec fuel (visited s.tabs) 1 hfuel
      rw [e3]
      congr 1
      by_contra hne
      rcases lt_or_gt_of_ne hne with hlt | hgt
      · exact g2 (h3 n3 g1 hlt)
      · exact h2 (g3 n h1 hgt)
  rcases hnew with ⟨rfl, rfl⟩ | ⟨rfl, hurl⟩
  · have hscr : (if fs.fileExists "" then
        firstTab (fun tmp => fs.sameFile "" tmp.filePath) s.tabs 0 else none) = none := by
      simp [FileSystem.fileExists]
    obtain ⟨s2, w2, index, e, ht, _, hidx, hed, _, _⟩ := openTab_file_new hscr
    simp only [if_true] at hidx
    have hw2 : w2.filePath = "" ∧ w2.untitledIndex = index := by
      have h1 := congrArg Editor.filePath hed
      have h2 := congrArg Editor.untitledIndex hed
      exact ⟨h1, h2⟩
    exact ⟨s2, w2, index, e, ht, by simp [MainWindow.isUntitled, hw2.1], hw2.2, key index hidx⟩
  · have hscr : firstTab (fun tmp => decide (path = tmp.problemURL)) s.tabs 0 = none := by
      rw [firstTab_eq_none]
      intro w hw
      have := hurl w hw
      simp [Ne.symm this]
    obtain ⟨s2, w2, index, e, ht, _, hidx, hed, _, _⟩ := openTab_companion_new fs hscr
    have hw2 : w2.filePath = "" ∧ w2.untitledIndex = index := by
      have h1 := congrArg Editor.filePath hed
      have h2 := congrArg Editor.untitledIndex hed
      exact ⟨h1, h2⟩
    exact ⟨s2, w2, index, e, ht, by simp [MainWindow.isUntitled, hw2.1], hw2.2, key index hidx⟩

end AppWindow
end CPEditor

namespace CPEditor
namespace AppWindow

/-- With the untitled tabs 1 and 3 open, `openTab("")` gives the new tab index 2. -/
theorem openTab_untitled_index_lowest_unused_witness :
    ((false = false ∧ "" = "") ∨
        (false = true ∧ ∀ w ∈ (Sample.windowOf [Sample.untitled 1 "", Sample.untitled 3 ""]).tabs,
          w.problemURL ≠ "")) ∧
      ∃ s2 w2, openTab Sample.files "" false
          (Sample.windowOf [Sample.untitled 1 "", Sample.untitled 3 ""]) = some s2 ∧
        s2.tabs = [Sample.untitled 1 "", Sample.untitled 3 "", w2] ∧ w2.untitledIndex = 2 := by
  refine ⟨Or.inl ⟨rfl, rfl⟩, ?_⟩
  obtain ⟨s2, w2, n, e, ht, _, hidx, h1, h2, h3, _⟩ :=
    openTab_untitled_index_lowest_unused Sample.files "" false
      (Sample.windowOf [Sample.untitled 1 "", Sample.untitled 3 ""]) (Or.inl ⟨rfl, rfl⟩)
  refine ⟨s2, w2, e, ht, ?_⟩
  have hne1 : (1 : Int) ≠ n := h2 (Sample.untitled 1 "") (by simp [Sample.windowOf]) rfl rfl
  have hle : n ≤ 2 := by
    by_contra hgt
    obtain ⟨w, hw, _, _, hw2⟩ := h3 2 (by decide) (by omega)
    simp [Sample.windowOf] at hw
    rcases hw with rfl | rfl
    · exact absurd hw2 (by decide)
    · exact absurd hw2 (by decide)
  omega

end AppWindow
end CPEditor

/-! ## C2: untitled indices of distinct tabs -/

namespace CPEditor
open AppWindow

set_option maxRecDepth 100000 in
/-- C2, as stated, fails: from the empty window, a companion request for the
URL `u` opens the untitled tab 1, which then carries the URL `u`, and the call
`openTab("")` after it opens a second untitled tab with index 1. -/
theorem untitled_tabs_share_index :
    ¬ ∀ s, Reachable (fun _ _ => True) s → UntitledDistinct s := by
  intro h
  have r0 : Reachable (fun _ _ => True) Sample.emptyWindow := Reachable.empty _ rfl rfl
  obtain ⟨s1, e1⟩ : ∃ s1, onIncomingCompanionRequest Sample.files ⟨"u", []⟩
      Sample.emptyWindow = some s1 := ⟨_, rfl⟩
  obtain ⟨s2, e2, t2⟩ : ∃ s2, openTab Sample.files "" false
      ((onIncomingCompanionRequest Sample.files ⟨"u", []⟩ Sample.emptyWindow).getD
        Sample.emptyWindow) = some s2 ∧
      s2.tabs.map (fun w => (w.isUntitled, w.untitledIndex, w.problemURL)) =
        [(true, 1, "u"), (true, 1, "")] :=
    ⟨_, rfl, by decide⟩
  have r1 := Reachable.companion Sample.files ⟨"u", []⟩ r0 trivial e1
  rw [e1] at e2
  have r2 := Reachable.openTab Sample.files "" r1 e2
  have hd := h s2 r2
  obtain ⟨a, b, e⟩ : ∃ a b, s2.tabs = [a, b] := by
    match hs : s2.tabs with
    | [a, b] => exact ⟨a, b, rfl⟩
    | [] => simp [hs] at t2
    | [_] => simp [hs] at t2
    | _ :: _ :: _ :: _ => simp [hs] at t2
  rw [e] at t2
  simp at t2
  obtain ⟨⟨ha1, ha2, _⟩, hb1, hb2, _⟩ := t2
  exact hd 0 1 a b (by decide) (by simp [e]) (by simp [e]) ha1 hb1 (by rw [ha2, hb2])

end CPEditor

namespace CPEditor
namespace AppWindow

theorem list_eraseIdx_set (l : List MainWindow) (i : Nat) (w : MainWindow) :
    (l.set i w).eraseIdx i = l.eraseIdx i := by
  induction l generalizing i with
  | nil => simp
  | cons a l ih =>
    cases i with
    | zero => simp
    | succ i => simp [ih]

theorem onTabChanged_neg_one (s : AppWindow) : onTabChanged (-1) s = some s := by
  simp [onTabChanged]

theorem removeTab_spec {index : Int} {s : AppWindow} (h0 : 0 ≤ index) (h1 : index < s.count) :
    ∃ s2, removeTab index s = some s2 ∧
      List.Forall₂ Refreshed (s.tabs.eraseIdx index.toNat) s2.tabs ∧
      ∃ v, s2.settingManager = s.settingManager.setViewMode v := by
  unfold removeTab
  rw [if_pos ⟨h0, h1⟩]
  dsimp only
  split
  · split
    · exact ⟨_, onTabChanged_neg_one _, tabsRefreshed_refl _, s.settingManager.viewMode, rfl⟩
    · obtain ⟨s2, e, u⟩ := setCurrentIndex_total
        (if index < ((s.tabs.eraseIdx index.toNat).length : Int) then index
          else ((s.tabs.eraseIdx index.toNat).length : Int) - 1)
        { s with tabs := s.tabs.eraseIdx index.toNat, currentIndex := -1 }
      exact ⟨s2, e, u.1, u.2⟩
  · split
    · obtain ⟨s2, e, u⟩ := setCurrentIndex_total (s.currentIndex - 1)
        { s with tabs := s.tabs.eraseIdx index.toNat }
      exact ⟨s2, e, u.1, u.2⟩
    · exact ⟨_, rfl, tabsRefreshed_refl _, s.settingManager.viewMode, rfl⟩

theorem closeTab_accept {index : Int} {s : AppWindow} {tmp : MainWindow}
    (h : s.windowIndex index = some tmp) (ha : tmp.closeAnswer = true) :
    ∃ s2, closeTab index s = some (true, s2) ∧
      List.Forall₂ Refreshed (s.tabs.eraseIdx index.toNat) s2.tabs ∧
      ∃ v, s2.settingManager = s.settingManager.setViewMode v := by
  have hw := windowIndex_eq_some h
  obtain ⟨h0, h1⟩ := widget_lt hw
  have h1b : index < (s.setWidget index (tmp.record Call.closeConfirm)).count := by
    simpa [count] using h1
  obtain ⟨s2, e, t, v, m⟩ := removeTab_spec h0 h1b
  refine ⟨s2.onEditorChanged, ?_, ?_, v, ?_⟩
  · unfold closeTab
    simp [h, ha, e]
  · rw [setWidget_tabs h0, list_eraseIdx_set] at t
    exact t
  · simpa [onEditorChanged] using m

theorem closeTab_refuse {index : Int} {s : AppWindow} {tmp : MainWindow}
    (h : s.windowIndex index = some tmp) (ha : tmp.closeAnswer = false) :
    closeTab index s = some (false, s.setWidget index (tmp.record Call.closeConfirm)) := by
  unfold closeTab
  simp [h, ha]

theorem closeTab_null {index : Int} {s : AppWindow} (h : s.windowIndex index = none) :
    closeTab index s = none := by
  unfold closeTab
  simp [h]

end AppWindow
end CPEditor

namespace CPEditor
open AppWindow

theorem plainRel_symm {a b : Editor} (h : PlainRel a b) : PlainRel b a :=
  fun h1 h2 h3 h4 e => h h2 h1 h4 h3 e.symm

theorem plainPairwise_congr {l1 l2 : List MainWindow}
    (h : l2.map MainWindow.toEditor = l1.map MainWindow.toEditor) (hp : PlainPairwise l1) :
    PlainPairwise l2 := by
  unfold PlainPairwise at *
  rw [h]; exact hp

theorem plainPairwise_refreshed {l1 l2 : List MainWindow}
    (h : List.Forall₂ Refreshed l1 l2) (hp : PlainPairwise l1) : PlainPairwise l2 :=
  plainPairwise_congr (tabsRefreshed_map_toEditor h) hp

theorem plainPairwise_snoc {l : List MainWindow} {w : MainWindow} (hp : PlainPairwise l)
    (hw : ∀ a ∈ l, PlainRel a.toEditor w.toEditor) : PlainPairwise (l ++ [w]) := by
  unfold PlainPairwise at *
  rw [List.map_append, List.pairwise_append]
  refine ⟨hp, by simp, ?_⟩
  intro a ha b hb
  obtain ⟨x, hx, rfl⟩ := List.mem_map.mp ha
  simp at hb
  subst hb
  exact hw x hx

theorem plainPairwise_eraseIdx {l : List MainWindow} (hp : PlainPairwise l) (i : Nat) :
    PlainPairwise (l.eraseIdx i) := by
  unfold PlainPairwise at *
  exact List.Pairwise.sublist ((List.eraseIdx_sublist l i).map _) hp

theorem plainPairwise_set {l : List MainWindow} (hp : PlainPairwise l) (i : Nat)
    (w : MainWindow) (hw : ∀ a : Editor, PlainRel a w.toEditor) :
    PlainPairwise (l.set i w) := by
  unfold PlainPairwise at *
  induction l generalizing i with
  | nil => simp
  | cons a l ih =>
    rw [List.map_cons, List.pairwise_cons] at hp
    cases i with
    | zero =>
      rw [List.set_cons_zero, List.map_cons, List.pairwise_cons]
      exact ⟨fun b _ => plainRel_symm (hw b), hp.2⟩
    | succ i =>
      rw [List.set_cons_succ, List.map_cons, List.pairwise_cons]
      refine ⟨?_, ih hp.2 i⟩
      intro b hb
      obtain ⟨x, hx, rfl⟩ := List.mem_map.mp hb
      rcases List.mem_or_eq_of_mem_set hx with h | h
      · exact hp.1 _ (List.mem_map_of_mem _ h)
      · subst h; exact hw _

theorem plainPairwise_set_same {l : List MainWindow} (hp : PlainPairwise l) {i : Nat}
    {w w2 : MainWindow} (h : l[i]? = some w) (he : w2.toEditor = w.toEditor) :
    PlainPairwise (l.set i w2) := by
  refine plainPairwise_congr ?_ hp
  rw [List.map_set, he]
  apply List.ext_getElem?
  intro j
  rw [List.getElem?_set]
  by_cases hij : i = j
  · subst hij
    obtain ⟨hlt, e⟩ := List.getElem?_eq_some_iff.mp h
    simp [hlt, ← e]
  · simp [hij]

theorem plainDistinct_of_pairwise {s : AppWindow} (hp : PlainPairwise s.tabs) :
    PlainUntitledDistinct s := by
  unfold PlainPairwise at hp
  rw [List.pairwise_iff_getElem] at hp
  intro i j w1 w2 hij h1 h2 u1 u2 p1 p2
  obtain ⟨hi, e1⟩ := List.getElem?_eq_some_iff.mp h1
  obtain ⟨hj, e2⟩ := List.getElem?_eq_some_iff.mp h2
  have f1 : w1.filePath = "" := by simpa [MainWindow.isUntitled] using u1
  have f2 : w2.filePath = "" := by simpa [MainWindow.isUntitled] using u2
  rcases Nat.lt_or_gt_of_ne hij with hlt | hgt
  · have := hp i j (by simpa using hi) (by simpa using hj) hlt
    simp only [List.getElem_map, e1, e2] at this
    exact this f1 f2 p1 p2
  · have := hp j i (by simpa using hj) (by simpa using hi) hgt
    simp only [List.getElem_map, e1, e2] at this
    exact fun e => this f2 f1 p2 p1 e.symm

theorem plainRel_of_not_visited {l : List MainWindow} {n : Int} (hn : n ∉ visited l)
    (b : Editor) (hb : b.untitledIndex = n) : ∀ a ∈ l, PlainRel a.toEditor b := by
  intro a ha f1 _ p1 _ e
  apply hn
  rw [mem_visited]
  exact ⟨a, ha, by simpa [MainWindow.isUntitled] using f1, p1, by rw [← hb]; exact e⟩

end CPEditor

namespace CPEditor
open AppWindow

theorem openTab_file_existing {fs : FileSystem} {path : String} {s : AppWindow} {t : Nat}
    (h : (if fs.fileExists path then
        firstTab (fun tmp => fs.sameFile path tmp.filePath) s.tabs 0 else none) = some t) :
    openTab fs path false s = setCurrentIndex t s := by
  unfold openTab
  simp only [Bool.not_false, if_true, h]

theorem openTab_companion_existing {fs : FileSystem} {path : String} {s : AppWindow} {t : Nat}
    (h : firstTab (fun tmp => decide (path = tmp.problemURL)) s.tabs 0 = some t) :
    openTab fs path true s = setCurrentIndex t s := by
  unfold openTab
  simp only [Bool.not_true, Bool.false_eq_true, if_false, h]

theorem openTab_file_plainPairwise {fs : FileSystem} {path : String} {s s2 : AppWindow}
    (hp : PlainPairwise s.tabs) (h : openTab fs path false s = some s2) :
    PlainPairwise s2.tabs := by
  cases hscr : (if fs.fileExists path then
      firstTab (fun tmp => fs.sameFile path tmp.filePath) s.tabs 0 else none) with
  | some t =>
    rw [openTab_file_existing hscr] at h
    exact plainPairwise_refreshed (touchAt_tabsRefreshed (setCurrentIndex_touch h)) hp
  | none =>
    obtain ⟨s3, w2, index, e, ht, _, hidx, hed, _, _⟩ := openTab_file_new hscr
    rw [h] at e
    cases e
    rw [ht]
    apply plainPairwise_snoc hp
    by_cases hpath : path = ""
    · rw [if_pos hpath] at hidx
      obtain ⟨n, hn, _, hnv, _⟩ := lowestUnused_spec s.tabs
      rw [hidx] at hn
      cases hn
      exact plainRel_of_not_visited hnv _ (by rw [hed]; rfl)
    · intro a _ _ f2
      rw [hed] at f2
      exact absurd f2 hpath

theorem closeTab_plainPairwise {index : Int} {closed : Bool} {s s2 : AppWindow}
    (hp : PlainPairwise s.tabs) (h : closeTab index s = some (closed, s2)) :
    PlainPairwise s2.tabs := by
  cases hw : s.windowIndex index with
  | none => rw [closeTab_null hw] at h; cases h
  | some tmp =>
    cases ha : tmp.closeAnswer with
    | true =>
      obtain ⟨s3, e, t, _⟩ := closeTab_accept hw ha
      rw [h] at e
      cases e
      exact plainPairwise_refreshed t (plainPairwise_eraseIdx hp _)
    | false =>
      rw [closeTab_refuse hw ha] at h
      cases h
      obtain ⟨h0, h1⟩ := widget_eq_some.mp (windowIndex_eq_some hw)
      rw [setWidget_tabs h0]
      exact plainPairwise_set_same hp h1 rfl

theorem companion_plainPairwise {fs : FileSystem} {data : CompanionData} {s s2 : AppWindow}
    (hp : PlainPairwise s.tabs) (hallowed : UrlRequest s data)
    (h : onIncomingCompanionRequest fs data s = some s2) : PlainPairwise s2.tabs := by
  unfold onIncomingCompanionRequest at h
  by_cases hset : s.settingManager.competitiveCompanionOpenNewTab = true
  · rw [if_pos hset] at h
    cases hscr : firstTab (fun tmp => decide (data.url = tmp.problemURL)) s.tabs 0 with
    | some t =>
      rw [openTab_companion_existing hscr] at h
      obtain ⟨k, w, ek, hk, hurl, _⟩ := firstTab_eq_some.mp hscr
      have et : t = k := by omega
      subst et
      have hlt := (List.getElem?_eq_some_iff.mp hk).1
      obtain ⟨s1, e1, _, c1⟩ := setCurrentIndex_valid (s := s) (Int.natCast_nonneg t)
        (by simp [count, hlt])
      have touch := setCurrentIndex_touch e1
      obtain ⟨w1, hw1, r1, et1⟩ := touchAt_getElem?_eq touch (Int.natCast_nonneg t)
        (by simpa using hk)
      have hcur : s1.currentWindow = some w1 := by
        rw [currentWindow_eq_widget (by rw [c1]; exact Int.natCast_nonneg t), c1]
        simpa [widget] using hw1
      rw [e1] at h
      simp only [Option.some_bind, hcur, Option.some.injEq] at h
      subst h
      rw [c1, setWidget_tabs (Int.natCast_nonneg t)]
      have hp1 : PlainPairwise s1.tabs :=
        plainPairwise_refreshed (touchAt_tabsRefreshed touch) hp
      refine plainPairwise_set_same hp1 hw1 ?_
      have hu : w1.problemURL = data.url := by
        have : w1.problemURL = w.problemURL := congrArg Editor.problemURL r1.1
        rw [this]
        have hd : data.url = w.problemURL := by simpa using hurl
        exact hd.symm
      simp [MainWindow.applyCompanion, ← hu]
    | none =>
      obtain ⟨s1, w2, index, e, ht, hc, hidx, hed, _, _⟩ := openTab_companion_new fs hscr
      rw [e] at h
      have hcur : s1.currentWindow = some w2 := by
        rw [currentWindow_eq_widget (by rw [hc]; exact Int.natCast_nonneg _), hc]
        exact widget_last ht
      simp only [Option.some_bind, hcur, Option.some.injEq] at h
      subst h
      rw [hc, count, setWidget_last ht]
      apply plainPairwise_snoc hp
      obtain ⟨n, hn, _, hnv, _⟩ := lowestUnused_spec s.tabs
      rw [hidx] at hn
      cases hn
      exact plainRel_of_not_visited hnv _ (by
        show (w2.applyCompanion data).untitledIndex = index
        have : w2.untitledIndex = index := congrArg Editor.untitledIndex hed
        simpa [MainWindow.applyCompanion] using this)
  · rw [if_neg hset] at h
    have hurl : data.url ≠ "" := by
      rcases hallowed with h1 | h1
      · exact absurd h1 hset
      · exact h1
    simp only [Option.some_bind] at h
    split at h
    · next w hw =>
      cases h
      obtain ⟨h0, _⟩ := widget_eq_some.mp (currentWindow_eq_some hw)
      rw [setWidget_tabs h0]
      apply plainPairwise_set hp
      intro a _ _ _ p2
      exact absurd p2 hurl
    · cases h; exact hp

/-- C2, amended: in every state reachable from an empty window by `openTab`
calls, `closeTab` calls and companion requests that arrive while "open new tab"
is on or carry a non-empty URL, any two distinct open untitled tabs that both
have an empty problem URL have different untitled indices. -/
theorem plain_untitled_tabs_distinct (s : AppWindow) (h : Reachable UrlRequest s) :
    PlainUntitledDistinct s := by
  apply plainDistinct_of_pairwise
  induction h with
  | empty s ht _ => rw [ht]; exact List.Pairwise.nil
  | openTab fs path _ e ih => exact openTab_file_plainPairwise ih e
  | companion fs data _ ha e ih => exact companion_plainPairwise ih ha e
  | closeTab index closed _ e ih => exact closeTab_plainPairwise ih e

end CPEditor

namespace CPEditor
open AppWindow

set_option maxRecDepth 100000 in
/-- The state after a companion request for `u` and `openTab("")` is reachable
and satisfies the amended statement. -/
theorem plain_untitled_tabs_distinct_witness :
    Reachable UrlRequest
        (((onIncomingCompanionRequest Sample.files ⟨"u", []⟩ Sample.emptyWindow).bind
          (openTab Sample.files "" false)).getD Sample.emptyWindow) ∧
      PlainUntitledDistinct
        (((onIncomingCompanionRequest Sample.files ⟨"u", []⟩ Sample.emptyWindow).bind
          (openTab Sample.files "" false)).getD Sample.emptyWindow) :=
  have r0 : Reachable UrlRequest Sample.emptyWindow := Reachable.empty _ rfl rfl
  have r1 := Reachable.companion (t := (onIncomingCompanionRequest Sample.files ⟨"u", []⟩
    Sample.emptyWindow).getD Sample.emptyWindow) Sample.files ⟨"u", []⟩ r0 (Or.inl rfl) rfl
  have r2 := Reachable.openTab (t := ((onIncomingCompanionRequest Sample.files ⟨"u", []⟩
    Sample.emptyWindow).bind (openTab Sample.files "" false)).getD Sample.emptyWindow)
    Sample.files "" r1 rfl
  ⟨r2, plain_untitled_tabs_distinct _ r2⟩

end CPEditor

/-! ## C3: who is given the settings data -/

namespace CPEditor
open AppWindow

theorem currentWindow_congr {s t : AppWindow} (h1 : t.tabs = s.tabs)
    (h2 : t.currentIndex = s.currentIndex) : t.currentWindow = s.currentWindow := by
  simp [currentWindow, widget, h1, h2]

theorem editorMode_tabs {s : AppWindow} {w : MainWindow} (h : s.currentWindow = some w) :
    s.on_actionEditor_Mode_triggered.tabs =
      s.tabs.set s.currentIndex.toNat (w.setSplitter (Splitter.sizes 1 0)) := by
  have h0 := (widget_eq_some.mp (currentWindow_eq_some h)).1
  unfold on_actionEditor_Mode_triggered
  dsimp only
  split
  · next w2 hw2 =>
    have e : s.currentWindow = some w2 := hw2
    rw [h] at e
    cases e
    exact setWidget_tabs h0 _
  · next hw2 =>
    have e : s.currentWindow = none := hw2
    rw [h] at e
    cases e

theorem ioMode_tabs {s : AppWindow} {w : MainWindow} (h : s.currentWindow = some w) :
    s.on_actionIO_Mode_triggered.tabs =
      s.tabs.set s.currentIndex.toNat (w.setSplitter (Splitter.sizes 0 1)) := by
  have h0 := (widget_eq_some.mp (currentWindow_eq_some h)).1
  unfold on_actionIO_Mode_triggered
  dsimp only
  split
  · next w2 hw2 =>
    have e : s.currentWindow = some w2 := hw2
    rw [h] at e
    cases e
    exact setWidget_tabs h0 _
  · next hw2 =>
    have e : s.currentWindow = none := hw2
    rw [h] at e
    cases e

theorem splitMode_tabs {s : AppWindow} {w : MainWindow} (h : s.currentWindow = some w) :
    s.on_actionSplit_Mode_triggered.tabs =
      s.tabs.set s.currentIndex.toNat
        (w.setSplitter (Splitter.restored s.settingManager.splitterSizes)) := by
  have h0 := (widget_eq_some.mp (currentWindow_eq_some h)).1
  unfold on_actionSplit_Mode_triggered
  dsimp only
  split
  · next w2 hw2 =>
    have e : s.currentWindow = some w2 := hw2
    rw [h] at e
    cases e
    exact setWidget_tabs h0 _
  · next hw2 =>
    have e : s.currentWindow = none := hw2
    rw [h] at e
    cases e

theorem retrigger_current (s1 : AppWindow) {w : MainWindow} (h : s1.currentWindow = some w) :
    ∃ t sp, (if s1.actionEditor_Mode then some s1.on_actionEditor_Mode_triggered
        else if s1.actionIO_Mode then some s1.on_actionIO_Mode_triggered
        else if s1.actionSplit_Mode then some s1.on_actionSplit_Mode_triggered
        else some s1) = some t ∧
      t.tabs = s1.tabs.set s1.currentIndex.toNat (w.setSplitter sp) ∧
      t.currentIndex = s1.currentIndex ∧
      ∃ v, t.settingManager = s1.settingManager.setViewMode v := by
  split
  · exact ⟨_, _, rfl, editorMode_tabs h, by simp, (editorMode_uiStep s1).2⟩
  · split
    · exact ⟨_, _, rfl, ioMode_tabs h, by simp, (ioMode_uiStep s1).2⟩
    · split
      · exact ⟨_, _, rfl, splitMode_tabs h, by simp, (splitMode_uiStep s1).2⟩
      · refine ⟨s1, w.splitter, rfl, ?_, rfl, (uiStep_refl s1).2⟩
        exact (list_set_self (widget_eq_some.mp (currentWindow_eq_some h)).2).symm

theorem onTabChanged_current {s : AppWindow} {tmp : MainWindow}
    (hw : s.widget s.currentIndex = some tmp) :
    ∃ t w2, onTabChanged s.currentIndex s = some t ∧
      t.tabs = s.tabs.set s.currentIndex.toNat w2 ∧ w2.toEditor = tmp.toEditor ∧
      w2.calls = tmp.calls ++ [Call.setSettingsData s.settingManager.toData s.diagonistics] ∧
      w2.settings = s.settingManager.toData ∧ t.currentIndex = s.currentIndex ∧
      ∃ v, t.settingManager = s.settingManager.setViewMode v := by
  obtain ⟨h0, h1⟩ := widget_eq_some.mp hw
  have hne : s.currentIndex ≠ -1 := by omega
  have hcur : ({ s.setWidget s.currentIndex
      (tmp.setSettingsData s.settingManager.toData s.diagonistics) with
        diagonistics := false } : AppWindow).currentWindow =
      some (tmp.setSettingsData s.settingManager.toData s.diagonistics) := by
    have e : (s.setWidget s.currentIndex
        (tmp.setSettingsData s.settingManager.toData s.diagonistics)).currentWindow =
        some (tmp.setSettingsData s.settingManager.toData s.diagonistics) := by
      rw [currentWindow_eq_widget (by simpa using h0)]
      simpa using widget_setWidget_same hw _
    exact e
  obtain ⟨t, sp, e, ht, hc, v, hv⟩ := retrigger_current _ hcur
  refine ⟨t, (tmp.setSettingsData s.settingManager.toData s.diagonistics).setSplitter sp,
    ?_, ?_, ?_, ?_, ?_, ?_, v, ?_⟩
  · unfold onTabChanged
    rw [if_neg hne, windowIndex_eq_widget h0, hw]
    exact e
  · rw [ht]
    show ((s.setWidget s.currentIndex _).tabs.set _ _) = _
    rw [setWidget_tabs h0, setWidget_currentIndex, List.set_set]
  · rfl
  · rfl
  · rfl
  · rw [hc]; exact setWidget_currentIndex _ _ _
  · rw [hv]
    show (s.setWidget s.currentIndex _).settingManager.setViewMode v = _
    rw [setWidget_settingManager]

end CPEditor

namespace CPEditor
open AppWindow

set_option maxRecDepth 100000 in
/-- C3, as stated, fails: with two tabs open and the first one current,
`onSettingsApplied` returns and the second tab has received no operation at
all, so it was not given the settings data. -/
theorem settings_not_given_to_other_tab :
    ¬ ∀ s t, onSettingsApplied s = some t → ∀ i, i < t.tabs.length →
      GivenSettings s t i t.settingManager.toData := by
  intro h
  obtain ⟨t, e, ht⟩ : ∃ t, onSettingsApplied
      (Sample.windowOf [Sample.untitled 1 "", Sample.untitled 2 ""]) = some t ∧
      t.tabs[1]? = some (Sample.untitled 2 "") ∧ t.tabs.length = 2 :=
    ⟨_, rfl, by decide⟩
  obtain ⟨w, w2, extra, g, h1, h2, h3, h4⟩ := h _ t e 1 (by omega)
  rw [ht.1] at h2
  cases h2
  have h5 : w = Sample.untitled 2 "" := by
    simpa [Sample.windowOf, Sample.emptyWindow] using h1.symm
  subst h5
  have : extra = [] := by simpa [Sample.untitled, MainWindow.new] using h3
  subst this
  simp at h4

/-- C3, amended: `onSettingsApplied` gives the current data of the settings
manager, through `setSettingsData` with diagnostics on, to the current tab
only: every other tab is left as it is, and without a current tab no tab is
touched. A tab that is not current is given the data by `onTabChanged` when it
becomes the current tab. -/
theorem onSettingsApplied_gives_current_tab (s : AppWindow) :
    (∀ w, s.currentWindow = some w →
      ∃ t w2, onSettingsApplied s = some t ∧
        t.tabs = s.tabs.set s.currentIndex.toNat w2 ∧
        w2.calls = w.calls ++ [Call.setSettingsData t.settingManager.toData true] ∧
        w2.settings = t.settingManager.toData ∧ w2.toEditor = w.toEditor) ∧
    (s.currentIndex = -1 → ∃ t, onSettingsApplied s = some t ∧ t.tabs = s.tabs) ∧
    (∀ i w, s.widget i = some w → i ≠ s.currentIndex →
      ∃ t w2, setCurrentIndex i s = some t ∧ t.currentIndex = i ∧
        t.tabs = s.tabs.set i.toNat w2 ∧
        w2.calls = w.calls ++ [Call.setSettingsData t.settingManager.toData s.diagonistics] ∧
        w2.settings = t.settingManager.toData ∧ w2.toEditor = w.toEditor) := by
  refine ⟨?_, ?_, ?_⟩
  · intro w hw
    have hw2 : ({ s with diagonistics := true } : AppWindow).widget
        ({ s with diagonistics := true } : AppWindow).currentIndex = some w :=
      currentWindow_eq_some hw
    obtain ⟨t, w2, e, ht, hed, hcalls, hset, _, v, hv⟩ := onTabChanged_current hw2
    refine ⟨t.onEditorChanged, w2, ?_, ht, ?_, ?_, hed⟩
    · unfold onSettingsApplied
      rw [e]; rfl
    · rw [hcalls]
      show _ = _ ++ [Call.setSettingsData t.settingManager.toData true]
      rw [hv]; rfl
    · rw [hset]
      show _ = t.settingManager.toData
      rw [hv]; rfl
  · intro hc
    unfold onSettingsApplied
    rw [hc, onTabChanged_neg_one]
    exact ⟨_, rfl, rfl⟩
  · intro i w hw hne
    obtain ⟨h0, h1⟩ := widget_lt hw
    have hw2 : ({ s with currentIndex := i } : AppWindow).widget
        ({ s with currentIndex := i } : AppWindow).currentIndex = some w := hw
    obtain ⟨t, w2, e, ht, hed, hcalls, hset, hc, v, hv⟩ := onTabChanged_current hw2
    refine ⟨t, w2, ?_, hc, ht, ?_, ?_, hed⟩
    · unfold setCurrentIndex
      rw [if_pos ⟨h0, h1, hne⟩]
      exact e
    · rw [hcalls, hv]; rfl
    · rw [hset, hv]; rfl

/-- With two tabs open and the first one current, only the first tab is given
the settings data. -/
theorem onSettingsApplied_gives_current_tab_witness :
    (Sample.windowOf [Sample.untitled 1 "", Sample.untitled 2 ""]).currentWindow =
        some (Sample.untitled 1 "") ∧
      ∃ t w2, onSettingsApplied
          (Sample.windowOf [Sample.untitled 1 "", Sample.untitled 2 ""]) = some t ∧
        t.tabs = [w2, Sample.untitled 2 ""] ∧
        w2.calls = [Call.setSettingsData t.settingManager.toData true] :=
  ⟨rfl,
    let ⟨t, w2, e, ht, hc, _⟩ := (onSettingsApplied_gives_current_tab
      (Sample.windowOf [Sample.untitled 1 "", Sample.untitled 2 ""])).1
      (Sample.untitled 1 "") rfl
    ⟨t, w2, e, ht, hc⟩⟩

end CPEditor

/-! ## C4: the view mode -/

namespace CPEditor
open AppWindow

theorem modeInv_congr {s t : AppWindow} (h : ModeInv s)
    (h1 : t.actionEditor_Mode = s.actionEditor_Mode) (h2 : t.actionIO_Mode = s.actionIO_Mode)
    (h3 : t.actionSplit_Mode = s.actionSplit_Mode)
    (h4 : t.settingManager.viewMode = s.settingManager.viewMode) : ModeInv t := by
  unfold ModeInv at *
  rw [h1, h2, h3, h4]
  exact h

theorem editorMode_modeInv (s : AppWindow) :
    s.on_actionEditor_Mode_triggered.actionEditor_Mode = true ∧
    s.on_actionEditor_Mode_triggered.actionIO_Mode = false ∧
    s.on_actionEditor_Mode_triggered.actionSplit_Mode = false ∧
    s.on_actionEditor_Mode_triggered.settingManager.viewMode = ViewMode.FULL_EDITOR := by
  unfold on_actionEditor_Mode_triggered
  dsimp only
  split <;> simp [SettingManager.setViewMode]

theorem ioMode_modeInv (s : AppWindow) :
    s.on_actionIO_Mode_triggered.actionEditor_Mode = false ∧
    s.on_actionIO_Mode_triggered.actionIO_Mode = true ∧
    s.on_actionIO_Mode_triggered.actionSplit_Mode = false ∧
    s.on_actionIO_Mode_triggered.settingManager.viewMode = ViewMode.FULL_IO := by
  unfold on_actionIO_Mode_triggered
  dsimp only
  split <;> simp [SettingManager.setViewMode]

theorem splitMode_modeInv (s : AppWindow) :
    s.on_actionSplit_Mode_triggered.actionEditor_Mode = false ∧
    s.on_actionSplit_Mode_triggered.actionIO_Mode = false ∧
    s.on_actionSplit_Mode_triggered.actionSplit_Mode = true ∧
    s.on_actionSplit_Mode_triggered.settingManager.viewMode = ViewMode.SPLIT := by
  unfold on_actionSplit_Mode_triggered
  dsimp only
  split <;> simp [SettingManager.setViewMode]

theorem retrigger_modeInv (s1 : AppWindow) {t : AppWindow}
    (h : (if s1.actionEditor_Mode then some s1.on_actionEditor_Mode_triggered
        else if s1.actionIO_Mode then some s1.on_actionIO_Mode_triggered
        else if s1.actionSplit_Mode then some s1.on_actionSplit_Mode_triggered
        else some s1) = some t)
    (hinv : (s1.actionEditor_Mode = true ∧ s1.actionIO_Mode = false ∧
        s1.actionSplit_Mode = false) ∨
      (s1.actionEditor_Mode = false ∧ s1.actionIO_Mode = true ∧
        s1.actionSplit_Mode = false) ∨
      (s1.actionEditor_Mode = false ∧ s1.actionIO_Mode = false ∧
        s1.actionSplit_Mode = true)) : ModeInv t := by
  split at h
  · cases h; exact Or.inl (editorMode_modeInv s1)
  · split at h
    · cases h; exact Or.inr (Or.inl (ioMode_modeInv s1))
    · split at h
      · cases h; exact Or.inr (Or.inr (splitMode_modeInv s1))
      · rcases hinv with h1 | h1 | h1 <;> simp_all

theorem modeInv_flags {s : AppWindow} (h : ModeInv s) :
    (s.actionEditor_Mode = true ∧ s.actionIO_Mode = false ∧ s.actionSplit_Mode = false) ∨
    (s.actionEditor_Mode = false ∧ s.actionIO_Mode = true ∧ s.actionSplit_Mode = false) ∨
    (s.actionEditor_Mode = false ∧ s.actionIO_Mode = false ∧ s.actionSplit_Mode = true) := by
  rcases h with h | h | h
  · exact Or.inl ⟨h.1, h.2.1, h.2.2.1⟩
  · exact Or.inr (Or.inl ⟨h.1, h.2.1, h.2.2.1⟩)
  · exact Or.inr (Or.inr ⟨h.1, h.2.1, h.2.2.1⟩)

theorem onTabChanged_modeInv_of_flags {index : Int} {s t : AppWindow}
    (h : onTabChanged index s = some t) (hne : index ≠ -1)
    (hf : (s.actionEditor_Mode = true ∧ s.actionIO_Mode = false ∧
        s.actionSplit_Mode = false) ∨
      (s.actionEditor_Mode = false ∧ s.actionIO_Mode = true ∧
        s.actionSplit_Mode = false) ∨
      (s.actionEditor_Mode = false ∧ s.actionIO_Mode = false ∧
        s.actionSplit_Mode = true)) : ModeInv t := by
  unfold onTabChanged at h
  rw [if_neg hne] at h
  split at h
  · cases h
  · exact retrigger_modeInv _ h (by simpa using hf)

theorem onTabChanged_modeInv {index : Int} {s t : AppWindow}
    (h : onTabChanged index s = some t) (hinv : ModeInv s) : ModeInv t := by
  by_cases hne : index = -1
  · subst hne
    rw [onTabChanged_neg_one] at h
    cases h
    exact hinv
  · exact onTabChanged_modeInv_of_flags h hne (modeInv_flags hinv)

theorem callCurrent_modeInv {c : Call} {s t : AppWindow} (h : s.callCurrent c = some t)
    (hinv : ModeInv s) : ModeInv t := by
  unfold callCurrent at h
  cases hw : s.currentWindow with
  | none => simp [hw] at h
  | some w =>
    simp only [hw, Option.map_some', Option.some.injEq] at h
    subst h
    exact modeInv_congr hinv (by simp) (by simp) (by simp) (by simp)

theorem compileLike_modeInv {c : Call} {s t : AppWindow}
    (h : (if s.currentWindow.isSome then
        (if s.actionEditor_Mode then s.on_actionSplit_Mode_triggered else s).callCurrent c
      else some s) = some t) (hinv : ModeInv s) : ModeInv t := by
  split at h
  · split at h
    · exact callCurrent_modeInv h (Or.inr (Or.inr (splitMode_modeInv s)))
    · exact callCurrent_modeInv h hinv
  · cases h; exact hinv

theorem onSettingsApplied_modeInv {s t : AppWindow} (h : s.onSettingsApplied = some t)
    (hinv : ModeInv s) : ModeInv t := by
  unfold onSettingsApplied at h
  cases h1 : onTabChanged s.currentIndex { s with diagonistics := true } with
  | none => simp [h1] at h
  | some t1 =>
    simp only [h1, Option.map_some', Option.some.injEq] at h
    subst h
    exact modeInv_congr (onTabChanged_modeInv h1 (modeInv_congr hinv rfl rfl rfl rfl))
      rfl rfl rfl rfl

/-- C4: each of the three mode handlers leaves exactly its own action checked
and its own mode stored; `applySettings` establishes the invariant from the
stored mode; every handler whose code sets a mode check or the stored mode
(the three mode handlers, `applySettings`, `onTabChanged`, `onViewModeToggle`,
Compile, Compile and Run, Run, `onSettingsApplied`) preserves the invariant
"exactly one mode action is checked and the stored mode is the checked one";
Restore Settings preserves it for every effect of `resetSettings()` when a tab
is current. -/
theorem view_mode_invariant :
    (∀ s : AppWindow,
      (s.on_actionEditor_Mode_triggered.actionEditor_Mode = true ∧
        s.on_actionEditor_Mode_triggered.actionIO_Mode = false ∧
        s.on_actionEditor_Mode_triggered.actionSplit_Mode = false ∧
        s.on_actionEditor_Mode_triggered.settingManager.viewMode = ViewMode.FULL_EDITOR) ∧
      (s.on_actionIO_Mode_triggered.actionEditor_Mode = false ∧
        s.on_actionIO_Mode_triggered.actionIO_Mode = true ∧
        s.on_actionIO_Mode_triggered.actionSplit_Mode = false ∧
        s.on_actionIO_Mode_triggered.settingManager.viewMode = ViewMode.FULL_IO) ∧
      (s.on_actionSplit_Mode_triggered.actionEditor_Mode = false ∧
        s.on_actionSplit_Mode_triggered.actionIO_Mode = false ∧
        s.on_actionSplit_Mode_triggered.actionSplit_Mode = true ∧
        s.on_actionSplit_Mode_triggered.settingManager.viewMode = ViewMode.SPLIT) ∧
      ModeInv s.applySettings ∧
      s.applySettings.settingManager.viewMode = s.settingManager.viewMode) ∧
    (∀ (h : ModeHandler) (s t : AppWindow), h.trigger s = some t → ModeInv s → ModeInv t) ∧
    (∀ (reset : SettingManager → SettingManager) (s t : AppWindow) (w : MainWindow),
      s.currentWindow = some w → on_actionRestore_Settings_triggered reset s = some t →
      ModeInv s → ModeInv t) := by
  refine ⟨?_, ?_, ?_⟩
  · intro s
    refine ⟨editorMode_modeInv s, ioMode_modeInv s, splitMode_modeInv s, ?_, ?_⟩
    · unfold applySettings
      dsimp only
      split
      · exact Or.inl (editorMode_modeInv _)
      · exact Or.inr (Or.inl (ioMode_modeInv _))
      · exact Or.inr (Or.inr (splitMode_modeInv _))
    · unfold applySettings
      dsimp only
      split
      · next hm => rw [(editorMode_modeInv _).2.2.2]; exact hm.symm
      · next hm => rw [(ioMode_modeInv _).2.2.2]; exact hm.symm
      · next hm => rw [(splitMode_modeInv _).2.2.2]; exact hm.symm
  · intro h s t hrun hinv
    cases h with
    | editorMode => cases hrun; exact Or.inl (editorMode_modeInv s)
    | ioMode => cases hrun; exact Or.inr (Or.inl (ioMode_modeInv s))
    | splitMode => cases hrun; exact Or.inr (Or.inr (splitMode_modeInv s))
    | applySettings =>
      cases hrun
      unfold applySettings
      dsimp only
      split
      · exact Or.inl (editorMode_modeInv _)
      · exact Or.inr (Or.inl (ioMode_modeInv _))
      · exact Or.inr (Or.inr (splitMode_modeInv _))
    | onTabChanged index => exact onTabChanged_modeInv hrun hinv
    | onViewModeToggle =>
      cases hrun
      unfold onViewModeToggle
      split
      · exact Or.inr (Or.inl (ioMode_modeInv s))
      · split
        · exact Or.inl (editorMode_modeInv s)
        · split
          · exact Or.inr (Or.inr (splitMode_modeInv s))
          · exact hinv
    | compile => exact compileLike_modeInv hrun hinv
    | compileRun => exact compileLike_modeInv hrun hinv
    | run => exact compileLike_modeInv hrun hinv
    | onSettingsApplied => exact onSettingsApplied_modeInv hrun hinv
  · intro reset s t w hw hrun hinv
    unfold on_actionRestore_Settings_triggered onSettingsApplied at hrun
    have h0 := (widget_eq_some.mp (currentWindow_eq_some hw)).1
    have hne : s.currentIndex ≠ -1 := by omega
    cases h1 : onTabChanged s.currentIndex
        { s with settingManager := reset s.settingManager, diagonistics := true } with
    | none =>
      rw [show onTabChanged ({ s with settingManager := reset s.settingManager } : AppWindow).currentIndex
        { ({ s with settingManager := reset s.settingManager } : AppWindow) with diagonistics := true } = none
        from h1] at hrun
      simp at hrun
    | some t1 =>
      rw [show onTabChanged ({ s with settingManager := reset s.settingManager } : AppWindow).currentIndex
        { ({ s with settingManager := reset s.settingManager } : AppWindow) with diagonistics := true } = some t1
        from h1] at hrun
      simp only [Option.map_some', Option.some.injEq] at hrun
      subst hrun
      have hf := modeInv_flags hinv
      exact modeInv_congr (onTabChanged_modeInv_of_flags h1 hne hf) rfl rfl rfl rfl

end CPEditor

namespace CPEditor
open AppWindow

/-- Toggling the view mode of a window in split mode keeps the invariant. -/
theorem view_mode_invariant_witness :
    ModeHandler.trigger ModeHandler.onViewModeToggle Sample.emptyWindow =
        some Sample.emptyWindow.onViewModeToggle ∧
      ModeInv Sample.emptyWindow ∧ ModeInv Sample.emptyWindow.onViewModeToggle :=
  ⟨rfl, Or.inr (Or.inr ⟨rfl, rfl, rfl, rfl⟩),
    view_mode_invariant.2.1 ModeHandler.onViewModeToggle Sample.emptyWindow _ rfl
      (Or.inr (Or.inr ⟨rfl, rfl, rfl, rfl⟩))⟩

end CPEditor

namespace CPEditor
open AppWindow

/-- C4, as stated, fails for Restore Settings: whatever view mode
`resetSettings()` stores as the default, there is a window without tabs in
which another mode is checked and stored; Restore Settings then stores the
default mode, and since `onTabChanged(-1)` returns before any mode handler runs,
the action of the old mode stays checked. -/
theorem restore_settings_breaks_view_mode :
    ¬ ∃ v : ViewMode, ∀ s t : AppWindow,
      on_actionRestore_Settings_triggered (fun m => m.setViewMode v) s = some t →
      ModeInv s → ModeInv t := by
  rintro ⟨v, h⟩
  cases v with
  | FULL_EDITOR =>
    have h1 := h Sample.emptyWindow _ rfl (Or.inr (Or.inr ⟨rfl, rfl, rfl, rfl⟩))
    unfold ModeInv at h1
    revert h1
    decide
  | FULL_IO =>
    have h1 := h Sample.emptyWindow _ rfl (Or.inr (Or.inr ⟨rfl, rfl, rfl, rfl⟩))
    unfold ModeInv at h1
    revert h1
    decide
  | SPLIT =>
    have h1 := h Sample.emptyWindow.on_actionEditor_Mode_triggered _ rfl
      (Or.inl ⟨rfl, rfl, rfl, rfl⟩)
    unfold ModeInv at h1
    revert h1
    decide

end CPEditor

/-! ## C5: opening a contest -/

namespace CPEditor
open AppWindow

theorem openTab_total (fs : FileSystem) (path : String) (comp : Bool) (s : AppWindow) :
    ∃ t, openTab fs path comp s = some t := by
  cases comp with
  | false =>
    cases hscr : (if fs.fileExists path then
        firstTab (fun tmp => fs.sameFile path tmp.filePath) s.tabs 0 else none) with
    | some t =>
      rw [openTab_file_existing hscr]
      obtain ⟨t2, e, _⟩ := setCurrentIndex_total t s
      exact ⟨t2, e⟩
    | none =>
      obtain ⟨t, _, _, e, _⟩ := openTab_file_new hscr
      exact ⟨t, e⟩
  | true =>
    cases hscr : firstTab (fun tmp => decide (path = tmp.problemURL)) s.tabs 0 with
    | some t =>
      rw [openTab_companion_existing hscr]
      obtain ⟨t2, e, _⟩ := setCurrentIndex_total t s
      exact ⟨t2, e⟩
    | none =>
      obtain ⟨t, _, _, e, _⟩ := openTab_companion_new fs hscr
      exact ⟨t, e⟩

theorem openContestLoop_eq_foldlM (fs : FileSystem) (path language : String)
    (k i : Nat) (s : AppWindow) :
    openContestLoop fs path language k i s =
      ((List.range' i k).map (contestName language)).foldlM
        (fun st name => openTab fs (dirFilePath path name) false st) s := by
  induction k generalizing i s with
  | zero => rfl
  | succ k ih =>
    unfold openContestLoop
    simp only [List.range'_succ, List.map_cons, List.foldlM_cons]
    cases h : openTab fs (dirFilePath path (contestName language i)) false s with
    | none => rfl
    | some t => exact ih (i + 1) t

theorem foldlM_openTab_total (fs : FileSystem) (path : String) (names : List String)
    (s : AppWindow) :
    ∃ t, names.foldlM (fun st name => openTab fs (dirFilePath path name) false st) s = some t := by
  induction names generalizing s with
  | nil => exact ⟨s, rfl⟩
  | cons a l ih =>
    obtain ⟨t, e⟩ := openTab_total fs (dirFilePath path a) false s
    obtain ⟨t2, e2⟩ := ih t
    exact ⟨t2, by simp only [List.foldlM_cons, e]; exact e2⟩

theorem contestNames_eq : ∀ n, n ≤ 26 → ∀ L ∈ ["C++", "Java", "Python"],
    (List.range' 0 n).map (contestName L) =
      ("ABCDEFGHIJKLMNOPQRSTUVWXYZ".toList.take n).map (fun c => String.singleton c ++
        (if L = "C++" then ".cpp" else if L = "Java" then ".java" else ".py")) := by
  decide

end CPEditor

namespace CPEditor
open AppWindow

theorem string_append_left_cancel {a b c : String} (h : a ++ b = a ++ c) : b = c := by
  have h2 := congrArg String.data h
  simp only [String.data_append] at h2
  exact String.ext (List.append_cancel_left h2)

theorem dirFilePath_injective (path : String) {a b : String}
    (h : dirFilePath path a = dirFilePath path b) : a = b := by
  unfold dirFilePath at h
  dsimp only at h
  generalize (if path = "" then "." else path) = dir at h
  split at h
  · exact string_append_left_cancel h
  · exact string_append_left_cancel h

theorem contestLetters_nodup : ∀ L ∈ ["C++", "Java", "Python"],
    (("ABCDEFGHIJKLMNOPQRSTUVWXYZ".toList).map (fun c => String.singleton c ++
        (if L = "C++" then ".cpp" else if L = "Java" then ".java" else ".py"))).Nodup := by
  decide

/-- C5: for `0 ≤ n ≤ 26` and a language `L` among C++, Java and Python,
`openContest(path, L, n)` returns and is the run of `openTab`, in order, on the
`n` files of the directory `path` named by the first `n` letters `A`..`Z`
followed by `.cpp`, `.java` or `.py`; these `n` paths are pairwise distinct;
for `n ≤ 0` nothing is opened; an empty language stands for the default
language of the settings. -/
theorem openContest_opens_batch (fs : FileSystem) (path L : String) (n : Int) (s : AppWindow) :
    (0 ≤ n → n ≤ 26 → L ∈ ["C++", "Java", "Python"] →
      ∃ t, openContest fs path L n s =
          some (if !fs.dir path && fs.parentDir path then fs.mkdir path else fs, t) ∧
        (("ABCDEFGHIJKLMNOPQRSTUVWXYZ".toList.take n.toNat).map (fun c =>
            dirFilePath path (String.singleton c ++
              (if L = "C++" then ".cpp" else if L = "Java" then ".java" else ".py")))).foldlM
          (fun st file => openTab
            (if !fs.dir path && fs.parentDir path then fs.mkdir path else fs) file false st) s =
          some t ∧
        (("ABCDEFGHIJKLMNOPQRSTUVWXYZ".toList.take n.toNat).map (fun c =>
            dirFilePath path (String.singleton c ++
              (if L = "C++" then ".cpp" else if L = "Java" then ".java" else ".py")))).length =
          n.toNat ∧
        (("ABCDEFGHIJKLMNOPQRSTUVWXYZ".toList.take n.toNat).map (fun c =>
            dirFilePath path (String.singleton c ++
              (if L = "C++" then ".cpp" else if L = "Java" then ".java" else ".py")))).Nodup) ∧
    (n ≤ 0 → openContest fs path L n s =
      some (if !fs.dir path && fs.parentDir path then fs.mkdir path else fs, s)) ∧
    openContest fs path "" n s = openContest fs path s.settingManager.defaultLang n s := by
  refine ⟨?_, ?_, ?_⟩
  · intro h0 h26 hL
    have hn : n.toNat ≤ 26 := by omega
    have hL2 : L ≠ "" := by
      intro e; subst e; simp at hL
    have hnames := contestNames_eq n.toNat hn L hL
    obtain ⟨t, ht⟩ := foldlM_openTab_total
      (if !fs.dir path && fs.parentDir path then fs.mkdir path else fs) path
      ((List.range' 0 n.toNat).map (contestName L)) s
    refine ⟨t, ?_, ?_, ?_, ?_⟩
    · unfold openContest
      dsimp only
      rw [if_neg hL2, openContestLoop_eq_foldlM, ht]
      rfl
    · rw [hnames, List.foldlM_map] at ht
      rw [List.foldlM_map]
      exact ht
    · simp
      omega
    · have hnd := contestLetters_nodup L hL
      have hsub : (("ABCDEFGHIJKLMNOPQRSTUVWXYZ".toList.take n.toNat).map (fun c =>
          String.singleton c ++
            (if L = "C++" then ".cpp" else if L = "Java" then ".java" else ".py"))).Nodup :=
        List.Nodup.sublist ((List.take_sublist _ _).map _) hnd
      have := List.Nodup.map (f := dirFilePath path)
        (fun a b h => dirFilePath_injective path h) hsub
      simpa [List.map_map, Function.comp] using this
  · intro hn
    have : n.toNat = 0 := by omega
    unfold openContest
    dsimp only
    rw [this]
    rfl
  · unfold openContest
    dsimp only
    by_cases hd : s.settingManager.defaultLang = ""
    · simp [hd]
    · simp [hd]

end CPEditor

namespace CPEditor
open AppWindow

set_option maxRecDepth 100000 in
/-- A contest of three Java problems in `dir` opens `A.java`, `B.java` and
`C.java` in this order. -/
theorem openContest_opens_batch_witness :
    (0 : Int) ≤ 3 ∧ (3 : Int) ≤ 26 ∧ "Java" ∈ ["C++", "Java", "Python"] ∧
      ∃ t, openContest Sample.files "dir" "Java" 3 Sample.emptyWindow =
          some (Sample.files, t) ∧
        ["dir/A.java", "dir/B.java", "dir/C.java"].foldlM
          (fun st file => openTab Sample.files file false st) Sample.emptyWindow = some t := by
  refine ⟨by decide, by decide, by decide, ?_⟩
  obtain ⟨t, e, hfold, _, _⟩ := (openContest_opens_batch Sample.files "dir" "Java" 3
    Sample.emptyWindow).1 (by decide) (by decide) (by decide)
  have hl : (("ABCDEFGHIJKLMNOPQRSTUVWXYZ".toList.take (3 : Int).toNat).map (fun c =>
      dirFilePath "dir" (String.singleton c ++
        (if "Java" = "C++" then ".cpp" else if "Java" = "Java" then ".java" else ".py")))) =
      ["dir/A.java", "dir/B.java", "dir/C.java"] := by decide
  rw [hl] at hfold
  exact ⟨t, e, hfold⟩

end CPEditor

/-! ## C6: companion requests -/

namespace CPEditor
open AppWindow

theorem openTab_companion_select (fs : FileSystem) {url : String} {s : AppWindow} {k : Nat}
    {w : MainWindow} (hk : s.tabs[k]? = some w)
    (hscr : firstTab (fun tmp => decide (url = tmp.problemURL)) s.tabs 0 = some k) :
    ∃ t w2, openTab fs url true s = some t ∧ t.currentIndex = k ∧
      t.tabs = s.tabs.set k w2 ∧ Refreshed w w2 ∧ t.currentWindow = some w2 ∧
      ∃ v, t.settingManager = s.settingManager.setViewMode v := by
  have hlt := (List.getElem?_eq_some_iff.mp hk).1
  obtain ⟨t, e, u, c⟩ := setCurrentIndex_valid (s := s) (Int.natCast_nonneg k)
    (by simp [count, hlt])
  have touch := setCurrentIndex_touch e
  obtain ⟨w2, hw2, r, et⟩ := touchAt_getElem?_eq touch (Int.natCast_nonneg k)
    (by simpa using hk)
  refine ⟨t, w2, by rw [openTab_companion_existing hscr, e], c, by simpa using et, r, ?_, u.2⟩
  rw [currentWindow_eq_widget (by rw [c]; exact Int.natCast_nonneg k), c]
  simpa [widget] using hw2

/-- C6: with "open new tab" on, a request whose URL is the problem URL of an
open tab adds no tab: the first such tab becomes current and the data is
applied to it; a request whose URL matches no tab appends exactly one new
untitled tab, which becomes current and to which the data is applied. With the
setting off the data is applied to the current tab, and without a current tab
the request changes nothing. -/
theorem companion_request_reaches_tab (fs : FileSystem) (data : CompanionData)
    (s : AppWindow) :
    (s.settingManager.competitiveCompanionOpenNewTab = true →
      (∀ (k : Nat) (w : MainWindow), s.tabs[k]? = some w → w.problemURL = data.url →
        (∀ (j : Nat) (x : MainWindow), j < k → s.tabs[j]? = some x → x.problemURL ≠ data.url) →
        ∃ (t : AppWindow) (w2 : MainWindow), onIncomingCompanionRequest fs data s = some t ∧
          t.currentIndex = k ∧ Refreshed w w2 ∧
          t.tabs = s.tabs.set k (w2.applyCompanion data)) ∧
      ((∀ w ∈ s.tabs, w.problemURL ≠ data.url) →
        ∃ (t : AppWindow) (w2 : MainWindow), onIncomingCompanionRequest fs data s = some t ∧
          t.currentIndex = s.count ∧ w2.isUntitled = true ∧
          w2.calls.getLast? = some Call.focusOnEditor ∧
          t.tabs = s.tabs ++ [w2.applyCompanion data])) ∧
    (s.settingManager.competitiveCompanionOpenNewTab = false →
      (∀ w, s.currentWindow = some w →
        onIncomingCompanionRequest fs data s =
          some (s.setWidget s.currentIndex (w.applyCompanion data))) ∧
      (s.currentIndex = -1 → onIncomingCompanionRequest fs data s = some s)) := by
  refine ⟨fun hon => ⟨?_, ?_⟩, fun hoff => ⟨?_, ?_⟩⟩
  · intro k w hk hurl hfirst
    have hscr : firstTab (fun tmp => decide (data.url = tmp.problemURL)) s.tabs 0 = some k := by
      rw [firstTab_eq_some]
      refine ⟨k, w, by omega, hk, by simp [hurl], ?_⟩
      intro j x hj hx
      have := hfirst j x hj hx
      simp [Ne.symm this]
    obtain ⟨t, w2, e, c, ht, r, hcur, _⟩ := openTab_companion_select fs hk hscr
    refine ⟨t.setWidget t.currentIndex (w2.applyCompanion data), w2, ?_, by simpa using c, r, ?_⟩
    · unfold onIncomingCompanionRequest
      rw [if_pos hon, e]
      simp only [Option.some_bind, hcur]
    · rw [c, setWidget_tabs (Int.natCast_nonneg k), ht]
      simp
  · intro hnone
    have hscr : firstTab (fun tmp => decide (data.url = tmp.problemURL)) s.tabs 0 = none := by
      rw [firstTab_eq_none]
      intro w hw
      have := hnone w hw
      simp [Ne.symm this]
    obtain ⟨t, w2, index, e, ht, hc, _, hed, hlast, _⟩ := openTab_companion_new fs hscr
    have hcur : t.currentWindow = some w2 := by
      rw [currentWindow_eq_widget (by rw [hc]; exact Int.natCast_nonneg _), hc]
      exact widget_last ht
    refine ⟨t.setWidget t.currentIndex (w2.applyCompanion data), w2, ?_, by simpa using hc,
      ?_, hlast, ?_⟩
    · unfold onIncomingCompanionRequest
      rw [if_pos hon, e]
      simp only [Option.some_bind, hcur]
    · have : w2.filePath = "" := congrArg Editor.filePath hed
      simp [MainWindow.isUntitled, this]
    · rw [hc, count, setWidget_last ht]
  · intro w hw
    unfold onIncomingCompanionRequest
    simp [hoff, hw]
  · intro hc
    unfold onIncomingCompanionRequest
    simp [hoff, currentWindow, hc]

end CPEditor

namespace CPEditor
open AppWindow

/-- A request for `u` selects the second tab, which carries the URL `u`. -/
theorem companion_request_reaches_tab_witness :
    (Sample.windowOf [Sample.untitled 1 "", Sample.untitled 2 "u"]).settingManager.competitiveCompanionOpenNewTab = true ∧
      ∃ (t : AppWindow) (w2 : MainWindow),
        onIncomingCompanionRequest Sample.files ⟨"u", []⟩
          (Sample.windowOf [Sample.untitled 1 "", Sample.untitled 2 "u"]) = some t ∧
        t.currentIndex = 1 ∧ Refreshed (Sample.untitled 2 "u") w2 ∧
        t.tabs = [Sample.untitled 1 "", w2.applyCompanion ⟨"u", []⟩] := by
  refine ⟨rfl, ?_⟩
  obtain ⟨t, w2, e, c, r, ht⟩ := ((companion_request_reaches_tab Sample.files ⟨"u", []⟩
    (Sample.windowOf [Sample.untitled 1 "", Sample.untitled 2 "u"])).1 rfl).1 1
    (Sample.untitled 2 "u") rfl rfl (by
      intro j x hj hx
      have hj0 : j = 0 := by omega
      subst hj0
      have hx2 : Sample.untitled 1 "" = x := by
        simpa [Sample.windowOf, Sample.emptyWindow] using hx
      subst hx2
      decide)
  exact ⟨t, w2, e, c, r, ht⟩

end CPEditor

/-! ## C7: menu actions -/

namespace CPEditor
open AppWindow

theorem currentWindow_none_of_neg {s : AppWindow} (h : s.currentIndex = -1) :
    s.currentWindow = none := by
  simp [currentWindow, h]

theorem callCurrent_some {s : AppWindow} {w : MainWindow} (h : s.currentWindow = some w)
    (c : Call) : s.callCurrent c = some (s.setWidget s.currentIndex (w.record c)) := by
  simp [callCurrent, h]

theorem guarded_call_none {s : AppWindow} (h : s.currentWindow = none) (x : Option AppWindow) :
    (if s.currentWindow.isSome then x else some s) = some s := by
  simp [h]

theorem guarded_call_some {s : AppWindow} {w : MainWindow} (h : s.currentWindow = some w)
    (x : Option AppWindow) : (if s.currentWindow.isSome then x else some s) = x := by
  simp [h]

theorem mode_tabs_of_none {s : AppWindow} (h : s.currentWindow = none) :
    s.on_actionEditor_Mode_triggered.tabs = s.tabs ∧
    s.on_actionIO_Mode_triggered.tabs = s.tabs ∧
    s.on_actionSplit_Mode_triggered.tabs = s.tabs := by
  refine ⟨?_, ?_, ?_⟩
  · unfold on_actionEditor_Mode_triggered
    dsimp only
    split
    · next w hw =>
      have e : s.currentWindow = some w := hw
      rw [h] at e; cases e
    · rfl
  · unfold on_actionIO_Mode_triggered
    dsimp only
    split
    · next w hw =>
      have e : s.currentWindow = some w := hw
      rw [h] at e; cases e
    · rfl
  · unfold on_actionSplit_Mode_triggered
    dsimp only
    split
    · next w hw =>
      have e : s.currentWindow = some w := hw
      rw [h] at e; cases e
    · rfl

theorem simple_call_current {s : AppWindow} {w : MainWindow} (h : s.currentWindow = some w)
    (c : Call) :
    ∃ t w2, s.callCurrent c = some t ∧ t.tabs = s.tabs.set s.currentIndex.toNat w2 ∧
      w2.calls = w.calls ++ [c] ∧ w2.toEditor = w.toEditor ∧ w2.settings = w.settings := by
  have h0 := (widget_eq_some.mp (currentWindow_eq_some h)).1
  exact ⟨_, w.record c, callCurrent_some h c, setWidget_tabs h0 _, rfl, rfl, rfl⟩

theorem compileLike_current {s : AppWindow} {w : MainWindow} (h : s.currentWindow = some w)
    (c : Call) :
    ∃ t w2, (if s.actionEditor_Mode then s.on_actionSplit_Mode_triggered else s).callCurrent c =
        some t ∧ t.tabs = s.tabs.set s.currentIndex.toNat w2 ∧
      w2.calls = w.calls ++ [c] ∧ w2.toEditor = w.toEditor ∧ w2.settings = w.settings := by
  have hw := widget_eq_some.mp (currentWindow_eq_some h)
  have hlt := (List.getElem?_eq_some_iff.mp hw.2).1
  split
  · have ht := splitMode_tabs h
    have hcur : s.on_actionSplit_Mode_triggered.currentWindow =
        some (w.setSplitter (Splitter.restored s.settingManager.splitterSizes)) := by
      rw [currentWindow_eq_widget (by simpa using hw.1)]
      simp [widget, hw.1, ht, List.getElem?_set, hlt]
    refine ⟨_, (w.setSplitter (Splitter.restored s.settingManager.splitterSizes)).record c,
      callCurrent_some hcur c, ?_, rfl, rfl, rfl⟩
    rw [setWidget_tabs (by simpa using hw.1), ht]
    simp
  · exact simple_call_current h c

/-- C7: when no tab is open (current index -1), each of Save, Save As, Close
Current, Compile, Compile and Run, Run, Format, Run Detached, Kill Processes,
Use Snippets and the three view-mode actions returns without a null
dereference and leaves every editor window as it was. When a tab is current,
each of Compile, Compile and Run, Run, Format, Run Detached and Kill Processes
returns, every other tab is left as it was, and the current tab has received
exactly one operation, the one that belongs to the action (its getters and
settings data unchanged; Compile, Compile and Run and Run restore its splitter
first when the editor mode is checked). -/
theorem menu_actions_delegate :
    (∀ (a : MenuAction) (s : AppWindow), s.currentIndex = -1 →
      ∃ t, a.trigger s = some t ∧ t.tabs = s.tabs) ∧
    (∀ (a : MenuAction) (c : Call) (s : AppWindow) (w : MainWindow),
      a.operation = some c → s.currentWindow = some w →
      ∃ (t : AppWindow) (w2 : MainWindow), a.trigger s = some t ∧
        t.tabs = s.tabs.set s.currentIndex.toNat w2 ∧
        w2.calls = w.calls ++ [c] ∧ w2.toEditor = w.toEditor ∧ w2.settings = w.settings) := by
  refine ⟨?_, ?_⟩
  · intro a s hc
    have hn := currentWindow_none_of_neg hc
    cases a with
    | save => exact ⟨s, guarded_call_none hn _, rfl⟩
    | saveAs => exact ⟨s, guarded_call_none hn _, rfl⟩
    | closeCurrent =>
      refine ⟨s, ?_, rfl⟩
      show s.on_actionClose_Current_triggered = some s
      unfold on_actionClose_Current_triggered
      simp [hc]
    | compile => exact ⟨s, guarded_call_none hn _, rfl⟩
    | compileRun => exact ⟨s, guarded_call_none hn _, rfl⟩
    | run => exact ⟨s, guarded_call_none hn _, rfl⟩
    | format => exact ⟨s, guarded_call_none hn _, rfl⟩
    | runDetached => exact ⟨s, guarded_call_none hn _, rfl⟩
    | killProcesses => exact ⟨s, guarded_call_none hn _, rfl⟩
    | useSnippets choice =>
      refine ⟨s, ?_, rfl⟩
      show s.on_actionUse_Snippets_triggered choice = some s
      unfold on_actionUse_Snippets_triggered
      simp [hn]
    | editorMode => exact ⟨_, rfl, (mode_tabs_of_none hn).1⟩
    | ioMode => exact ⟨_, rfl, (mode_tabs_of_none hn).2.1⟩
    | splitMode => exact ⟨_, rfl, (mode_tabs_of_none hn).2.2⟩
  · intro a c s w hop hw
    cases a with
    | compile =>
      cases hop
      obtain ⟨t, w2, e, r⟩ := compileLike_current hw Call.compileOnly
      exact ⟨t, w2, (guarded_call_some hw _).trans e, r⟩
    | compileRun =>
      cases hop
      obtain ⟨t, w2, e, r⟩ := compileLike_current hw Call.compileAndRun
      exact ⟨t, w2, (guarded_call_some hw _).trans e, r⟩
    | run =>
      cases hop
      obtain ⟨t, w2, e, r⟩ := compileLike_current hw Call.runOnly
      exact ⟨t, w2, (guarded_call_some hw _).trans e, r⟩
    | format =>
      cases hop
      obtain ⟨t, w2, e, r⟩ := simple_call_current hw Call.formatSource
      exact ⟨t, w2, (guarded_call_some hw _).trans e, r⟩
    | runDetached =>
      cases hop
      obtain ⟨t, w2, e, r⟩ := simple_call_current hw Call.detachedExecution
      exact ⟨t, w2, (guarded_call_some hw _).trans e, r⟩
    | killProcesses =>
      cases hop
      obtain ⟨t, w2, e, r⟩ := simple_call_current hw Call.killProcesses
      exact ⟨t, w2, (guarded_call_some hw _).trans e, r⟩
    | save => cases hop
    | saveAs => cases hop
    | closeCurrent => cases hop
    | useSnippets choice => cases hop
    | editorMode => cases hop
    | ioMode => cases hop
    | splitMode => cases hop

/-- Compile with two tabs open reaches the current tab only. -/
theorem menu_actions_delegate_witness :
    MenuAction.compile.operation = some Call.compileOnly ∧
      (Sample.windowOf [Sample.untitled 1 "", Sample.untitled 2 ""]).currentWindow =
        some (Sample.untitled 1 "") ∧
      ∃ (t : AppWindow) (w2 : MainWindow),
        MenuAction.compile.trigger
          (Sample.windowOf [Sample.untitled 1 "", Sample.untitled 2 ""]) = some t ∧
        t.tabs = [w2, Sample.untitled 2 ""] ∧ w2.calls = [Call.compileOnly] :=
  ⟨rfl, rfl,
    let ⟨t, w2, e, ht, hc, _⟩ := menu_actions_delegate.2 MenuAction.compile Call.compileOnly
      (Sample.windowOf [Sample.untitled 1 "", Sample.untitled 2 ""]) (Sample.untitled 1 "")
      rfl rfl
    ⟨t, w2, e, ht, hc⟩⟩

end CPEditor

/-! ## C8: quit with hot exit -/

namespace CPEditor
open AppWindow

theorem getEditorStatus_setEditorStatus (m : SettingManager) (i key : Int) (st : EditorStatus) :
    (m.setEditorStatus i st).getEditorStatus key =
      if key = i then some st else m.getEditorStatus key := by
  unfold SettingManager.setEditorStatus SettingManager.getEditorStatus
  dsimp only
  rw [List.find?_append]
  by_cases h : key = i
  · subst h
    have hnone : List.find? (fun kv : Int × EditorStatus => decide (kv.1 = key))
        (List.filter (fun kv => decide (kv.1 ≠ key)) m.editorStatus) = none := by
      rw [List.find?_eq_none]
      intro x hx
      have := (List.mem_filter.mp hx).2
      simpa using this
    simp [hnone]
  · rw [if_neg h]
    have hlast : List.find? (fun kv : Int × EditorStatus => decide (kv.1 = key)) [(i, st)] = none := by
      simp [List.find?, Ne.symm h]
    rw [hlast, Option.or_none]
    congr 1
    induction m.editorStatus with
    | nil => rfl
    | cons a l ih =>
      by_cases ha : a.1 = i
      · have hk : ¬ a.1 = key := fun e => h (e.symm.trans ha)
        have hf : decide (a.1 ≠ i) = false := by simp [ha]
        have hd : decide (a.1 = key) = false := by simp [hk]
        simp only [List.filter_cons, hf, List.find?_cons, hd, Bool.false_eq_true, if_false, ih]
      · have hf : decide (a.1 ≠ i) = true := by simp [ha]
        by_cases hk : a.1 = key
        · have hd : decide (a.1 = key) = true := by simp [hk]
          simp only [List.filter_cons, hf, List.find?_cons, hd, if_true]
        · have hd : decide (a.1 = key) = false := by simp [hk]
          simp only [List.filter_cons, hf, List.find?_cons, hd, if_true, ih]

theorem saveStatusLoop_spec (k i : Nat) (s : AppWindow) (h : i + k = s.tabs.length) :
    ∃ t, saveStatusLoop k i s = some t ∧ t.tabs = s.tabs ∧ t.currentIndex = s.currentIndex ∧
      t.settingManager.numberOfTabs = s.settingManager.numberOfTabs ∧
      t.settingManager.currentIndex = s.settingManager.currentIndex ∧
      ∀ key : Int, t.settingManager.getEditorStatus key =
        if (i : Int) ≤ key ∧ key < (i : Int) + k then (s.tabs[key.toNat]?).map MainWindow.toStatus
        else s.settingManager.getEditorStatus key := by
  induction k generalizing i s with
  | zero =>
    refine ⟨s, rfl, rfl, rfl, rfl, rfl, ?_⟩
    intro key
    rw [if_neg (by omega)]
  | succ k ih =>
    have hlt : i < s.tabs.length := by omega
    have hw : s.windowIndex (i : Int) = some s.tabs[i] := by
      rw [windowIndex_eq_widget (Int.natCast_nonneg i)]
      simp [widget, List.getElem?_eq_getElem hlt]
    obtain ⟨t, e, ht, hc, hn, hci, hget⟩ := ih (i + 1)
      { s with settingManager := s.settingManager.setEditorStatus i s.tabs[i].toStatus }
      (by simpa using (by omega : i + 1 + k = s.tabs.length))
    refine ⟨t, ?_, ht, hc, hn, hci, ?_⟩
    · unfold saveStatusLoop
      rw [hw]
      exact e
    · intro key
      rw [hget key]
      dsimp only
      rw [getEditorStatus_setEditorStatus]
      by_cases hk : key = (i : Int)
      · subst hk
        rw [if_neg (by push_cast; omega), if_pos rfl, if_pos (by push_cast; omega)]
        simp [List.getElem?_eq_getElem hlt]
      · rw [if_neg hk]
        by_cases hr : ((i : Int) ≤ key ∧ key < (i : Int) + ((k + 1 : Nat) : Int))
        · rw [if_pos hr, if_pos (by push_cast at hr ⊢; omega)]
        · rw [if_neg hr, if_neg (by push_cast at hr ⊢; omega)]

end CPEditor

namespace CPEditor
open AppWindow

/-- C8: with hot exit enabled `quit()` returns true, closes no tab and keeps
the current index; the editor statuses stored before are gone; when exactly
one tab is open and it is untitled with unchanged text, `numberOfTabs = 0` and
`currentIndex = -1` are stored and no editor status; otherwise `numberOfTabs`
is the tab count, `currentIndex` the current index, and the status stored
under key `i` is the status of tab `i` for every `i` below the tab count, and
nothing is stored under any other key. -/
theorem quit_hot_exit_persists (s : AppWindow) (hhot : s.settingManager.useHotExit = true) :
    ∃ t, quit s = some (true, t) ∧ t.tabs = s.tabs ∧ t.currentIndex = s.currentIndex ∧
      ((∃ w, s.tabs = [w] ∧ w.isUntitled = true ∧ w.textChanged = false) →
        t.settingManager.numberOfTabs = 0 ∧ t.settingManager.currentIndex = -1 ∧
        t.settingManager.editorStatus = []) ∧
      ((¬ ∃ w, s.tabs = [w] ∧ w.isUntitled = true ∧ w.textChanged = false) →
        t.settingManager.numberOfTabs = s.count ∧
        t.settingManager.currentIndex = s.currentIndex ∧
        ∀ key : Int, t.settingManager.getEditorStatus key =
          if 0 ≤ key ∧ key < s.count then (s.tabs[key.toNat]?).map MainWindow.toStatus
          else none) := by
  have hgeneral : ∃ t, saveStatusLoop s.tabs.length 0
        { s with settingManager := { s.settingManager.clearEditorStatus with
            numberOfTabs := s.count, currentIndex := s.currentIndex } } = some t ∧
      t.tabs = s.tabs ∧ t.currentIndex = s.currentIndex ∧
      t.settingManager.numberOfTabs = s.count ∧
      t.settingManager.currentIndex = s.currentIndex ∧
      ∀ key : Int, t.settingManager.getEditorStatus key =
        if 0 ≤ key ∧ key < s.count then (s.tabs[key.toNat]?).map MainWindow.toStatus
        else none := by
    obtain ⟨t, e, ht, hc, hn, hci, hget⟩ := saveStatusLoop_spec s.tabs.length 0
      { s with settingManager := { s.settingManager.clearEditorStatus with
          numberOfTabs := s.count, currentIndex := s.currentIndex } } (by simp)
    refine ⟨t, e, ht, hc, hn, hci, ?_⟩
    intro key
    rw [hget key]
    simp only [count, Nat.cast_zero, zero_add]
    split
    · rfl
    · rfl
  by_cases hsingle : ∃ w, s.tabs = [w] ∧ w.isUntitled = true ∧ w.textChanged = false
  · obtain ⟨w, hw, hu, htc⟩ := hsingle
    refine ⟨{ s with settingManager := { s.settingManager.clearEditorStatus with
        numberOfTabs := 0, currentIndex := -1 } }, ?_, rfl, rfl, fun _ => ⟨rfl, rfl, rfl⟩,
      fun hneg => absurd ⟨w, hw, hu, htc⟩ hneg⟩
    unfold quit
    simp [SettingManager.clearEditorStatus, hhot, count, hw, windowIndex, widget, hu, htc]
  · obtain ⟨t, e, ht, hc, hn, hci, hget⟩ := hgeneral
    refine ⟨t, ?_, ht, hc, fun hpos => absurd hpos hsingle, fun _ => ⟨hn, hci, hget⟩⟩
    have hflag : (if ({ s with settingManager := s.settingManager.clearEditorStatus } :
          AppWindow).count = 1 then
        (({ s with settingManager := s.settingManager.clearEditorStatus } :
          AppWindow).windowIndex 0).map (fun w => w.isUntitled && !w.textChanged)
        else some false) = some false := by
      split
      · next hone =>
        have hlen : s.tabs.length = 1 := by simpa [count] using hone
        obtain ⟨w, hw⟩ : ∃ w, s.tabs = [w] := List.length_eq_one.mp hlen
        have hnot : (w.isUntitled && !w.textChanged) = false := by
          by_contra hne
          apply hsingle
          refine ⟨w, hw, ?_, ?_⟩
          · cases hu : w.isUntitled <;> simp_all
          · cases hu : w.textChanged <;> simp_all
        simp [windowIndex, widget, hw, hnot]
      · rfl
    unfold quit
    dsimp only
    rw [if_pos (by simpa [SettingManager.clearEditorStatus] using hhot), hflag]
    simp only [Option.some_bind, Bool.false_eq_true, if_false]
    exact congrArg (Option.map fun s1 => (true, s1)) e

end CPEditor

namespace CPEditor
open AppWindow

/-- Quitting with two untitled tabs stores two tabs and the status of each. -/
theorem quit_hot_exit_persists_witness :
    (Sample.windowOf [Sample.untitled 1 "", Sample.untitled 2 ""]).settingManager.useHotExit =
        true ∧
      ∃ t, quit (Sample.windowOf [Sample.untitled 1 "", Sample.untitled 2 ""]) = some (true, t) ∧
        t.tabs = [Sample.untitled 1 "", Sample.untitled 2 ""] ∧
        t.settingManager.numberOfTabs = 2 ∧
        t.settingManager.getEditorStatus 1 = some (Sample.untitled 2 "").toStatus := by
  refine ⟨rfl, ?_⟩
  obtain ⟨t, e, ht, _, _, hgen⟩ := quit_hot_exit_persists
    (Sample.windowOf [Sample.untitled 1 "", Sample.untitled 2 ""]) rfl
  obtain ⟨hn, _, hget⟩ := hgen (by
    rintro ⟨w, hw, _⟩
    simp [Sample.windowOf] at hw)
  refine ⟨t, e, ht, hn, ?_⟩
  rw [hget 1]
  rfl

end CPEditor

/-! ## C9: a file is not opened twice -/

namespace CPEditor
open AppWindow

/-- C9: a non-companion `openTab(path)` for an existing file that some open tab
already shows selects the first such tab: no tab is added or removed, every
other tab is left as it was, in its place. In every other non-companion case,
also for a path that does not exist on disk while a tab with that path is open,
the call appends exactly one tab for `path` behind the unchanged existing tabs
and makes it current. -/
theorem openTab_no_duplicate_file (fs : FileSystem) (path : String) (s : AppWindow) :
    (fs.fileExists path = true →
      ∀ (k : Nat) (w : MainWindow), s.tabs[k]? = some w → fs.sameFile path w.filePath = true →
        (∀ (j : Nat) (x : MainWindow), j < k → s.tabs[j]? = some x →
          fs.sameFile path x.filePath = false) →
        ∃ (t : AppWindow) (w2 : MainWindow), openTab fs path false s = some t ∧
          t.currentIndex = k ∧ t.tabs = s.tabs.set k w2 ∧ Refreshed w w2) ∧
    ((fs.fileExists path = false ∨ ∀ w ∈ s.tabs, fs.sameFile path w.filePath = false) →
      ∃ (t : AppWindow) (w2 : MainWindow), openTab fs path false s = some t ∧
        t.tabs = s.tabs ++ [w2] ∧ t.currentIndex = s.count ∧ w2.filePath = path) := by
  refine ⟨?_, ?_⟩
  · intro hex k w hk hsame hfirst
    have hscr : (if fs.fileExists path then
        firstTab (fun tmp => fs.sameFile path tmp.filePath) s.tabs 0 else none) = some k := by
      rw [if_pos hex, firstTab_eq_some]
      exact ⟨k, w, by omega, hk, hsame, hfirst⟩
    have hlt := (List.getElem?_eq_some_iff.mp hk).1
    obtain ⟨t, e, _, c⟩ := setCurrentIndex_valid (s := s) (Int.natCast_nonneg k)
      (by simp [count, hlt])
    obtain ⟨w2, _, r, et⟩ := touchAt_getElem?_eq (setCurrentIndex_touch e)
      (Int.natCast_nonneg k) (by simpa using hk)
    exact ⟨t, w2, by rw [openTab_file_existing hscr, e], c, by simpa using et, r⟩
  · intro hcase
    have hscr : (if fs.fileExists path then
        firstTab (fun tmp => fs.sameFile path tmp.filePath) s.tabs 0 else none) = none := by
      rcases hcase with h | h
      · simp [h]
      · split
        · exact firstTab_eq_none.mpr h
        · rfl
    obtain ⟨t, w2, index, e, ht, hc, _, hed, _, _⟩ := openTab_file_new hscr
    exact ⟨t, w2, e, ht, hc, congrArg Editor.filePath hed⟩

set_option maxRecDepth 100000 in
/-- A path that does not exist on disk is opened a second time in a new tab. -/
theorem openTab_no_duplicate_file_witness :
    (Sample.files.fileExists "dir/A.cpp" = false ∨
        ∀ w ∈ (Sample.windowOf [MainWindow.new "dir/A.cpp" { revision := 0 } 0]).tabs,
          Sample.files.sameFile "dir/A.cpp" w.filePath = false) ∧
      ∃ (t : AppWindow) (w2 : MainWindow),
        openTab Sample.files "dir/A.cpp" false
          (Sample.windowOf [MainWindow.new "dir/A.cpp" { revision := 0 } 0]) = some t ∧
        t.tabs = [MainWindow.new "dir/A.cpp" { revision := 0 } 0, w2] ∧
        t.currentIndex = 1 ∧ w2.filePath = "dir/A.cpp" :=
  ⟨Or.inl (by decide),
    (openTab_no_duplicate_file Sample.files "dir/A.cpp"
      (Sample.windowOf [MainWindow.new "dir/A.cpp" { revision := 0 } 0])).2
      (Or.inl (by decide))⟩

end CPEditor

/-! ## C10: Close All -/

namespace CPEditor
open AppWindow

theorem tabsRefreshed_dropWhile {l1 l2 : List MainWindow} (h : List.Forall₂ Refreshed l1 l2) :
    List.Forall₂ Refreshed (l1.dropWhile (fun w => w.closeAnswer))
      (l2.dropWhile (fun w => w.closeAnswer)) := by
  induction h with
  | nil => exact List.Forall₂.nil
  | @cons a b l1 l2 hab hrest ih =>
    have hc : b.closeAnswer = a.closeAnswer := congrArg Editor.closeAnswer hab.1
    cases ha : a.closeAnswer with
    | true =>
      have hb : b.closeAnswer = true := by rw [hc, ha]
      simpa [List.dropWhile_cons, ha, hb] using ih
    | false =>
      have hb : b.closeAnswer = false := by rw [hc, ha]
      simpa [List.dropWhile_cons, ha, hb] using List.Forall₂.cons hab hrest

theorem closeAllLoop_mono {fuel : Nat} {i : Int} {s r : AppWindow}
    (h : closeAllLoop fuel i s = some r) : closeAllLoop (fuel + 1) i s = some r := by
  induction fuel generalizing i s with
  | zero => simp [closeAllLoop] at h
  | succ fuel ih =>
    unfold closeAllLoop at h ⊢
    split
    · next hlt =>
      rw [if_pos hlt] at h
      cases hc : closeTab i s with
      | none => simp [hc] at h
      | some p =>
        obtain ⟨b, s1⟩ := p
        cases b with
        | true =>
          simp only [hc] at h ⊢
          exact ih h
        | false =>
          simp only [hc] at h ⊢
          exact h
    · next hge =>
      rw [if_neg hge] at h
      exact h

theorem closeAllLoop_spec (fuel : Nat) (s : AppWindow) (h : s.tabs.length < fuel) :
    ∃ t, closeAllLoop fuel 0 s = some t ∧
      (s.tabs.dropWhile (fun w => w.closeAnswer) = [] → t.tabs = []) ∧
      (∀ w rest, s.tabs.dropWhile (fun w => w.closeAnswer) = w :: rest →
        ∃ w1 rest2, t.tabs = w1.record Call.closeConfirm :: rest2 ∧ Refreshed w w1 ∧
          List.Forall₂ Refreshed rest rest2) := by
  induction fuel generalizing s with
  | zero => omega
  | succ fuel ih =>
    unfold closeAllLoop
    cases hl : s.tabs with
    | nil =>
      refine ⟨s, by simp [count, hl], fun _ => hl, ?_⟩
      intro w rest hd
      simp at hd
    | cons a l =>
      have hlt : (0 : Int) < s.count := by simp [count, hl]
      have hw : s.windowIndex 0 = some a := by
        simp [windowIndex, widget, hl]
      rw [if_pos hlt]
      cases ha : a.closeAnswer with
      | true =>
        obtain ⟨s2, e, hr, _⟩ := closeTab_accept hw ha
        have hr2 : List.Forall₂ Refreshed l s2.tabs := by
          simpa [hl] using hr
        have hlen : s2.tabs.length < fuel := by
          rw [← hr2.length_eq]
          rw [hl] at h
          simp at h
          omega
        obtain ⟨t, et, h1, h2⟩ := ih s2 hlen
        have hd := tabsRefreshed_dropWhile hr2
        refine ⟨t, by simp only [e]; exact et, ?_, ?_⟩
        · intro hnil
          simp only [List.dropWhile_cons, ha, if_true] at hnil
          rw [hnil] at hd
          exact h1 (List.forall₂_nil_left_iff.mp hd)
        · intro w rest hcons
          simp only [List.dropWhile_cons, ha, if_true] at hcons
          rw [hcons] at hd
          obtain ⟨w', rest', hww, hrr, hdrop⟩ := List.forall₂_cons_left_iff.mp hd
          obtain ⟨w1, rest2, et2, r1, r2⟩ := h2 w' rest' hdrop
          exact ⟨w1, rest2, et2, refreshed_trans hww r1, tabsRefreshed_trans hrr r2⟩
      | false =>
        rw [closeTab_refuse hw ha]
        refine ⟨_, rfl, ?_, ?_⟩
        · intro hnil
          simp [List.dropWhile_cons, ha] at hnil
        · intro w rest hcons
          simp only [List.dropWhile_cons, ha, Bool.false_eq_true, if_false,
            List.cons.injEq] at hcons
          obtain ⟨rfl, rfl⟩ := hcons
          refine ⟨a, l, ?_, refreshed_refl a, tabsRefreshed_refl l⟩
          simp [setWidget, hl]

end CPEditor

namespace CPEditor
open AppWindow

theorem closeAllLoop_fuel {fuel1 fuel2 : Nat} {s r : AppWindow}
    (h : closeAllLoop fuel1 0 s = some r) (hle : fuel1 ≤ fuel2) :
    closeAllLoop fuel2 0 s = some r := by
  induction hle with
  | refl => exact h
  | step _ ih => exact closeAllLoop_mono ih

/-- C10: Close All returns (for every fuel above the tab count, with the same
result) and closes exactly the longest initial run of tabs whose
`closeConfirm()` accepts: when every tab accepts no tab is left; otherwise the
tabs left are the first refusing tab, which was asked, and the tabs behind it
in their order, which were not asked (they received at most `setSettingsData`).
All tabs are closed iff every tab accepts, and `quit()` with hot exit disabled
returns true iff every open tab accepts. -/
theorem closeAll_closes_accepting_run (s : AppWindow) :
    ∃ t, on_actionClose_All_triggered s = some t ∧
      (∀ fuel, s.tabs.length < fuel → closeAllLoop fuel 0 s = some t) ∧
      (s.tabs.dropWhile (fun w => w.closeAnswer) = [] → t.tabs = []) ∧
      (∀ w rest, s.tabs.dropWhile (fun w => w.closeAnswer) = w :: rest →
        ∃ w1 rest2, t.tabs = w1.record Call.closeConfirm :: rest2 ∧ Refreshed w w1 ∧
          List.Forall₂ Refreshed rest rest2) ∧
      (t.tabs = [] ↔ ∀ w ∈ s.tabs, w.closeAnswer = true) ∧
      (s.settingManager.useHotExit = false →
        ∃ b t2, quit s = some (b, t2) ∧ (b = true ↔ ∀ w ∈ s.tabs, w.closeAnswer = true)) := by
  have hiff : ∀ (l r : List MainWindow),
      (l.dropWhile (fun w => w.closeAnswer) = [] → r = []) →
      (∀ w rest, l.dropWhile (fun w => w.closeAnswer) = w :: rest →
        ∃ w1 rest2, r = w1.record Call.closeConfirm :: rest2 ∧ Refreshed w w1 ∧
          List.Forall₂ Refreshed rest rest2) →
      (r = [] ↔ ∀ w ∈ l, w.closeAnswer = true) := by
    intro l r h1 h2
    constructor
    · intro hr
      cases hd : l.dropWhile (fun w => w.closeAnswer) with
      | nil => simpa using hd
      | cons w rest =>
        obtain ⟨w1, rest2, e, _⟩ := h2 w rest hd
        rw [hr] at e
        cases e
    · intro hall
      exact h1 (by simpa using hall)
  obtain ⟨t, e, h1, h2⟩ := closeAllLoop_spec (s.tabs.length + 1) s (Nat.lt_succ_self _)
  refine ⟨t, e, ?_, h1, h2, hiff _ _ h1 h2, ?_⟩
  · intro fuel hfuel
    exact closeAllLoop_fuel e (by omega)
  · intro hhot
    obtain ⟨t2, e2, g1, g2⟩ := closeAllLoop_spec (s.tabs.length + 1)
      { s with settingManager := s.settingManager.clearEditorStatus } (Nat.lt_succ_self _)
    refine ⟨decide (t2.count = 0), t2, ?_, ?_⟩
    · unfold quit
      dsimp only
      rw [if_neg (by simpa [SettingManager.clearEditorStatus] using hhot)]
      unfold on_actionClose_All_triggered
      exact congrArg (Option.map fun s1 => (decide (s1.count = 0), s1)) e2
    · have := hiff _ _ g1 g2
      rw [← this]
      simp [count]

/-- With an accepting, a refusing and an accepting tab, Close All closes the
first tab and keeps the other two. -/
theorem closeAll_closes_accepting_run_witness :
    (Sample.windowOf [Sample.untitled 1 "", Sample.refusing 2,
          Sample.untitled 3 ""]).tabs.dropWhile (fun w => w.closeAnswer) =
        [Sample.refusing 2, Sample.untitled 3 ""] ∧
      ∃ t w1 rest2, on_actionClose_All_triggered
          (Sample.windowOf [Sample.untitled 1 "", Sample.refusing 2,
            Sample.untitled 3 ""]) = some t ∧
        t.tabs = w1.record Call.closeConfirm :: rest2 ∧
        Refreshed (Sample.refusing 2) w1 ∧
        List.Forall₂ Refreshed [Sample.untitled 3 ""] rest2 := by
  refine ⟨by decide, ?_⟩
  obtain ⟨t, e, _, _, h2, _⟩ := closeAll_closes_accepting_run
    (Sample.windowOf [Sample.untitled 1 "", Sample.refusing 2, Sample.untitled 3 ""])
  obtain ⟨w1, rest2, ht, r1, r2⟩ := h2 (Sample.refusing 2) [Sample.untitled 3 ""] (by decide)
  exact ⟨t, w1, rest2, e, ht, r1, r2⟩

end CPEditor

/-! ## Remarks on the amended statements -/

namespace CPEditor
open AppWindow

theorem reachable_runOps {ops : List Op} {s t : AppWindow}
    (hs : Reachable (fun _ _ => True) s) (h : runOps ops s = some t) :
    Reachable (fun _ _ => True) t := by
  induction ops generalizing s with
  | nil => cases h; exact hs
  | cons op ops ih =>
    unfold runOps at h
    cases hop : op.apply s with
    | none => simp [hop] at h
    | some s1 =>
      rw [hop] at h
      refine ih ?_ h
      cases op with
      | openTab fs path => exact Reachable.openTab fs path hs hop
      | companion fs data => exact Reachable.companion fs data hs trivial hop
      | closeTab index =>
        cases hc : closeTab index s with
        | none => simp [Op.apply, hc] at hop
        | some p =>
          have hp : p.2 = s1 := by simpa [Op.apply, hc] using hop
          subst hp
          exact Reachable.closeTab index p.1 hs hc

set_option maxRecDepth 100000 in
/-- Remark on C2: the restriction on companion requests is needed. With "open
new tab" off, a request with an empty URL that reaches an untitled tab which
carries a URL clears that URL, and the tab then shares its index with an
untitled tab opened in the meantime. -/
theorem empty_url_request_clears_url :
    ¬ ∀ s, Reachable (fun _ _ => True) s → PlainUntitledDistinct s := by
  intro h
  obtain ⟨t, e, ht⟩ : ∃ t, runOps
      [Op.openTab Sample.files "f.cpp", Op.openTab Sample.files "",
        Op.companion Sample.files ⟨"u", []⟩, Op.openTab Sample.files "",
        Op.openTab Sample.files "f.cpp", Op.closeTab 0, Op.companion Sample.files ⟨"", []⟩]
      { Sample.emptyWindow with settingManager :=
        { Sample.settings with competitiveCompanionOpenNewTab := false } } = some t ∧
      t.tabs.map (fun w => (w.isUntitled, w.untitledIndex, w.problemURL)) =
        [(true, 1, ""), (true, 1, "")] :=
    ⟨_, rfl, by decide⟩
  have hd := h t (reachable_runOps (Reachable.empty _ rfl rfl) e)
  obtain ⟨a, b, e2⟩ : ∃ a b, t.tabs = [a, b] := by
    match hs : t.tabs with
    | [a, b] => exact ⟨a, b, rfl⟩
    | [] => simp [hs] at ht
    | [_] => simp [hs] at ht
    | _ :: _ :: _ :: _ => simp [hs] at ht
  rw [e2] at ht
  simp at ht
  obtain ⟨⟨ha1, ha2, ha3⟩, hb1, hb2, hb3⟩ := ht
  exact hd 0 1 a b (by decide) (by simp [e2]) (by simp [e2]) ha1 hb1 ha3 hb3
    (by rw [ha2, hb2])

/-- Remark on C4: without a current tab Restore Settings leaves the mode checks
as they are and stores what `resetSettings()` produced, so whether the
invariant survives there depends on `resetSettings()`, which is not in src. -/
theorem restore_settings_without_tab (reset : SettingManager → SettingManager)
    (s : AppWindow) (h : s.currentIndex = -1) :
    ∃ t, on_actionRestore_Settings_triggered reset s = some t ∧
      t.settingManager = reset s.settingManager ∧
      t.actionEditor_Mode = s.actionEditor_Mode ∧ t.actionIO_Mode = s.actionIO_Mode ∧
      t.actionSplit_Mode = s.actionSplit_Mode ∧ t.tabs = s.tabs := by
  unfold on_actionRestore_Settings_triggered onSettingsApplied
  dsimp only
  rw [h, onTabChanged_neg_one]
  exact ⟨_, rfl, rfl, rfl, rfl, rfl, rfl⟩

end CPEditor

/-! ## C11: closing one tab -/

namespace CPEditor
open AppWindow

theorem map_toEditor_set_same {l : List MainWindow} {i : Nat} {w w2 : MainWindow}
    (h : l[i]? = some w) (he : w2.toEditor = w.toEditor) :
    (l.set i w2).map MainWindow.toEditor = l.map MainWindow.toEditor := by
  rw [List.map_set, he]
  apply List.ext_getElem?
  intro j
  rw [List.getElem?_set]
  by_cases hij : i = j
  · subst hij
    obtain ⟨hlt, e⟩ := List.getElem?_eq_some_iff.mp h
    simp [hlt, ← e]
  · simp [hij]

/-- C11: for every valid tab index `i`, `closeTab(i)` returns, and returns true
iff the `closeConfirm()` of the tab accepts. When it returns false the tab
list has the same members in the same order (the tab at `i` was asked, nothing
else changed). When it returns true exactly the tab at index `i` is removed:
the tabs left are the other tabs in their order (refreshed at most), and the
count drops by one. -/
theorem closeTab_all_or_nothing (s : AppWindow) (i : Nat) (w : MainWindow)
    (hw : s.tabs[i]? = some w) :
    ∃ (b : Bool) (t : AppWindow), closeTab i s = some (b, t) ∧
      (b = true ↔ w.closeAnswer = true) ∧
      (b = false → t.tabs = s.tabs.set i (w.record Call.closeConfirm) ∧
        t.tabs.length = s.tabs.length ∧
        t.tabs.map MainWindow.toEditor = s.tabs.map MainWindow.toEditor) ∧
      (b = true → List.Forall₂ Refreshed (s.tabs.eraseIdx i) t.tabs ∧
        t.tabs.length + 1 = s.tabs.length) := by
  have hlt := (List.getElem?_eq_some_iff.mp hw).1
  have hwi : s.windowIndex (i : Int) = some w := by
    rw [windowIndex_eq_widget (Int.natCast_nonneg i)]
    simpa [widget] using hw
  cases ha : w.closeAnswer with
  | true =>
    obtain ⟨t, e, hr, _⟩ := closeTab_accept hwi ha
    refine ⟨true, t, e, by simp, by simp, fun _ => ⟨by simpa using hr, ?_⟩⟩
    have := hr.length_eq
    rw [List.length_eraseIdx] at this
    simp at this
    split at this <;> omega
  | false =>
    refine ⟨false, _, closeTab_refuse hwi ha, by simp, fun _ => ?_, by simp⟩
    have ht : (s.setWidget (i : Int) (w.record Call.closeConfirm)).tabs =
        s.tabs.set i (w.record Call.closeConfirm) := by
      simpa using setWidget_tabs (s := s) (Int.natCast_nonneg i) (w.record Call.closeConfirm)
    refine ⟨ht, by rw [ht]; simp, ?_⟩
    rw [ht]
    exact map_toEditor_set_same hw rfl

end CPEditor

namespace CPEditor
open AppWindow

/-- Closing the refusing second tab of three returns false and keeps the three
tabs. -/
theorem closeTab_all_or_nothing_witness :
    (Sample.windowOf [Sample.untitled 1 "", Sample.refusing 2,
        Sample.untitled 3 ""]).tabs[1]? = some (Sample.refusing 2) ∧
      ∃ (b : Bool) (t : AppWindow),
        closeTab 1 (Sample.windowOf [Sample.untitled 1 "", Sample.refusing 2,
          Sample.untitled 3 ""]) = some (b, t) ∧
        b = false ∧ t.tabs.length = 3 := by
  refine ⟨rfl, ?_⟩
  obtain ⟨b, t, e, hb, hfalse, _⟩ := closeTab_all_or_nothing
    (Sample.windowOf [Sample.untitled 1 "", Sample.refusing 2, Sample.untitled 3 ""]) 1
    (Sample.refusing 2) rfl
  have hb2 : b = false := by
    cases b with
    | false => rfl
    | true => exact absurd (hb.mp rfl) (by decide)
  exact ⟨b, t, e, hb2, (hfalse hb2).2.1⟩

end CPEditor

/-! ## C14: toggling the view mode -/

namespace CPEditor
open AppWindow

theorem toggle_from_editor {s : AppWindow} (h : s.actionEditor_Mode = true) :
    s.onViewModeToggle = s.on_actionIO_Mode_triggered := by
  simp [onViewModeToggle, h]

theorem toggle_from_io {s : AppWindow} (h1 : s.actionEditor_Mode = false)
    (h2 : s.actionSplit_Mode = false) (h3 : s.actionIO_Mode = true) :
    s.onViewModeToggle = s.on_actionSplit_Mode_triggered := by
  simp [onViewModeToggle, h1, h2, h3]

theorem toggle_from_split {s : AppWindow} (h1 : s.actionEditor_Mode = false)
    (h2 : s.actionSplit_Mode = true) :
    s.onViewModeToggle = s.on_actionEditor_Mode_triggered := by
  simp [onViewModeToggle, h1, h2]

/-- C14: `onViewModeToggle` switches from editor mode to I/O mode, from I/O mode
to split mode and from split mode to editor mode, storing the new mode; so
from a state with exactly one mode action checked, three toggles lead back to
the starting mode and one or two toggles do not; with no mode action checked
it changes nothing. -/
theorem view_mode_toggle_cycle (s : AppWindow) :
    (s.actionEditor_Mode = true ∧ s.actionIO_Mode = false ∧ s.actionSplit_Mode = false →
      s.onViewModeToggle.actionEditor_Mode = false ∧ s.onViewModeToggle.actionIO_Mode = true ∧
      s.onViewModeToggle.actionSplit_Mode = false ∧
      s.onViewModeToggle.settingManager.viewMode = ViewMode.FULL_IO) ∧
    (s.actionEditor_Mode = false ∧ s.actionIO_Mode = true ∧ s.actionSplit_Mode = false →
      s.onViewModeToggle.actionEditor_Mode = false ∧ s.onViewModeToggle.actionIO_Mode = false ∧
      s.onViewModeToggle.actionSplit_Mode = true ∧
      s.onViewModeToggle.settingManager.viewMode = ViewMode.SPLIT) ∧
    (s.actionEditor_Mode = false ∧ s.actionIO_Mode = false ∧ s.actionSplit_Mode = true →
      s.onViewModeToggle.actionEditor_Mode = true ∧ s.onViewModeToggle.actionIO_Mode = false ∧
      s.onViewModeToggle.actionSplit_Mode = false ∧
      s.onViewModeToggle.settingManager.viewMode = ViewMode.FULL_EDITOR) ∧
    (ModeInv s →
      ModeInv s.onViewModeToggle.onViewModeToggle.onViewModeToggle ∧
      s.onViewModeToggle.onViewModeToggle.onViewModeToggle.settingManager.viewMode =
        s.settingManager.viewMode ∧
      s.onViewModeToggle.settingManager.viewMode ≠ s.settingManager.viewMode ∧
      s.onViewModeToggle.onViewModeToggle.settingManager.viewMode ≠
        s.settingManager.viewMode) ∧
    (s.actionEditor_Mode = false ∧ s.actionIO_Mode = false ∧ s.actionSplit_Mode = false →
      s.onViewModeToggle = s) := by
  have hE : ∀ x : AppWindow, x.actionEditor_Mode = true ∧ x.actionIO_Mode = false ∧
      x.actionSplit_Mode = false →
      x.onViewModeToggle.actionEditor_Mode = false ∧ x.onViewModeToggle.actionIO_Mode = true ∧
      x.onViewModeToggle.actionSplit_Mode = false ∧
      x.onViewModeToggle.settingManager.viewMode = ViewMode.FULL_IO := by
    intro x h
    rw [toggle_from_editor h.1]
    exact ioMode_modeInv x
  have hI : ∀ x : AppWindow, x.actionEditor_Mode = false ∧ x.actionIO_Mode = true ∧
      x.actionSplit_Mode = false →
      x.onViewModeToggle.actionEditor_Mode = false ∧ x.onViewModeToggle.actionIO_Mode = false ∧
      x.onViewModeToggle.actionSplit_Mode = true ∧
      x.onViewModeToggle.settingManager.viewMode = ViewMode.SPLIT := by
    intro x h
    rw [toggle_from_io h.1 h.2.2 h.2.1]
    exact splitMode_modeInv x
  have hS : ∀ x : AppWindow, x.actionEditor_Mode = false ∧ x.actionIO_Mode = false ∧
      x.actionSplit_Mode = true →
      x.onViewModeToggle.actionEditor_Mode = true ∧ x.onViewModeToggle.actionIO_Mode = false ∧
      x.onViewModeToggle.actionSplit_Mode = false ∧
      x.onViewModeToggle.settingManager.viewMode = ViewMode.FULL_EDITOR := by
    intro x h
    rw [toggle_from_split h.1 h.2.2]
    exact editorMode_modeInv x
  refine ⟨hE s, hI s, hS s, ?_, ?_⟩
  · intro hinv
    rcases hinv with h | h | h
    · have a1 := hE s ⟨h.1, h.2.1, h.2.2.1⟩
      have a2 := hI _ ⟨a1.1, a1.2.1, a1.2.2.1⟩
      have a3 := hS _ ⟨a2.1, a2.2.1, a2.2.2.1⟩
      refine ⟨Or.inl a3, by rw [a3.2.2.2, h.2.2.2], ?_, ?_⟩
      · rw [a1.2.2.2, h.2.2.2]; decide
      · rw [a2.2.2.2, h.2.2.2]; decide
    · have a1 := hI s ⟨h.1, h.2.1, h.2.2.1⟩
      have a2 := hS _ ⟨a1.1, a1.2.1, a1.2.2.1⟩
      have a3 := hE _ ⟨a2.1, a2.2.1, a2.2.2.1⟩
      refine ⟨Or.inr (Or.inl a3), by rw [a3.2.2.2, h.2.2.2], ?_, ?_⟩
      · rw [a1.2.2.2, h.2.2.2]; decide
      · rw [a2.2.2.2, h.2.2.2]; decide
    · have a1 := hS s ⟨h.1, h.2.1, h.2.2.1⟩
      have a2 := hE _ ⟨a1.1, a1.2.1, a1.2.2.1⟩
      have a3 := hI _ ⟨a2.1, a2.2.1, a2.2.2.1⟩
      refine ⟨Or.inr (Or.inr a3), by rw [a3.2.2.2, h.2.2.2], ?_, ?_⟩
      · rw [a1.2.2.2, h.2.2.2]; decide
      · rw [a2.2.2.2, h.2.2.2]; decide
  · intro h
    simp [onViewModeToggle, h.1, h.2.1, h.2.2]

/-- Three toggles from the split mode lead back to the split mode. -/
theorem view_mode_toggle_cycle_witness :
    ModeInv Sample.emptyWindow ∧
      Sample.emptyWindow.onViewModeToggle.onViewModeToggle.onViewModeToggle.settingManager.viewMode =
        ViewMode.SPLIT ∧
      Sample.emptyWindow.onViewModeToggle.settingManager.viewMode ≠ ViewMode.SPLIT :=
  ⟨Or.inr (Or.inr ⟨rfl, rfl, rfl, rfl⟩),
    ((view_mode_toggle_cycle Sample.emptyWindow).2.2.2.1
      (Or.inr (Or.inr ⟨rfl, rfl, rfl, rfl⟩))).2.1,
    ((view_mode_toggle_cycle Sample.emptyWindow).2.2.2.1
      (Or.inr (Or.inr ⟨rfl, rfl, rfl, rfl⟩))).2.2.1⟩

end CPEditor

/-! ## C13: Close Saved -/

namespace CPEditor
open AppWindow

theorem tabsRefreshed_append_left {l1 l2 l : List MainWindow}
    (h : List.Forall₂ Refreshed (l1 ++ l2) l) :
    ∃ m1 m2, l = m1 ++ m2 ∧ List.Forall₂ Refreshed l1 m1 ∧ List.Forall₂ Refreshed l2 m2 := by
  induction l1 generalizing l with
  | nil => exact ⟨[], l, rfl, List.Forall₂.nil, h⟩
  | cons a l1 ih =>
    cases h with
    | cons hab hrest =>
      obtain ⟨m1, m2, e, h1, h2⟩ := ih hrest
      exact ⟨_ :: m1, m2, by simp [e], List.Forall₂.cons hab h1, h2⟩

theorem keptBySaved_of_refreshed {a b c : MainWindow} (h1 : Refreshed a b)
    (h2 : KeptBySaved b c) : KeptBySaved a c := by
  have ht : b.textChanged = a.textChanged := congrArg Editor.textChanged h1.1
  refine ⟨fun h => refreshed_trans h1 (h2.1 (by rw [ht, h])), fun h => ?_⟩
  obtain ⟨w, r1, r2⟩ := h2.2 (by rw [ht, h])
  exact ⟨w, refreshed_trans h1 r1, r2⟩

theorem keptBySaved_filter {l1 l2 r : List MainWindow} (h : List.Forall₂ Refreshed l1 l2)
    (hk : List.Forall₂ KeptBySaved
      (l2.filter (fun w => w.textChanged || !w.closeAnswer)) r) :
    List.Forall₂ KeptBySaved (l1.filter (fun w => w.textChanged || !w.closeAnswer)) r := by
  induction h generalizing r with
  | nil => exact hk
  | @cons a b l1 l2 hab hrest ih =>
    have h1 : b.textChanged = a.textChanged := congrArg Editor.textChanged hab.1
    have h2 : b.closeAnswer = a.closeAnswer := congrArg Editor.closeAnswer hab.1
    by_cases hkeep : (a.textChanged || !a.closeAnswer) = true
    · have hkeepb : (b.textChanged || !b.closeAnswer) = true := by rw [h1, h2]; exact hkeep
      rw [List.filter_cons] at hk ⊢
      simp only [hkeepb, hkeep, if_true] at hk ⊢
      cases hk with
      | cons hbc hr => exact List.Forall₂.cons (keptBySaved_of_refreshed hab hbc) (ih hr)
    · have hkeepb : ¬ (b.textChanged || !b.closeAnswer) = true := by rw [h1, h2]; exact hkeep
      rw [List.filter_cons] at hk ⊢
      simp only [hkeepb, hkeep, if_false] at hk ⊢
      exact ih hk

theorem closeSavedLoop_spec (fuel : Nat) (s : AppWindow) (done todo : List MainWindow)
    (i : Int) (hi : i = (done.length : Int)) (hs : s.tabs = done ++ todo)
    (hfuel : todo.length < fuel) :
    ∃ r done2 rest2, closeSavedLoop fuel i s = some r ∧ r.tabs = done2 ++ rest2 ∧
      List.Forall₂ Refreshed done done2 ∧
      List.Forall₂ KeptBySaved (todo.filter (fun w => w.textChanged || !w.closeAnswer)) rest2 := by
  induction fuel generalizing s done todo i with
  | zero => omega
  | succ fuel ih =>
    subst hi
    unfold closeSavedLoop
    cases todo with
    | nil =>
      have hge : ¬ ((done.length : Int) < s.count) := by simp [count, hs]
      rw [if_neg hge]
      exact ⟨s, done, [], rfl, by simpa using hs, tabsRefreshed_refl _, List.Forall₂.nil⟩
    | cons a l =>
      have hlt : ((done.length : Int) < s.count) := by simp [count, hs]
      have hget : s.tabs[done.length]? = some a := by
        rw [hs, List.getElem?_append_right (le_refl _)]
        simp
      have hw : s.windowIndex (done.length : Int) = some a := by
        rw [windowIndex_eq_widget (Int.natCast_nonneg _)]
        simpa [widget] using hget
      rw [if_pos hlt, hw]
      dsimp only
      have hl : l.length < fuel := by simp at hfuel; omega
      cases htc : a.textChanged with
      | true =>
        simp only [Bool.not_true, Bool.false_eq_true, if_false]
        obtain ⟨r, done2, rest2, e, hr, hd, hk⟩ := ih s (done ++ [a]) l
          ((done.length : Int) + 1) (by simp) (by simp [hs]) hl
        obtain ⟨d1, a1, ed, hd1, ha1⟩ := tabsRefreshed_snoc hd
        refine ⟨r, d1, a1 :: rest2, e, by simp [hr, ed], hd1, ?_⟩
        rw [List.filter_cons]
        simp only [htc, Bool.true_or, if_true]
        exact List.Forall₂.cons (And.intro (fun _ => ha1) (fun h => by rw [htc] at h; cases h)) hk
      | false =>
        simp only [Bool.not_false, if_true]
        cases hca : a.closeAnswer with
        | true =>
          obtain ⟨s1, e1, hr1, _⟩ := closeTab_accept hw hca
          have herase : s.tabs.eraseIdx ((done.length : Int)).toNat = done ++ l := by
            simp [hs, List.eraseIdx_append_of_length_le]
          rw [herase] at hr1
          obtain ⟨m1, m2, em, hm1, hm2⟩ := tabsRefreshed_append_left hr1
          obtain ⟨r, done2, rest2, e, hr, hd, hk⟩ := ih s1 m1 m2 (done.length : Int)
            (by rw [hm1.length_eq]) em (by rw [← hm2.length_eq]; exact hl)
          refine ⟨r, done2, rest2, ?_, hr, tabsRefreshed_trans hm1 hd, ?_⟩
          · simp only [e1]
            have : ((done.length : Int) - 1 + 1) = (done.length : Int) := by omega
            rw [this]
            exact e
          · rw [List.filter_cons]
            simp only [htc, hca, Bool.not_true, Bool.or_self, Bool.false_eq_true, if_false]
            exact keptBySaved_filter hm2 hk
        | false =>
          rw [closeTab_refuse hw hca]
          dsimp only
          have hs1 : (s.setWidget (done.length : Int) (a.record Call.closeConfirm)).tabs =
              (done ++ [a.record Call.closeConfirm]) ++ l := by
            rw [setWidget_tabs (Int.natCast_nonneg _)]
            simp [hs]
          obtain ⟨r, done2, rest2, e, hr, hd, hk⟩ := ih _ (done ++ [a.record Call.closeConfirm]) l
            ((done.length : Int) + 1) (by simp) hs1 hl
          obtain ⟨d1, a1, ed, hd1, ha1⟩ := tabsRefreshed_snoc hd
          refine ⟨r, d1, a1 :: rest2, e, by simp [hr, ed], hd1, ?_⟩
          rw [List.filter_cons]
          simp only [htc, hca, Bool.not_false, Bool.or_true, if_true]
          exact List.Forall₂.cons
            (And.intro (fun h => by rw [htc] at h; cases h)
              (fun _ => Exists.intro a (And.intro (refreshed_refl a) ha1))) hk

end CPEditor

namespace CPEditor
open AppWindow

theorem closeSavedLoop_mono {fuel : Nat} {i : Int} {s r : AppWindow}
    (h : closeSavedLoop fuel i s = some r) : closeSavedLoop (fuel + 1) i s = some r := by
  induction fuel generalizing i s with
  | zero => simp [closeSavedLoop] at h
  | succ fuel ih =>
    unfold closeSavedLoop at h ⊢
    split
    · next hlt =>
      rw [if_pos hlt] at h
      cases hw : s.windowIndex i with
      | none => simp [hw] at h
      | some w =>
        simp only [hw] at h ⊢
        split
        · next htc =>
          rw [if_pos htc] at h
          cases hc : closeTab i s with
          | none => simp [hc] at h
          | some p =>
            obtain ⟨b, s1⟩ := p
            cases b with
            | true =>
              simp only [hc] at h ⊢
              exact ih h
            | false =>
              simp only [hc] at h ⊢
              exact ih h
        · next htc =>
          rw [if_neg htc] at h
          exact ih h
    · next hge =>
      rw [if_neg hge] at h
      exact h

theorem closeSavedLoop_fuel {fuel1 fuel2 : Nat} {s r : AppWindow}
    (h : closeSavedLoop fuel1 0 s = some r) (hle : fuel1 ≤ fuel2) :
    closeSavedLoop fuel2 0 s = some r := by
  induction hle with
  | refl => exact h
  | step _ ih => exact closeSavedLoop_mono ih

/-- C13: Close Saved returns (for every fuel above the tab count, with the
same result). The tabs it leaves open are, in their original order, the tabs
with changed text and the tabs with unchanged text whose `closeConfirm()`
refuses; so the tabs removed are exactly the tabs with unchanged text whose
`closeConfirm()` accepts. A tab with changed text is never asked: it received
at most `setSettingsData`. A refusing tab was asked once, and the scan went on
behind it. -/
theorem closeSaved_keeps_unsaved (s : AppWindow) :
    ∃ t, on_actionClose_Saved_triggered s = some t ∧
      (∀ fuel, s.tabs.length < fuel → closeSavedLoop fuel 0 s = some t) ∧
      List.Forall₂ KeptBySaved
        (s.tabs.filter (fun w => w.textChanged || !w.closeAnswer)) t.tabs := by
  obtain ⟨r, done2, rest2, e, hr, hd, hk⟩ := closeSavedLoop_spec (s.tabs.length + 1) s [] s.tabs
    0 rfl rfl (Nat.lt_succ_self _)
  cases hd
  exact ⟨r, e, fun fuel hfuel => closeSavedLoop_fuel e (by omega), by simpa [hr] using hk⟩

/-- With a saved tab, a tab with unsaved text and another saved tab open, Close
Saved leaves the tab with unsaved text, which was not asked. -/
theorem closeSaved_keeps_unsaved_witness :
    ∃ t w2, on_actionClose_Saved_triggered
        (Sample.windowOf [Sample.untitled 1 "", Sample.refusing 2, Sample.untitled 3 ""]) =
          some t ∧
      t.tabs = [w2] ∧ Refreshed (Sample.refusing 2) w2 := by
  obtain ⟨t, e, _, hk⟩ := closeSaved_keeps_unsaved
    (Sample.windowOf [Sample.untitled 1 "", Sample.refusing 2, Sample.untitled 3 ""])
  have hf : (Sample.windowOf [Sample.untitled 1 "", Sample.refusing 2,
      Sample.untitled 3 ""]).tabs.filter (fun w => w.textChanged || !w.closeAnswer) =
      [Sample.refusing 2] := by decide
  rw [hf] at hk
  obtain ⟨w2, rest, hab, hrest, et⟩ := List.forall₂_cons_left_iff.mp hk
  have hnil := List.forall₂_nil_left_iff.mp hrest
  subst hnil
  exact ⟨t, w2, e, et, hab.1 rfl⟩

end CPEditor

/-! ## C12: renaming the tabs -/

namespace CPEditor
open AppWindow

theorem tabsByNameNew_perm (m : List (String × List Nat)) (key : String) (t : Nat) :
    (tabsByNameNew m key t).Perm ((key, [t]) :: m) := by
  induction m with
  | nil => exact List.Perm.refl _
  | cons a m ih =>
    obtain ⟨k0, v0⟩ := a
    unfold tabsByNameNew
    split
    · exact List.Perm.refl _
    · exact (List.Perm.cons _ ih).trans (List.Perm.swap _ _ _)

theorem tabsByNameInsert_keys (m : List (String × List Nat)) (key : String) (t : Nat)
    (k : String) :
    k ∈ (tabsByNameInsert m key t).map Prod.fst ↔ k = key ∨ k ∈ m.map Prod.fst := by
  unfold tabsByNameInsert
  split
  · next hk =>
    have : (m.map (fun e : String × List Nat =>
        if e.1 = key then (e.1, e.2 ++ [t]) else e)).map Prod.fst = m.map Prod.fst := by
      rw [List.map_map]
      apply List.map_congr_left
      intro e _
      simp only [Function.comp]
      split <;> rfl
    rw [this]
    constructor
    · exact Or.inr
    · rintro (rfl | h)
      · exact hk
      · exact h
  · have := (tabsByNameNew_perm m key t).map Prod.fst
    rw [this.mem_iff]
    simp

theorem tabsByNameInsert_nodup (m : List (String × List Nat)) (key : String) (t : Nat)
    (h : (m.map Prod.fst).Nodup) : ((tabsByNameInsert m key t).map Prod.fst).Nodup := by
  unfold tabsByNameInsert
  split
  · have : (m.map (fun e : String × List Nat =>
        if e.1 = key then (e.1, e.2 ++ [t]) else e)).map Prod.fst = m.map Prod.fst := by
      rw [List.map_map]
      apply List.map_congr_left
      intro e _
      simp only [Function.comp]
      split <;> rfl
    rw [this]
    exact h
  · next hk =>
    have := (tabsByNameNew_perm m key t).map Prod.fst
    rw [this.nodup_iff]
    simpa [List.nodup_cons] using And.intro (by simpa using hk) h

theorem tabsByNameInsert_mem (m : List (String × List Nat)) (key : String) (t : Nat)
    (k : String) (v : List Nat) (h : (k, v) ∈ tabsByNameInsert m key t) :
    (k ≠ key ∧ (k, v) ∈ m) ∨
      (k = key ∧ ((∃ v0, (key, v0) ∈ m ∧ v = v0 ++ [t]) ∨
        (key ∉ m.map Prod.fst ∧ v = [t]))) := by
  unfold tabsByNameInsert at h
  split at h
  · obtain ⟨e, he, hev⟩ := List.mem_map.mp h
    by_cases hk : e.1 = key
    · rw [if_pos hk] at hev
      cases hev
      exact Or.inr ⟨hk, Or.inl ⟨e.2, by rw [← hk]; exact he, rfl⟩⟩
    · rw [if_neg hk] at hev
      subst hev
      exact Or.inl ⟨hk, he⟩
  · next hk =>
    rw [(tabsByNameNew_perm m key t).mem_iff, List.mem_cons] at h
    rcases h with h | h
    · cases h
      exact Or.inr ⟨rfl, Or.inr ⟨hk, rfl⟩⟩
    · refine Or.inl ⟨?_, h⟩
      intro e
      subst e
      exact hk (List.mem_map.mpr ⟨_, h, rfl⟩)

end CPEditor

namespace CPEditor
open AppWindow

theorem windowIndex_natCast (s : AppWindow) (i : Nat) :
    s.windowIndex (i : Int) = s.tabs[i]? := by
  rw [windowIndex_eq_widget (Int.ofNat_nonneg i)]
  unfold widget
  simp

theorem tabsByNameInv_step (title : MainWindow → Bool → Bool → String) (s : AppWindow) (t : Nat)
    (m : List (String × List Nat)) (h : TabsByNameInv title s t m) :
    TabsByNameInv title s (t + 1) (tabsByNameInsert m (shortTitle title s t) t) := by
  obtain ⟨hn, he, hc⟩ := h
  refine ⟨tabsByNameInsert_nodup m _ t hn, ?_, ?_⟩
  · intro k v hkv
    rw [List.range_succ, List.filter_append]
    rcases tabsByNameInsert_mem m _ t k v hkv with ⟨hk, hm⟩ | ⟨hk, ⟨v0, hm, hv⟩ | ⟨hm, hv⟩⟩
    · rw [← he k v hm]
      have : decide (shortTitle title s t = k) = false := by
        simpa using fun e => hk e.symm
      simp [List.filter_cons, this]
    · rw [hk, ← he _ v0 hm, hv]
      simp [List.filter_cons]
    · have : (List.range t).filter (fun i => decide (shortTitle title s i = k)) = [] := by
        rw [List.filter_eq_nil_iff]
        intro i hi
        have hi2 := hc i (List.mem_range.mp hi)
        simp only [decide_eq_true_eq]
        intro e
        rw [e, hk] at hi2
        exact hm hi2
      rw [this, hv, hk]
      simp [List.filter_cons]
  · intro i hi
    rw [tabsByNameInsert_keys]
    by_cases e : i = t
    · exact Or.inl (by rw [e])
    · exact Or.inr (hc i (by omega))

theorem tabsByNameLoop_spec (title : MainWindow → Bool → Bool → String) (s : AppWindow)
    (r t : Nat) (m : List (String × List Nat)) (hr : t + r = s.tabs.length)
    (h : TabsByNameInv title s t m) :
    ∃ m2, tabsByNameLoop title r t s m = some m2 ∧ TabsByNameInv title s s.tabs.length m2 := by
  induction r generalizing t m with
  | zero =>
    refine ⟨m, rfl, ?_⟩
    have : t = s.tabs.length := by omega
    rw [← this]
    exact h
  | succ r ih =>
    have hlt : t < s.tabs.length := by omega
    unfold tabsByNameLoop
    rw [windowIndex_natCast, List.getElem?_eq_getElem hlt]
    dsimp only
    have hs : title s.tabs[t] false false = shortTitle title s t := by
      unfold shortTitle
      rw [List.getElem?_eq_getElem hlt]
    rw [hs]
    exact ih (t + 1) _ (by omega) (tabsByNameInv_step title s t m h)

theorem renameGroup_spec (title : MainWindow → Bool → Bool → String) (s : AppWindow)
    (tabs l : List Nat) (h : ∀ i, i ∈ l → i < s.tabs.length) :
    ∃ calls, renameGroup title s tabs l = some calls ∧ calls.map Prod.fst = l ∧
      ∀ i txt, (i, txt) ∈ calls → ∃ w, s.tabs[i]? = some w ∧
        txt = title w (decide (tabs.length > 1)) true := by
  induction l with
  | nil => exact ⟨[], rfl, rfl, by simp⟩
  | cons a l ih =>
    obtain ⟨calls, hc, hf, ht⟩ := ih (fun i hi => h i (List.mem_cons_of_mem _ hi))
    have hlt : a < s.tabs.length := h a (List.mem_cons_self _ _)
    unfold renameGroup
    rw [windowIndex_natCast, List.getElem?_eq_getElem hlt]
    dsimp only
    rw [hc]
    refine ⟨_, rfl, by simp [hf], ?_⟩
    intro i txt hi
    rcases List.mem_cons.mp hi with e | hi
    · cases e
      exact ⟨s.tabs[a], List.getElem?_eq_getElem hlt, rfl⟩
    · exact ht i txt hi

theorem renameAll_spec (title : MainWindow → Bool → Bool → String) (s : AppWindow)
    (m : List (String × List Nat)) (h : ∀ k v i, (k, v) ∈ m → i ∈ v → i < s.tabs.length) :
    ∃ calls, renameAll title s m = some calls ∧
      calls.map Prod.fst = m.flatMap Prod.snd ∧
      ∀ i txt, (i, txt) ∈ calls → ∃ k v w, (k, v) ∈ m ∧ i ∈ v ∧ s.tabs[i]? = some w ∧
        txt = title w (decide (v.length > 1)) true := by
  induction m with
  | nil => exact ⟨[], rfl, rfl, by simp⟩
  | cons a m ih =>
    obtain ⟨k0, v0⟩ := a
    obtain ⟨calls2, hc2, hf2, ht2⟩ :=
      ih (fun k v i hkv hi => h k v i (List.mem_cons_of_mem _ hkv) hi)
    obtain ⟨calls1, hc1, hf1, ht1⟩ :=
      renameGroup_spec title s v0 v0 (fun i hi => h k0 v0 i (List.mem_cons_self _ _) hi)
    unfold renameAll
    rw [hc1, hc2]
    refine ⟨calls1 ++ calls2, rfl, by simp [hf1, hf2, List.flatMap_cons], ?_⟩
    intro i txt hi
    rcases List.mem_append.mp hi with hi | hi
    · obtain ⟨w, hw, ht⟩ := ht1 i txt hi
      have hiv : i ∈ v0 := by
        rw [← hf1]
        exact List.mem_map.mpr ⟨(i, txt), hi, rfl⟩
      exact ⟨k0, v0, w, List.mem_cons_self _ _, hiv, hw, ht⟩
    · obtain ⟨k, v, w, hkv, hiv, hw, ht⟩ := ht2 i txt hi
      exact ⟨k, v, w, List.mem_cons_of_mem _ hkv, hiv, hw, ht⟩

theorem length_gt_one_iff_other {v : List Nat} (hn : v.Nodup) {i : Nat} (hi : i ∈ v) :
    1 < v.length ↔ ∃ j, j ∈ v ∧ j ≠ i := by
  constructor
  · intro h
    by_contra hc
    have hsub : v ⊆ [i] := by
      intro j hj
      by_contra hji
      exact hc ⟨j, hj, fun e => hji (by simp [e])⟩
    have := (List.subperm_of_subset hn hsub).length_le
    simp at this
    omega
  · rintro ⟨j, hj, hji⟩
    have hn2 : [i, j].Nodup := by simp [Ne.symm hji]
    have hsub : [i, j] ⊆ v := by
      intro x hx
      simp at hx
      rcases hx with rfl | rfl
      · exact hi
      · exact hj
    have := (List.subperm_of_subset hn2 hsub).length_le
    simpa using this

theorem tabsByNameInv_flat (title : MainWindow → Bool → Bool → String) (s : AppWindow) (n : Nat)
    (m : List (String × List Nat)) (h : TabsByNameInv title s n m) :
    (m.flatMap Prod.snd).Perm (List.range n) := by
  obtain ⟨hn, he, hc⟩ := h
  rw [List.perm_ext_iff_of_nodup ?_ (List.nodup_range n)]
  · intro i
    rw [List.mem_flatMap, List.mem_range]
    constructor
    · rintro ⟨⟨k, v⟩, hkv, hi⟩
      rw [he k v hkv] at hi
      exact List.mem_range.mp (List.mem_filter.mp hi).1
    · intro hi
      obtain ⟨⟨k, v⟩, hkv, hk⟩ := List.mem_map.mp (hc i hi)
      refine ⟨(k, v), hkv, ?_⟩
      show i ∈ v
      rw [he k v hkv]
      exact List.mem_filter.mpr ⟨List.mem_range.mpr hi, by simpa using hk.symm⟩
  · rw [List.nodup_flatMap]
    constructor
    · rintro ⟨k, v⟩ hkv
      show v.Nodup
      rw [he k v hkv]
      exact (List.nodup_range n).filter _
    · have hp : m.Pairwise (fun a b => a.1 ≠ b.1) := (List.pairwise_map.mp hn)
      refine List.Pairwise.imp_of_mem ?_ hp
      rintro ⟨k1, v1⟩ ⟨k2, v2⟩ h1 h2 hne
      show List.Disjoint v1 v2
      intro i hi1 hi2
      rw [he k1 v1 h1] at hi1
      rw [he k2 v2 h2] at hi2
      have e1 := (List.mem_filter.mp hi1).2
      have e2 := (List.mem_filter.mp hi2).2
      simp only [decide_eq_true_eq] at e1 e2
      exact hne (e1.symm.trans e2)

end CPEditor

namespace CPEditor
open AppWindow

/-- C12: `applyEditorChanged` with a current tab makes one `setTabText` call for
every open tab (the indices of the calls are a permutation of `0 .. count-1`);
the text set for tab `i` is `getTabTitle(true, true)` of that tab when another
open tab has the same short title `getTabTitle(false, false)`, and
`getTabTitle(false, true)` when no other tab has. Without a current tab, so in
particular without any tab, no call is made. -/
theorem applyEditorChanged_renames (getTabTitle : MainWindow → Bool → Bool → String)
    (s : AppWindow) :
    (s.currentWindow = none → applyEditorChanged getTabTitle s = some []) ∧
    (s.tabs = [] → applyEditorChanged getTabTitle s = some []) ∧
    (s.currentWindow.isSome → ∃ calls, applyEditorChanged getTabTitle s = some calls ∧
      (calls.map Prod.fst).Perm (List.range s.tabs.length) ∧
      ∀ (i : Nat) (txt : String), (i, txt) ∈ calls → ∃ w, s.tabs[i]? = some w ∧
        ((∃ (j : Nat) (w2 : MainWindow), j ≠ i ∧ s.tabs[j]? = some w2 ∧
            getTabTitle w2 false false = getTabTitle w false false) →
          txt = getTabTitle w true true) ∧
        ((¬ ∃ (j : Nat) (w2 : MainWindow), j ≠ i ∧ s.tabs[j]? = some w2 ∧
            getTabTitle w2 false false = getTabTitle w false false) →
          txt = getTabTitle w false true)) := by
  have hnone : s.currentWindow = none → applyEditorChanged getTabTitle s = some [] := by
    intro h
    unfold applyEditorChanged
    simp [h]
  refine ⟨hnone, ?_, ?_⟩
  · intro h
    apply hnone
    cases hc : s.currentWindow with
    | none => rfl
    | some w =>
      have := (widget_lt (currentWindow_eq_some hc)).2
      have h0 := (widget_lt (currentWindow_eq_some hc)).1
      unfold count at this
      rw [h] at this
      simp at this
      omega
  · intro h
    have hinv0 : TabsByNameInv getTabTitle s 0 [] :=
      ⟨by simp, by simp, by intro i hi; omega⟩
    obtain ⟨m, hm, hinv⟩ :=
      tabsByNameLoop_spec getTabTitle s s.tabs.length 0 [] (by omega) hinv0
    have hperm := tabsByNameInv_flat getTabTitle s s.tabs.length m hinv
    obtain ⟨hn, he, hc⟩ := hinv
    have hlt : ∀ k v i, (k, v) ∈ m → i ∈ v → i < s.tabs.length := by
      intro k v i hkv hi
      rw [he k v hkv] at hi
      exact List.mem_range.mp (List.mem_filter.mp hi).1
    obtain ⟨calls, hcalls, hf, ht⟩ := renameAll_spec getTabTitle s m hlt
    refine ⟨calls, ?_, by rw [hf]; exact hperm, ?_⟩
    · unfold applyEditorChanged
      rw [if_pos h, hm]
      exact hcalls
    · intro i txt hi
      obtain ⟨k, v, w, hkv, hiv, hw, htxt⟩ := ht i txt hi
      have hv := he k v hkv
      have hvn : v.Nodup := by
        rw [hv]
        exact (List.nodup_range _).filter _
      have hik : shortTitle getTabTitle s i = k := by
        rw [hv] at hiv
        simpa using (List.mem_filter.mp hiv).2
      have hsi : shortTitle getTabTitle s i = getTabTitle w false false := by
        unfold shortTitle
        rw [hw]
      have hiff : 1 < v.length ↔ ∃ (j : Nat) (w2 : MainWindow), j ≠ i ∧ s.tabs[j]? = some w2 ∧
            getTabTitle w2 false false = getTabTitle w false false := by
        rw [length_gt_one_iff_other hvn hiv]
        constructor
        · rintro ⟨j, hj, hji⟩
          have hj2 := hj
          rw [hv] at hj2
          obtain ⟨hjr, hjk⟩ := List.mem_filter.mp hj2
          have hjl : j < s.tabs.length := List.mem_range.mp hjr
          refine ⟨j, s.tabs[j], hji, List.getElem?_eq_getElem hjl, ?_⟩
          have hjk2 : shortTitle getTabTitle s j = k := by simpa using hjk
          unfold shortTitle at hjk2
          rw [List.getElem?_eq_getElem hjl] at hjk2
          rw [← hsi, hik]
          exact hjk2
        · rintro ⟨j, w2, hji, hw2, e⟩
          refine ⟨j, ?_, hji⟩
          rw [hv]
          have hjl : j < s.tabs.length := (List.getElem?_eq_some_iff.mp hw2).1
          refine List.mem_filter.mpr ⟨List.mem_range.mpr hjl, ?_⟩
          have : shortTitle getTabTitle s j = k := by
            unfold shortTitle
            rw [hw2]
            dsimp only
            rw [e, ← hsi, hik]
          simpa using this
      refine ⟨w, hw, ?_, ?_⟩
      · intro hex
        rw [htxt]
        have : decide (v.length > 1) = true := by simpa using hiff.mpr hex
        rw [this]
      · intro hex
        rw [htxt]
        have : decide (v.length > 1) = false := by
          simpa using fun h1 => hex (hiff.mp h1)
        rw [this]

/-- With two untitled tabs and the tab of `f.cpp`, the untitled tabs get their
complete titles and the file tab gets its short title. -/
theorem applyEditorChanged_renames_witness :
    (Sample.windowOf [Sample.untitled 1 "", Sample.untitled 2 "",
        MainWindow.new "f.cpp" { revision := 0 } 0]).currentWindow.isSome ∧
      applyEditorChanged Sample.title
          (Sample.windowOf [Sample.untitled 1 "", Sample.untitled 2 "",
            MainWindow.new "f.cpp" { revision := 0 } 0]) =
        some [(0, "Untitled-1"), (1, "Untitled-2"), (2, "f.cpp")] ∧
      ∃ calls, applyEditorChanged Sample.title
          (Sample.windowOf [Sample.untitled 1 "", Sample.untitled 2 "",
            MainWindow.new "f.cpp" { revision := 0 } 0]) = some calls ∧
        (calls.map Prod.fst).Perm (List.range 3) :=
  ⟨rfl, by decide,
    ((applyEditorChanged_renames Sample.title (Sample.windowOf [Sample.untitled 1 "",
      Sample.untitled 2 "", MainWindow.new "f.cpp" { revision := 0 } 0])).2.2 rfl).imp (fun _ h => ⟨h.1, h.2.1⟩)⟩

end CPEditor

/-! ## C15: the depth limit of openFolder -/

namespace CPEditor
open AppWindow

theorem openTabs_append (fs : FileSystem) (l1 l2 : List String) (s : AppWindow) :
    openTabs fs (l1 ++ l2) s = (openTabs fs l1 s).bind (openTabs fs l2) := by
  unfold openTabs
  rw [List.foldlM_append]
  rfl

theorem openTabs_total (fs : FileSystem) (l : List String) (s : AppWindow) :
    ∃ t, openTabs fs l s = some t := by
  induction l generalizing s with
  | nil => exact ⟨s, rfl⟩
  | cons a l ih =>
    obtain ⟨t, e⟩ := openTab_total fs a false s
    obtain ⟨t2, e2⟩ := ih t
    exact ⟨t2, by unfold openTabs at *; simp only [List.foldlM_cons, e]; exact e2⟩

mutual
theorem entryFiles_level (level : Nat) (e : Entry) (f : TreeFile)
    (h : f ∈ entryFiles level e) : level ≤ f.level := by
  cases e with
  | file sfx p =>
    rw [entryFiles] at h
    simp at h
    rw [h]
  | dir p sub =>
    rw [entryFiles] at h
    have := treeFiles_level (level + 1) sub f h
    omega
theorem treeFiles_level (level : Nat) (l : List Entry) (f : TreeFile)
    (h : f ∈ treeFiles level l) : level ≤ f.level := by
  cases l with
  | nil =>
    rw [treeFiles] at h
    simp at h
  | cons e rest =>
    rw [treeFiles] at h
    rcases List.mem_append.mp h with h | h
    · exact entryFiles_level level e f h
    · exact treeFiles_level level rest f h
end

theorem openTabs_nil (fs : FileSystem) (s : AppWindow) : openTabs fs [] s = some s := rfl

theorem openTabs_single (fs : FileSystem) (p : String) (s : AppWindow) :
    openTabs fs [p] s = openTab fs p false s := by
  unfold openTabs
  simp only [List.foldlM_cons, List.foldlM_nil]
  cases openTab fs p false s <;> rfl

mutual
theorem openFolderEntry_unlimited (fs : FileSystem) (cpp java python : Bool)
    (level : Nat) (e : Entry) (s : AppWindow) :
    openFolderEntry fs cpp java python (-1) e s =
      openTabs fs (((entryFiles level e).filter
        (fun f => accepted cpp java python f.suffix)).map TreeFile.filePath) s := by
  cases e with
  | file sfx p =>
    rw [openFolderEntry, entryFiles]
    by_cases h : accepted cpp java python sfx = true
    · rw [if_pos h]
      simp only [List.filter_cons, h, if_true, List.filter_nil, List.map_cons, List.map_nil]
      rw [openTabs_single]
    · rw [if_neg h]
      simp only [List.filter_cons, h, if_false, List.filter_nil, List.map_nil]
      rfl
  | dir p sub =>
    rw [openFolderEntry, entryFiles]
    simp only [gt_iff_lt, Int.reduceNeg, Int.reduceLT, if_false, if_true]
    exact openFolder_unlimited fs p cpp java python (level + 1) sub s
theorem openFolder_unlimited (fs : FileSystem) (path : String) (cpp java python : Bool)
    (level : Nat) (l : List Entry) (s : AppWindow) :
    openFolder fs path cpp java python (-1) l s =
      openTabs fs (((treeFiles level l).filter
        (fun f => accepted cpp java python f.suffix)).map TreeFile.filePath) s := by
  cases l with
  | nil =>
    rw [openFolder, treeFiles]
    rfl
  | cons e rest =>
    rw [openFolder, treeFiles, List.filter_append, List.map_append, openTabs_append,
      openFolderEntry_unlimited fs cpp java python level e s]
    congr 1
    funext t
    exact openFolder_unlimited fs path cpp java python level rest t
end

mutual
theorem openFolderEntry_limited (fs : FileSystem) (cpp java python : Bool)
    (k level : Nat) (e : Entry) (s : AppWindow) :
    openFolderEntry fs cpp java python (k : Int) e s =
      openTabs fs (((entryFiles level e).filter
        (fun f => accepted cpp java python f.suffix &&
          decide (f.level ≤ level + k))).map TreeFile.filePath) s := by
  cases e with
  | file sfx p =>
    rw [openFolderEntry, entryFiles]
    have hk : decide (level ≤ level + k) = true := by simp
    by_cases h : accepted cpp java python sfx = true
    · rw [if_pos h]
      simp only [List.filter_cons, h, hk, Bool.and_self, if_true, List.filter_nil, List.map_cons,
        List.map_nil]
      rw [openTabs_single]
    · rw [if_neg h]
      simp only [List.filter_cons, h, Bool.false_and, if_false, List.filter_nil, List.map_nil]
      rfl
  | dir p sub =>
    rw [openFolderEntry, entryFiles]
    cases k with
    | zero =>
      have hnil : (treeFiles (level + 1) sub).filter
          (fun f => accepted cpp java python f.suffix &&
            decide (f.level ≤ level + 0)) = [] := by
        rw [List.filter_eq_nil_iff]
        intro f hf
        have := treeFiles_level _ _ f hf
        simp only [Bool.and_eq_true, decide_eq_true_eq, not_and]
        intro _
        omega
      rw [hnil]
      simp only [Nat.cast_zero, gt_iff_lt, lt_self_iff_false, if_false, Int.reduceNeg]
      rfl
    | succ k =>
      have h1 : ((k + 1 : Nat) : Int) > 0 := by omega
      rw [if_pos h1]
      have h2 : ((k + 1 : Nat) : Int) - 1 = (k : Int) := by omega
      rw [h2, openFolder_limited fs p cpp java python k (level + 1) sub s]
      have h3 : level + 1 + k = level + (k + 1) := by omega
      rw [h3]
theorem openFolder_limited (fs : FileSystem) (path : String) (cpp java python : Bool)
    (k level : Nat) (l : List Entry) (s : AppWindow) :
    openFolder fs path cpp java python (k : Int) l s =
      openTabs fs (((treeFiles level l).filter
        (fun f => accepted cpp java python f.suffix &&
          decide (f.level ≤ level + k))).map TreeFile.filePath) s := by
  cases l with
  | nil =>
    rw [openFolder, treeFiles]
    rfl
  | cons e rest =>
    rw [openFolder, treeFiles, List.filter_append, List.map_append, openTabs_append,
      openFolderEntry_limited fs cpp java python k level e s]
    congr 1
    funext t
    exact openFolder_limited fs path cpp java python k level rest t
end

theorem openFolder_below (fs : FileSystem) (path : String) (cpp java python : Bool)
    (depth : Int) (hd : depth < -1) (l : List Entry) (s : AppWindow) :
    openFolder fs path cpp java python depth l s = openFolder fs path cpp java python 0 l s := by
  induction l generalizing s with
  | nil => rw [openFolder, openFolder]
  | cons e rest ih =>
    rw [openFolder, openFolder]
    have he : openFolderEntry fs cpp java python depth e s =
        openFolderEntry fs cpp java python 0 e s := by
      cases e with
      | file sfx p => rw [openFolderEntry, openFolderEntry]
      | dir p sub =>
        rw [openFolderEntry, openFolderEntry]
        have h1 : ¬ depth > 0 := by omega
        have h2 : ¬ depth = -1 := by omega
        simp [h1, h2]
    rw [he]
    congr 1
    funext t
    exact ih t

theorem openFolder_eq_openTabs (fs : FileSystem) (path : String) (cpp java python : Bool)
    (depth : Int) (l : List Entry) (s : AppWindow) :
    openFolder fs path cpp java python depth l s =
      openTabs fs (((treeFiles 0 l).filter
        (fun f => accepted cpp java python f.suffix &&
          decide (depth = -1 ∨ (f.level : Int) ≤ max depth 0))).map TreeFile.filePath) s := by
  rcases lt_trichotomy depth (-1) with h | h | h
  · rw [openFolder_below fs path cpp java python depth h]
    have h0 := openFolder_limited fs path cpp java python 0 0 l s
    rw [Nat.cast_zero] at h0
    rw [h0]
    congr 3
    funext f
    congr 1
    apply decide_eq_decide.mpr
    have : max depth 0 = 0 := max_eq_right (by omega)
    rw [this]
    omega
  · rw [h, openFolder_unlimited fs path cpp java python 0 l s]
    congr 3
    funext f
    simp
  · have hd : depth = (depth.toNat : Int) := by omega
    have hm : max depth 0 = depth := max_eq_left (by omega)
    rw [hm]
    conv_lhs => rw [hd]
    rw [openFolder_limited fs path cpp java python depth.toNat 0 l s]
    congr 3
    funext f
    congr 1
    apply decide_eq_decide.mpr
    omega

/-- C15: `openFolder` returns for every finite directory tree and every depth.
For `depth ≥ 0` it gives to `openTab`, in the order of the walk, exactly the
canonical paths of the files of the tree that have an accepted suffix and lie
at most `depth` directory levels below the root; for `depth = -1` those of all
files with an accepted suffix; for `depth < -1` it does what it does for depth
0, so it gives only the files directly in the root. -/
theorem openFolder_depth_limit (fs : FileSystem) (path : String) (cpp java python : Bool)
    (depth : Int) (entries : List Entry) (s : AppWindow) :
    (∃ t, openFolder fs path cpp java python depth entries s = some t) ∧
    (0 ≤ depth → openFolder fs path cpp java python depth entries s =
      openTabs fs (((treeFiles 0 entries).filter
        (fun f => accepted cpp java python f.suffix &&
          decide ((f.level : Int) ≤ depth))).map TreeFile.filePath) s) ∧
    (depth = -1 → openFolder fs path cpp java python depth entries s =
      openTabs fs (((treeFiles 0 entries).filter
        (fun f => accepted cpp java python f.suffix)).map TreeFile.filePath) s) ∧
    (depth < -1 →
      openFolder fs path cpp java python depth entries s =
        openFolder fs path cpp java python 0 entries s ∧
      openFolder fs path cpp java python depth entries s =
        openTabs fs (((treeFiles 0 entries).filter
          (fun f => accepted cpp java python f.suffix &&
            decide (f.level = 0))).map TreeFile.filePath) s) := by
  refine ⟨?_, ?_, ?_, ?_⟩
  · rw [openFolder_eq_openTabs]
    exact openTabs_total fs _ s
  · intro h
    have hd : depth = (depth.toNat : Int) := by omega
    rw [hd, openFolder_limited fs path cpp java python depth.toNat 0 entries s]
    congr 3
    funext f
    congr 1
    apply decide_eq_decide.mpr
    omega
  · intro h
    rw [h]
    exact openFolder_unlimited fs path cpp java python 0 entries s
  · intro h
    refine ⟨openFolder_below fs path cpp java python depth h entries s, ?_⟩
    rw [openFolder_below fs path cpp java python depth h entries s]
    have := openFolder_limited fs path cpp java python 0 0 entries s
    simp only [Nat.cast_zero, add_zero, Nat.le_zero_eq] at this
    exact this

/-- In a tree with files at three levels, opened through the relative path `r`,
depth 1 opens the accepted files of the first two levels under their canonical
paths. -/
theorem openFolder_depth_limit_witness :
    (0 : Int) ≤ 1 ∧
      openFolder Sample.files "r" true true true 1
          [Entry.file "cpp" "/home/r/a.cpp", Entry.dir "/home/r/d" [Entry.file "py"
            "/home/r/d/b.py", Entry.dir "/home/r/d/e" [Entry.file "java" "/home/r/d/e/c.java"]],
            Entry.file "txt" "/home/r/x.txt"] Sample.emptyWindow =
        openTabs Sample.files (((treeFiles 0
          [Entry.file "cpp" "/home/r/a.cpp", Entry.dir "/home/r/d" [Entry.file "py"
            "/home/r/d/b.py", Entry.dir "/home/r/d/e" [Entry.file "java" "/home/r/d/e/c.java"]],
            Entry.file "txt" "/home/r/x.txt"]).filter
          (fun f => accepted true true true f.suffix &&
            decide ((f.level : Int) ≤ 1))).map TreeFile.filePath) Sample.emptyWindow ∧
      ((treeFiles 0
          [Entry.file "cpp" "/home/r/a.cpp", Entry.dir "/home/r/d" [Entry.file "py"
            "/home/r/d/b.py", Entry.dir "/home/r/d/e" [Entry.file "java" "/home/r/d/e/c.java"]],
            Entry.file "txt" "/home/r/x.txt"]).filter
          (fun f => accepted true true true f.suffix &&
            decide ((f.level : Int) ≤ 1))).map TreeFile.filePath =
        ["/home/r/a.cpp", "/home/r/d/b.py"] :=
  ⟨by decide,
    (openFolder_depth_limit Sample.files "r" true true true 1
      [Entry.file "cpp" "/home/r/a.cpp", Entry.dir "/home/r/d" [Entry.file "py"
        "/home/r/d/b.py", Entry.dir "/home/r/d/e" [Entry.file "java" "/home/r/d/e/c.java"]],
        Entry.file "txt" "/home/r/x.txt"] Sample.emptyWindow).2.1 (by decide),
    by decide⟩

end CPEditor

/-! ## C16: the folder filter and the language of a path -/

namespace CPEditor
open AppWindow

theorem endsWith_ending (p sfx : String) (h : endsWith p ("." ++ sfx) = true) :
    ∃ pre : List Char, p.toList = pre ++ '.' :: sfx.toList := by
  unfold endsWith at h
  obtain ⟨pre, hpre⟩ := List.isSuffixOf_iff_suffix.mp h
  refine ⟨pre, ?_⟩
  rw [← hpre]
  simp [String.toList]

theorem languageFor_ending (p d : String) (pre : List Char) (sfx : String)
    (h : p.toList = pre ++ '.' :: sfx.toList) :
    (sfx ∈ ["cpp", "hpp", "h", "cc", "cxx", "c"] → languageFor p d = "C++") ∧
    (sfx = "java" → languageFor p d = "Java") ∧
    (sfx ∈ ["py", "py3"] → languageFor p d = "Python") := by
  have key : ∀ e : String, endsWith p e = e.toList.reverse.isPrefixOf
      (sfx.toList.reverse ++ '.' :: pre.reverse) := by
    intro e
    unfold endsWith
    rw [List.isSuffixOf, h]
    simp
  refine ⟨?_, ?_, ?_⟩
  · intro hs
    simp only [List.mem_cons, List.mem_singleton, List.mem_nil_iff, or_false] at hs
    unfold languageFor
    rcases hs with rfl | rfl | rfl | rfl | rfl | rfl <;> simp [key, String.toList]
  · intro hs
    subst hs
    unfold languageFor
    simp [key, String.toList]
  · intro hs
    simp only [List.mem_cons, List.mem_singleton, List.mem_nil_iff, or_false] at hs
    unfold languageFor
    rcases hs with rfl | rfl <;> simp [key, String.toList]

theorem openFolder_single_file (fs : FileSystem) (path : String) (cpp java python : Bool)
    (depth : Int) (sfx p : String) (s : AppWindow)
    (h : accepted cpp java python sfx = true) :
    openFolder fs path cpp java python depth [Entry.file sfx p] s = openTab fs p false s := by
  rw [openFolder, openFolderEntry, if_pos h]
  cases openTab fs p false s with
  | none => rfl
  | some t => exact (Option.some_bind _ _).trans (by rw [openFolder])

/-- C16, as stated, fails: an entry with the suffix `cpp` whose canonical path
is `/home/notes.txt` (a link `a.cpp` to that file) is opened, and its tab gets
the default language, here Java, not C++. -/
theorem link_opened_with_default_language :
    ¬ ∀ (fs : FileSystem) (path : String) (cpp java python : Bool) (depth : Int)
        (sfx p : String) (s : AppWindow),
      accepted cpp java python sfx = true →
      (if fs.fileExists p then
        firstTab (fun tmp => fs.sameFile p tmp.filePath) s.tabs 0 else none) = none →
      ∃ t w, openFolder fs path cpp java python depth [Entry.file sfx p] s = some t ∧
        t.tabs = s.tabs ++ [w] ∧
        (sfx ∈ ["cpp", "hpp", "h", "cc", "cxx", "c"] → w.language = "C++") ∧
        (sfx = "java" → w.language = "Java") ∧
        (sfx ∈ ["py", "py3"] → w.language = "Python") := by
  intro h
  have hnew : (if Sample.files.fileExists "/home/notes.txt" then
      firstTab (fun tmp => Sample.files.sameFile "/home/notes.txt" tmp.filePath)
        Sample.javaWindow.tabs 0 else none) = none := by decide
  obtain ⟨t, w, e, ht, hcpp, _, _⟩ :=
    h Sample.files "/home" true false false 0 "cpp" "/home/notes.txt" Sample.javaWindow
      (by decide) hnew
  rw [openFolder_single_file _ _ _ _ _ _ _ _ _ (by decide)] at e
  obtain ⟨t2, w2, index, e2, ht2, _, _, hed, _, _⟩ := openTab_file_new hnew
  rw [e] at e2
  cases e2
  rw [ht] at ht2
  have hw : w = w2 := by
    have := List.append_cancel_left ht2
    simpa using this
  have hl : w2.language = "Java" := by
    have := congrArg Editor.language hed
    have hj : languageFor "/home/notes.txt" Sample.javaWindow.settingManager.defaultLang =
        "Java" := by decide
    exact this.trans hj
  rw [hw, hl] at hcpp
  exact absurd (hcpp (by decide)) (by decide)

/-- C16: `openFolder` gives to `openTab` the canonical paths of exactly those
files, among the files within the depth limit, for which (`cpp` is set and the
suffix is one of cpp, hpp, h, cc, cxx, c) or (`java` is set and the suffix is
java) or (`python` is set and the suffix is py or py3); with all three flags
false it opens nothing. For a file whose canonical path ends in `.` and its
suffix, the language `openTab` chooses is C++, Java or Python respectively,
whatever the default language is, and the tab opened for the file has this
language. A path with none of the nine endings gets the default language;
endings are compared case-sensitively. -/
theorem folder_filter_language_agree (fs : FileSystem) (path : String) (cpp java python : Bool)
    (depth : Int) :
    (∀ (entries : List Entry) (s : AppWindow),
      openFolder fs path cpp java python depth entries s =
        openTabs fs (((treeFiles 0 entries).filter (fun f =>
          decide ((cpp = true ∧ f.suffix ∈ ["cpp", "hpp", "h", "cc", "cxx", "c"]) ∨
            (java = true ∧ f.suffix = "java") ∨
            (python = true ∧ f.suffix ∈ ["py", "py3"])) &&
          decide (depth = -1 ∨ (f.level : Int) ≤ max depth 0))).map TreeFile.filePath) s) ∧
    (∀ (entries : List Entry) (s : AppWindow),
      openFolder fs path false false false depth entries s = some s) ∧
    (∀ (sfx p : String) (s : AppWindow),
      accepted cpp java python sfx = true → endsWith p ("." ++ sfx) = true →
      (if fs.fileExists p then
        firstTab (fun tmp => fs.sameFile p tmp.filePath) s.tabs 0 else none) = none →
      ∃ t w, openFolder fs path cpp java python depth [Entry.file sfx p] s = some t ∧
        t.tabs = s.tabs ++ [w] ∧ w.filePath = p ∧
        (sfx ∈ ["cpp", "hpp", "h", "cc", "cxx", "c"] → w.language = "C++") ∧
        (sfx = "java" → w.language = "Java") ∧
        (sfx ∈ ["py", "py3"] → w.language = "Python")) ∧
    (∀ sfx p d : String, endsWith p ("." ++ sfx) = true →
      (sfx ∈ ["cpp", "hpp", "h", "cc", "cxx", "c"] → languageFor p d = "C++") ∧
      (sfx = "java" → languageFor p d = "Java") ∧
      (sfx ∈ ["py", "py3"] → languageFor p d = "Python")) ∧
    (∀ p d : String,
      (∀ e, e ∈ [".java", ".py", ".py3", ".cpp", ".cxx", ".c", ".cc", ".hpp", ".h"] →
        endsWith p e = false) → languageFor p d = d) ∧
    (∀ d : String, languageFor "/r/MAIN.CPP" d = d) := by
  have hacc : ∀ sfx : String, accepted cpp java python sfx =
      decide ((cpp = true ∧ sfx ∈ ["cpp", "hpp", "h", "cc", "cxx", "c"]) ∨
        (java = true ∧ sfx = "java") ∨ (python = true ∧ sfx ∈ ["py", "py3"])) := by
    intro sfx
    rw [Bool.eq_iff_iff]
    unfold accepted
    cases cpp <;> cases java <;> cases python <;> simp [or_assoc]
  have hlang : ∀ sfx p d : String, endsWith p ("." ++ sfx) = true →
      (sfx ∈ ["cpp", "hpp", "h", "cc", "cxx", "c"] → languageFor p d = "C++") ∧
      (sfx = "java" → languageFor p d = "Java") ∧
      (sfx ∈ ["py", "py3"] → languageFor p d = "Python") := by
    intro sfx p d h
    obtain ⟨pre, hpre⟩ := endsWith_ending p sfx h
    exact languageFor_ending p d pre sfx hpre
  refine ⟨?_, ?_, ?_, hlang, ?_, ?_⟩
  · intro entries s
    rw [openFolder_eq_openTabs]
    congr 3
    funext f
    rw [hacc]
  · intro entries s
    rw [openFolder_eq_openTabs]
    have : (treeFiles 0 entries).filter
        (fun f => accepted false false false f.suffix &&
          decide (depth = -1 ∨ (f.level : Int) ≤ max depth 0)) = [] := by
      rw [List.filter_eq_nil_iff]
      intro f _
      simp [accepted]
    rw [this]
    rfl
  · intro sfx p s hacc2 hend hnew
    obtain ⟨t, w, index, e, ht, _, _, hed, _, _⟩ := openTab_file_new hnew
    have hl : w.language = languageFor p s.settingManager.defaultLang := by
      have := congrArg Editor.language hed
      exact this
    have hp : w.filePath = p := by
      have := congrArg Editor.filePath hed
      exact this
    refine ⟨t, w, ?_, ht, hp, ?_, ?_, ?_⟩
    · rw [openFolder_single_file _ _ _ _ _ _ _ _ _ hacc2]
      exact e
    · intro h
      rw [hl]
      exact (hlang sfx p _ hend).1 h
    · intro h
      rw [hl]
      exact (hlang sfx p _ hend).2.1 h
    · intro h
      rw [hl]
      exact (hlang sfx p _ hend).2.2 h
  · intro p d h
    unfold languageFor
    simp [h]
  · intro d
    unfold languageFor
    simp [endsWith, String.toList, List.isSuffixOf]

/-- The file `/home/r/a.py` is opened when the Python flag is set, and its tab
has the language Python although the default language is Java. -/
theorem folder_filter_language_agree_witness :
    accepted false false true "py" = true ∧
      endsWith "/home/r/a.py" ("." ++ "py") = true ∧
      (if Sample.files.fileExists "/home/r/a.py" then
        firstTab (fun tmp => Sample.files.sameFile "/home/r/a.py" tmp.filePath)
          Sample.javaWindow.tabs 0
        else none) = none ∧
      "py" ∈ ["py", "py3"] ∧
      ∃ t w, openFolder Sample.files "r" false false true 0 [Entry.file "py" "/home/r/a.py"]
          Sample.javaWindow = some t ∧
        t.tabs = Sample.javaWindow.tabs ++ [w] ∧ w.language = "Python" :=
  ⟨by decide, by decide, by decide, by decide,
    ((folder_filter_language_agree Sample.files "r" false false true 0).2.2.1
      "py" "/home/r/a.py" Sample.javaWindow (by decide) (by decide) (by decide)).imp
      (fun _ h => h.imp (fun _ h2 => ⟨h2.1, h2.2.1, h2.2.2.2.2.2 (by decide)⟩))⟩

end CPEditor

/-! ## C17: the hot-exit round trip and the constructors -/

namespace CPEditor
open AppWindow

theorem applySettings_uiStep (s : AppWindow) :
    UiStep s s.applySettings ∧ s.applySettings.currentIndex = s.currentIndex := by
  have base : UiStep s { s with actionAutosave := s.settingManager.autoSave } :=
    uiStep_of_eq rfl rfl
  unfold applySettings
  dsimp only
  split
  · exact ⟨uiStep_trans base (editorMode_uiStep _), by simp⟩
  · exact ⟨uiStep_trans base (ioMode_uiStep _), by simp⟩
  · exact ⟨uiStep_trans base (splitMode_uiStep _), by simp⟩

theorem construct_start (s : AppWindow) (ht : s.tabs = []) (hc : s.currentIndex = -1) :
    ∃ s1, onSettingsApplied (applySettings s) = some s1 ∧ s1.tabs = [] ∧
      s1.currentIndex = -1 ∧ ∃ v, s1.settingManager = s.settingManager.setViewMode v := by
  obtain ⟨u, c⟩ := applySettings_uiStep s
  have hci : s.applySettings.currentIndex = -1 := by rw [c, hc]
  have ht1 : s.applySettings.tabs = [] := by
    have := u.1
    rw [ht] at this
    exact List.forall₂_nil_left_iff.mp this
  have hsome : onTabChanged s.applySettings.currentIndex
      { s.applySettings with diagonistics := true } =
      some { s.applySettings with diagonistics := true } := by
    unfold onTabChanged
    rw [if_pos hci]
  refine ⟨onEditorChanged { s.applySettings with diagonistics := true }, ?_, ht1, hci, u.2⟩
  unfold onSettingsApplied
  rw [hsome]
  rfl

theorem openTab_untitled_new (fs : FileSystem) (s : AppWindow) :
    ∃ s2 w2, openTab fs "" false s = some s2 ∧ s2.tabs = s.tabs ++ [w2] ∧
      s2.currentIndex = s.count ∧ w2.filePath = "" ∧
      ∃ v, s2.settingManager = s.settingManager.setViewMode v := by
  have h : (if fs.fileExists "" then
      firstTab (fun tmp => fs.sameFile "" tmp.filePath) s.tabs 0 else none) = none := by
    simp [FileSystem.fileExists]
  obtain ⟨s2, w2, index, e, ht, hc, _, hed, _, hv⟩ := openTab_file_new h
  exact ⟨s2, w2, e, ht, hc, congrArg Editor.filePath hed, hv⟩

theorem restoreLoop_spec (fs : FileSystem) (fuel : Nat) (i : Int) (s : AppWindow)
    (hfuel : (s.settingManager.numberOfTabs - i).toNat < fuel) :
    ∃ t L, restoreLoop fs fuel i s = some t ∧ t.tabs = s.tabs ++ L ∧
      L.length = (s.settingManager.numberOfTabs - i).toNat ∧
      (∀ k : Nat, k < L.length → (L[k]?).map MainWindow.toStatus =
        some (EditorStatus.ofMap (s.settingManager.getEditorStatus (i + k)))) ∧
      (∃ v, t.settingManager = s.settingManager.setViewMode v) ∧
      (i < s.settingManager.numberOfTabs → t.currentIndex = t.count - 1) ∧
      (s.settingManager.numberOfTabs ≤ i → t = s) := by
  induction fuel generalizing i s with
  | zero => omega
  | succ fuel ih =>
    unfold restoreLoop
    by_cases hi : i < s.settingManager.numberOfTabs
    · rw [if_pos hi]
      obtain ⟨s1, w2, e1, ht1, hc1, _, v1, hv1⟩ := openTab_untitled_new fs s
      rw [e1]
      simp only [Option.some_bind]
      have hcur : s1.currentWindow = some w2 := by
        rw [currentWindow_eq_widget (by rw [hc1]; exact Int.natCast_nonneg _), hc1]
        exact widget_last ht1
      rw [hcur]
      dsimp only
      have hn1 : s1.settingManager.numberOfTabs = s.settingManager.numberOfTabs := by
        rw [hv1]; rfl
      have hg1 : ∀ key, s1.settingManager.getEditorStatus key =
          s.settingManager.getEditorStatus key := by
        intro key; rw [hv1]; rfl
      obtain ⟨t, L, e, ht, hL, hst, ⟨v, hv⟩, hcur2, hsame⟩ := ih (i + 1)
        (s1.setWidget s1.currentIndex (w2.loadStatus
          (EditorStatus.ofMap (s1.settingManager.getEditorStatus i))))
        (by simp only [setWidget_settingManager, hn1]; omega)
      simp only [setWidget_settingManager, hn1] at hL hcur2 hsame hst
      have htabs3 : (s1.setWidget s1.currentIndex (w2.loadStatus
          (EditorStatus.ofMap (s1.settingManager.getEditorStatus i)))).tabs =
          s.tabs ++ [w2.loadStatus (EditorStatus.ofMap (s.settingManager.getEditorStatus i))] := by
        rw [hc1, hg1]
        exact setWidget_last ht1 _
      refine ⟨t, w2.loadStatus (EditorStatus.ofMap (s.settingManager.getEditorStatus i)) :: L,
        e, ?_, ?_, ?_, ?_, ?_, ?_⟩
      · rw [ht, htabs3]
        simp
      · simp only [List.length_cons, hL]
        omega
      · intro k hk
        cases k with
        | zero =>
          simp [MainWindow.toStatus, MainWindow.loadStatus]
        | succ k =>
          simp only [List.length_cons] at hk
          have := hst k (by omega)
          simp only [List.getElem?_cons_succ]
          rw [this, hg1]
          congr 3
          push_cast
          omega
      · refine ⟨v, ?_⟩
        rw [hv, setWidget_settingManager, hv1]
        rfl
      · intro _
        by_cases hlast : i + 1 < s.settingManager.numberOfTabs
        · exact hcur2 hlast
        · have := hsame (by omega)
          rw [this]
          simp only [setWidget_currentIndex, count, setWidget_length, hc1, ht1]
          simp
      · intro h
        omega
    · rw [if_neg hi]
      refine ⟨s, [], rfl, by simp, ?_, by simp, ⟨_, rfl⟩, fun h => absurd h hi, fun _ => rfl⟩
      simp only [List.length_nil]
      omega

end CPEditor

namespace CPEditor
open AppWindow

theorem toStatus_getElem?_refreshed {l1 l2 : List MainWindow}
    (h : List.Forall₂ Refreshed l1 l2) (k : Nat) :
    (l2[k]?).map MainWindow.toStatus = (l1[k]?).map MainWindow.toStatus := by
  have hst : ∀ l : List MainWindow, (l[k]?).map MainWindow.toStatus =
      ((l.map MainWindow.toEditor)[k]?).map (fun e : Editor =>
        ({ filePath := e.filePath, untitledIndex := e.untitledIndex,
           problemURL := e.problemURL, language := e.language,
           textChanged := e.textChanged } : EditorStatus)) := by
    intro l
    rw [List.getElem?_map, Option.map_map]
    rfl
  rw [hst l2, hst l1, tabsRefreshed_map_toEditor h]

theorem tabsRefreshed_length {l1 l2 : List MainWindow} (h : List.Forall₂ Refreshed l1 l2) :
    l2.length = l1.length := (List.Forall₂.length_eq h).symm

theorem construct_cold (fs : FileSystem) (m : SettingManager) (noHotExit : Bool)
    (h : noHotExit = true ∨ m.useHotExit = false) :
    ∃ t, construct fs m noHotExit = some t ∧ t.tabs = [] ∧ t.currentIndex = -1 ∧
      ∃ v, t.settingManager = m.setViewMode v := by
  obtain ⟨s1, e1, ht1, hc1, v1, hv1⟩ := construct_start
    { tabs := [], currentIndex := -1, settingManager := m, actionEditor_Mode := false,
      actionIO_Mode := false, actionSplit_Mode := false, actionAutosave := false,
      diagonistics := false, editorChangeApply := false } rfl rfl
  have hhot : s1.settingManager.useHotExit = m.useHotExit := by rw [hv1]; rfl
  refine ⟨s1, ?_, ht1, hc1, v1, hv1⟩
  unfold construct
  dsimp only
  rw [e1]
  simp only [Option.some_bind]
  rw [if_neg]
  rw [hhot]
  rcases h with h | h <;> simp [h]

theorem construct_restores (fs : FileSystem) (m : SettingManager) (hhot : m.useHotExit = true) :
    ∃ t, construct fs m false = some t ∧ t.tabs.length = m.numberOfTabs.toNat ∧
      (∀ k : Nat, k < t.tabs.length → (t.tabs[k]?).map MainWindow.toStatus =
        some (EditorStatus.ofMap (m.getEditorStatus k))) ∧
      (0 ≤ m.currentIndex ∧ m.currentIndex < m.numberOfTabs → t.currentIndex = m.currentIndex) ∧
      (¬ (0 ≤ m.currentIndex ∧ m.currentIndex < m.numberOfTabs) →
        t.currentIndex = (m.numberOfTabs.toNat : Int) - 1) ∧
      ∃ v, t.settingManager = m.setViewMode v := by
  obtain ⟨s1, e1, ht1, hc1, v1, hv1⟩ := construct_start
    { tabs := [], currentIndex := -1, settingManager := m, actionEditor_Mode := false,
      actionIO_Mode := false, actionSplit_Mode := false, actionAutosave := false,
      diagonistics := false, editorChangeApply := false } rfl rfl
  have hv1m : s1.settingManager = m.setViewMode v1 := hv1
  have hhot1 : s1.settingManager.useHotExit = true := by rw [hv1m]; exact hhot
  have hn1 : s1.settingManager.numberOfTabs = m.numberOfTabs := by rw [hv1m]; rfl
  have hg1 : ∀ key, s1.settingManager.getEditorStatus key = m.getEditorStatus key := by
    intro key; rw [hv1m]; rfl
  obtain ⟨s2, L, e2, ht2, hL, hst, ⟨v2, hv2⟩, hcur2, hsame2⟩ :=
    restoreLoop_spec fs (s1.settingManager.numberOfTabs.toNat + 1) 0 s1
      (by simp only [sub_zero]; omega)
  rw [ht1, List.nil_append] at ht2
  simp only [sub_zero, hn1] at hL
  have hn2 : s2.settingManager.numberOfTabs = m.numberOfTabs := by rw [hv2, ← hn1]; rfl
  have hc2 : s2.settingManager.currentIndex = m.currentIndex := by rw [hv2, hv1m]; rfl
  have hcount2 : s2.count = (m.numberOfTabs.toNat : Int) := by
    unfold count; rw [ht2, hL]
  have hcurrent2 : s2.currentIndex = (m.numberOfTabs.toNat : Int) - 1 := by
    by_cases hpos : 0 < m.numberOfTabs
    · rw [hcur2 (by rw [hn1]; exact hpos), hcount2]
    · rw [hsame2 (by rw [hn1]; omega), hc1]
      omega
  have hst2 : ∀ k : Nat, k < s2.tabs.length → (s2.tabs[k]?).map MainWindow.toStatus =
      some (EditorStatus.ofMap (m.getEditorStatus k)) := by
    intro k hk
    rw [ht2] at hk ⊢
    rw [hst k hk, hg1]
    simp
  have hstart : construct fs m false =
      (if s2.settingManager.currentIndex ≥ 0 ∧
          s2.settingManager.currentIndex < s2.settingManager.numberOfTabs then
        setCurrentIndex s2.settingManager.currentIndex s2 else some s2) := by
    unfold construct
    dsimp only
    rw [e1]
    simp only [Option.some_bind]
    rw [if_pos (by simp [hhot1]), e2]
    rfl
  by_cases hin : 0 ≤ m.currentIndex ∧ m.currentIndex < m.numberOfTabs
  · obtain ⟨s3, e3, u3, hc3⟩ := setCurrentIndex_valid (s := s2) hin.1
      (by rw [hcount2]; omega)
    refine ⟨s3, ?_, ?_, ?_, fun _ => hc3, fun hne => absurd hin hne, ?_⟩
    · rw [hstart, hc2, hn2, if_pos (And.intro (ge_iff_le.mpr hin.1) hin.2)]
      exact e3
    · rw [tabsRefreshed_length u3.1, ht2, hL]
    · intro k hk
      rw [tabsRefreshed_length u3.1] at hk
      rw [toStatus_getElem?_refreshed u3.1 k]
      exact hst2 k hk
    · obtain ⟨v3, hv3⟩ := u3.2
      exact ⟨v3, by rw [hv3, hv2, hv1m]; rfl⟩
  · refine ⟨s2, ?_, by rw [ht2, hL], hst2, fun h => absurd h hin, fun _ => hcurrent2, ?_⟩
    · rw [hstart, hc2, hn2, if_neg (fun h => hin ⟨ge_iff_le.mp h.1, h.2⟩)]
    · exact ⟨v2, by rw [hv2, hv1m]; rfl⟩

theorem construct_total (fs : FileSystem) (m : SettingManager) (noHotExit : Bool) :
    ∃ t, construct fs m noHotExit = some t := by
  by_cases h : noHotExit = true ∨ m.useHotExit = false
  · obtain ⟨t, e, _⟩ := construct_cold fs m noHotExit h
    exact ⟨t, e⟩
  · have h1 : noHotExit = false := by
      cases noHotExit
      · rfl
      · exact absurd (Or.inl rfl) h
    have h2 : m.useHotExit = true := by
      cases hm : m.useHotExit
      · exact absurd (Or.inr hm) h
      · rfl
    obtain ⟨t, e, _⟩ := construct_restores fs m h2
    exact ⟨t, by rw [h1]; exact e⟩

end CPEditor

namespace CPEditor
open AppWindow

theorem saveStatusLoop_useHotExit (k i : Nat) (s t : AppWindow)
    (h : saveStatusLoop k i s = some t) :
    t.settingManager.useHotExit = s.settingManager.useHotExit := by
  induction k generalizing i s with
  | zero =>
    unfold saveStatusLoop at h
    cases h
    rfl
  | succ k ih =>
    unfold saveStatusLoop at h
    split at h
    · simp at h
    · exact (ih _ _ h).trans rfl

theorem quit_stored (s : AppWindow) (hhot : s.settingManager.useHotExit = true) :
    ∃ q, quit s = some (true, q) ∧ q.settingManager.useHotExit = true ∧
      ((∃ w, s.tabs = [w] ∧ w.isUntitled = true ∧ w.textChanged = false) →
        q.settingManager.numberOfTabs = 0 ∧ q.settingManager.currentIndex = -1) ∧
      ((¬ ∃ w, s.tabs = [w] ∧ w.isUntitled = true ∧ w.textChanged = false) →
        q.settingManager.numberOfTabs = s.count ∧
        q.settingManager.currentIndex = s.currentIndex ∧
        ∀ key : Int, q.settingManager.getEditorStatus key =
          if 0 ≤ key ∧ key < s.count then (s.tabs[key.toNat]?).map MainWindow.toStatus
          else none) := by
  by_cases hsingle : ∃ w, s.tabs = [w] ∧ w.isUntitled = true ∧ w.textChanged = false
  · obtain ⟨w, hw, hu, htc⟩ := hsingle
    refine ⟨{ s with settingManager := { s.settingManager.clearEditorStatus with
        numberOfTabs := 0, currentIndex := -1 } }, ?_, hhot, fun _ => ⟨rfl, rfl⟩,
      fun hneg => absurd ⟨w, hw, hu, htc⟩ hneg⟩
    unfold quit
    simp [SettingManager.clearEditorStatus, hhot, count, hw, windowIndex, widget, hu, htc]
  · obtain ⟨t, e, ht, hc, hn, hci, hget⟩ := saveStatusLoop_spec s.tabs.length 0
      { s with settingManager := { s.settingManager.clearEditorStatus with
          numberOfTabs := s.count, currentIndex := s.currentIndex } } (by simp)
    have hhot2 := saveStatusLoop_useHotExit _ _ _ _ e
    refine ⟨t, ?_, by rw [hhot2]; exact hhot, fun hpos => absurd hpos hsingle,
      fun _ => ⟨hn, hci, ?_⟩⟩
    · have hflag : (if ({ s with settingManager := s.settingManager.clearEditorStatus } :
            AppWindow).count = 1 then
          (({ s with settingManager := s.settingManager.clearEditorStatus } :
            AppWindow).windowIndex 0).map (fun w => w.isUntitled && !w.textChanged)
          else some false) = some false := by
        split
        · next hone =>
          have hlen : s.tabs.length = 1 := by simpa [count] using hone
          obtain ⟨w, hw⟩ : ∃ w, s.tabs = [w] := List.length_eq_one.mp hlen
          have hnot : (w.isUntitled && !w.textChanged) = false := by
            by_contra hne
            apply hsingle
            refine ⟨w, hw, ?_, ?_⟩
            · cases hu : w.isUntitled <;> simp_all
            · cases hu : w.textChanged <;> simp_all
          simp [windowIndex, widget, hw, hnot]
        · rfl
      unfold quit
      dsimp only
      rw [if_pos (by simpa [SettingManager.clearEditorStatus] using hhot), hflag]
      simp only [Option.some_bind, Bool.false_eq_true, if_false]
      exact congrArg (Option.map fun s1 => (true, s1)) e
    · intro key
      rw [hget key]
      simp only [count, Nat.cast_zero, zero_add]
      split
      · rfl
      · rfl

theorem openFolder_total (fs : FileSystem) (path : String) (cpp java python : Bool)
    (depth : Int) (entries : List Entry) (s : AppWindow) :
    ∃ t, openFolder fs path cpp java python depth entries s = some t := by
  rw [openFolder_eq_openTabs]
  exact openTabs_total fs _ s

theorem constructPaths_spec (fs : FileSystem) (tree : String → List Entry)
    (m : SettingManager) (depth : Int) (cpp java python noHotExit : Bool)
    (paths : List String) :
    ∃ t, constructPaths fs tree m depth cpp java python noHotExit paths = some t ∧
      1 ≤ t.tabs.length := by
  obtain ⟨s0, e0⟩ := construct_total fs m noHotExit
  have hloop : ∀ (l : List String) (s : AppWindow), ∃ s1, l.foldlM (fun s path =>
      if fs.dir path then openFolder fs path cpp java python depth (tree path) s
      else openTab fs path false s) s = some s1 := by
    intro l
    induction l with
    | nil => exact fun s => ⟨s, rfl⟩
    | cons a l ih =>
      intro s
      have hstep : ∃ t, (if fs.dir a then
          openFolder fs a cpp java python depth (tree a) s
          else openTab fs a false s) = some t := by
        split
        · exact openFolder_total fs a cpp java python depth (tree a) s
        · exact openTab_total fs a false s
      obtain ⟨t, et⟩ := hstep
      obtain ⟨s1, e1⟩ := ih t
      exact ⟨s1, by simp only [List.foldlM_cons, et]; exact e1⟩
  obtain ⟨s1, e1⟩ := hloop paths s0
  unfold constructPaths
  rw [e0]
  simp only [Option.some_bind]
  rw [e1]
  simp only [Option.some_bind]
  by_cases hz : s1.count = 0
  · rw [if_pos hz]
    obtain ⟨s2, w2, e2, ht2, _⟩ := openTab_untitled_new fs s1
    exact ⟨s2, e2, by rw [ht2]; simp⟩
  · rw [if_neg hz]
    refine ⟨s1, rfl, ?_⟩
    unfold count at hz
    omega

theorem openContest_total (fs : FileSystem) (path lang : String) (number : Int)
    (s : AppWindow) : ∃ r, openContest fs path lang number s = some r := by
  unfold openContest
  dsimp only
  rw [openContestLoop_eq_foldlM]
  obtain ⟨t, e⟩ := foldlM_openTab_total
    (if !fs.dir path && fs.parentDir path then fs.mkdir path else fs) path
    ((List.range' 0 number.toNat).map
      (contestName (if lang = "" then s.settingManager.defaultLang else lang))) s
  rw [e]
  exact ⟨_, rfl⟩

theorem constructContest_spec (fs : FileSystem) (m : SettingManager)
    (cpp java python noHotExit : Bool) (number : Int) (path : String) :
    ∃ r, constructContest fs m cpp java python noHotExit number path = some r ∧
      1 ≤ r.2.tabs.length := by
  obtain ⟨s0, e0⟩ := construct_total fs m noHotExit
  obtain ⟨r, er⟩ := openContest_total fs path
    (if cpp then "C++" else if java then "Java" else if python then "Python"
      else s0.settingManager.defaultLang) number s0
  unfold constructContest
  rw [e0]
  simp only [Option.some_bind]
  rw [er]
  simp only [Option.some_bind]
  by_cases hz : r.2.count = 0
  · rw [if_pos hz]
    obtain ⟨s2, w2, e2, ht2, _⟩ := openTab_untitled_new r.1 r.2
    rw [e2]
    exact ⟨_, rfl, by simp [ht2]⟩
  · rw [if_neg hz]
    refine ⟨r, rfl, ?_⟩
    unfold count at hz
    omega

end CPEditor

namespace CPEditor
open AppWindow

theorem constructPaths_fallback (fs : FileSystem) (tree : String → List Entry)
    (m : SettingManager) (depth : Int) (cpp java python noHotExit : Bool) (t0 : AppWindow)
    (h0 : construct fs m noHotExit = some t0) (ht : t0.tabs = []) :
    ∃ t w, constructPaths fs tree m depth cpp java python noHotExit [] = some t ∧
      t.tabs = [w] ∧ w.isUntitled = true := by
  obtain ⟨s2, w2, e2, ht2, _, hp, _⟩ := openTab_untitled_new fs t0
  refine ⟨s2, w2, ?_, by rw [ht2, ht]; rfl, by simp [MainWindow.isUntitled, hp]⟩
  unfold constructPaths
  rw [h0]
  simp only [Option.some_bind, List.foldlM_nil]
  have hz : t0.count = 0 := by simp [count, ht]
  show (if t0.count = 0 then openTab fs "" false t0 else some t0) = some s2
  rw [if_pos hz]
  exact e2

theorem constructContest_fallback (fs : FileSystem) (m : SettingManager)
    (cpp java python noHotExit : Bool) (number : Int) (path : String) (t0 : AppWindow)
    (h0 : construct fs m noHotExit = some t0) (ht : t0.tabs = []) (hn : number ≤ 0) :
    ∃ r w, constructContest fs m cpp java python noHotExit number path = some r ∧
      r.2.tabs = [w] ∧ w.isUntitled = true := by
  obtain ⟨s2, w2, e2, ht2, _, hp, _⟩ := openTab_untitled_new
    (if !fs.dir path && fs.parentDir path then fs.mkdir path else fs) t0
  refine ⟨((if !fs.dir path && fs.parentDir path then fs.mkdir path else fs), s2), w2, ?_,
    by rw [ht2, ht]; rfl, by simp [MainWindow.isUntitled, hp]⟩
  have hnat : number.toNat = 0 := by omega
  have hz : t0.count = 0 := by simp [count, ht]
  unfold constructContest
  rw [h0]
  simp only [Option.some_bind]
  unfold openContest
  dsimp only
  rw [hnat]
  unfold openContestLoop
  simp only [Option.map_some', Option.some_bind]
  rw [if_pos hz, e2]
  rfl

/-- C17: with hot exit on and `noHotExit` false the base constructor opens
exactly `getNumberOfTabs()` tabs, tab `k` carrying the status stored under `k`;
the stored index becomes current when `0 ≤ index < numberOfTabs`, and otherwise
the tab restored last stays current. A window with a valid current index that
`quit()` saved, other than the case of a single unchanged untitled tab, is
restored with the same number of tabs, the same statuses and the same current
index; after that case no tab is restored, and the paths constructor without
paths and the contest constructor without files then open one untitled tab.
The windows built by these two constructors always have at least one tab. -/
theorem hot_exit_round_trip (fs : FileSystem) (tree : String → List Entry)
    (m : SettingManager) (s : AppWindow) (depth : Int) (cpp java python noHotExit : Bool)
    (paths : List String) (number : Int) (path : String) :
    (m.useHotExit = true →
      ∃ t, construct fs m false = some t ∧ t.tabs.length = m.numberOfTabs.toNat ∧
        (∀ k : Nat, k < t.tabs.length → (t.tabs[k]?).map MainWindow.toStatus =
          some (EditorStatus.ofMap (m.getEditorStatus k))) ∧
        (0 ≤ m.currentIndex ∧ m.currentIndex < m.numberOfTabs →
          t.currentIndex = m.currentIndex) ∧
        (¬ (0 ≤ m.currentIndex ∧ m.currentIndex < m.numberOfTabs) →
          t.currentIndex = (m.numberOfTabs.toNat : Int) - 1)) ∧
    (s.settingManager.useHotExit = true →
      ((s.tabs = [] ∧ s.currentIndex = -1) ∨ (0 ≤ s.currentIndex ∧ s.currentIndex < s.count)) →
      ∃ q t, quit s = some (true, q) ∧ construct fs q.settingManager false = some t ∧
        ((¬ ∃ w, s.tabs = [w] ∧ w.isUntitled = true ∧ w.textChanged = false) →
          t.tabs.map MainWindow.toStatus = s.tabs.map MainWindow.toStatus ∧
          t.currentIndex = s.currentIndex) ∧
        ((∃ w, s.tabs = [w] ∧ w.isUntitled = true ∧ w.textChanged = false) →
          t.tabs = [] ∧
          (∃ t2 w, constructPaths fs tree q.settingManager depth cpp java python false [] =
              some t2 ∧ t2.tabs = [w] ∧ w.isUntitled = true) ∧
          (number ≤ 0 →
            ∃ r w, constructContest fs q.settingManager cpp java python false number path =
              some r ∧ r.2.tabs = [w] ∧ w.isUntitled = true))) ∧
    (∃ t, constructPaths fs tree m depth cpp java python noHotExit paths = some t ∧
      1 ≤ t.tabs.length) ∧
    (∃ r, constructContest fs m cpp java python noHotExit number path = some r ∧
      1 ≤ r.2.tabs.length) := by
  refine ⟨?_, ?_, constructPaths_spec fs tree m depth cpp java python noHotExit paths,
    constructContest_spec fs m cpp java python noHotExit number path⟩
  · intro hhot
    obtain ⟨t, e, hl, hst, hin, hout, _⟩ := construct_restores fs m hhot
    exact ⟨t, e, hl, hst, hin, hout⟩
  · intro hhot hwf
    obtain ⟨q, eq, hqhot, hsingle, hmany⟩ := quit_stored s hhot
    obtain ⟨t, e, hl, hst, hin, hout, _⟩ := construct_restores fs q.settingManager hqhot
    refine ⟨q, t, eq, e, ?_, ?_⟩
    · intro hns
      obtain ⟨hn, hc, hget⟩ := hmany hns
      have hlen : t.tabs.length = s.tabs.length := by
        rw [hl, hn]
        simp [count]
      constructor
      · apply List.ext_getElem?
        intro k
        rw [List.getElem?_map, List.getElem?_map]
        by_cases hk : k < t.tabs.length
        · rw [hst k hk, hget k]
          have hk2 : k < s.tabs.length := by omega
          rw [if_pos (by constructor <;> simp [count, hk2])]
          simp [List.getElem?_eq_getElem hk2, EditorStatus.ofMap]
        · have h1 : t.tabs[k]? = none := List.getElem?_eq_none (by omega)
          have h2 : s.tabs[k]? = none := List.getElem?_eq_none (by omega)
          rw [h1, h2]
      · rcases hwf with ⟨hnil, hcur⟩ | ⟨h0, h1⟩
        · have hnot : ¬ (0 ≤ q.settingManager.currentIndex ∧
              q.settingManager.currentIndex < q.settingManager.numberOfTabs) := by
            rw [hc, hcur]
            omega
          rw [hout hnot, hn, hcur]
          simp [count, hnil]
        · rw [hin (by rw [hc, hn]; exact ⟨h0, h1⟩), hc]
    · intro hs
      obtain ⟨hn, _⟩ := hsingle hs
      have hnil : t.tabs = [] := by
        apply List.eq_nil_of_length_eq_zero
        rw [hl, hn]
        rfl
      exact ⟨hnil, constructPaths_fallback fs tree q.settingManager depth cpp java python
          false t e hnil,
        fun hnum => constructContest_fallback fs q.settingManager cpp java python false
          number path t e hnil hnum⟩

end CPEditor

namespace CPEditor
open AppWindow

/-- A window with an untitled tab and a second untitled tab that carries a
problem URL is saved by `quit()` and restored with both tabs and the current
index 0. -/
theorem hot_exit_round_trip_witness :
    (Sample.windowOf [Sample.untitled 1 "", Sample.untitled 2 "u"]).settingManager.useHotExit =
        true ∧
      (0 ≤ (Sample.windowOf [Sample.untitled 1 "", Sample.untitled 2 "u"]).currentIndex ∧
        (Sample.windowOf [Sample.untitled 1 "", Sample.untitled 2 "u"]).currentIndex <
          (Sample.windowOf [Sample.untitled 1 "", Sample.untitled 2 "u"]).count) ∧
      ∃ q t, quit (Sample.windowOf [Sample.untitled 1 "", Sample.untitled 2 "u"]) =
          some (true, q) ∧
        construct Sample.files q.settingManager false = some t ∧
        t.tabs.map MainWindow.toStatus =
          [(Sample.untitled 1 "").toStatus, (Sample.untitled 2 "u").toStatus] ∧
        t.currentIndex = 0 :=
  ⟨rfl, by decide,
    ((hot_exit_round_trip Sample.files (fun _ => []) Sample.settings
      (Sample.windowOf [Sample.untitled 1 "", Sample.untitled 2 "u"]) 0 false false false false
      [] 0 "").2.1 rfl (Or.inr (by decide))).imp (fun _ h => h.imp (fun _ h2 =>
        ⟨h2.1, h2.2.1, h2.2.2.1 (fun hs => by
          obtain ⟨w, hw, _⟩ := hs
          exact absurd (congrArg List.length hw) (by simp [Sample.windowOf]))⟩))⟩

end CPEditor
